import Mathlib

/-!
# vo2mft: the physical state, the Fermi function, the free energy and the residual builders

A shallow embedding of `vo2solve/environment.go`, `vo2solve/systemM.go` and `systemW.go`.

## Arithmetic

Go's `float64` is embedded as `F64`: NaN, the two infinities, and the finite values, a finite
value being the rational number it denotes (the two zeros are one value, and a division by it
behaves as a division by `+0`).  The four basic operations follow IEEE 754 binary64: the exact
rational result is rounded to the nearest value with a 53 bit significand, ties to even, with
gradual underflow below `2^-1022` and overflow to an infinity above `MaxFloat64`.  Every
operation is rounded on its own, in the order Go's grammar gives the expression (no fused
multiply-add).

The transcendental functions of Go's `math` package (`Exp`, `Log`, `Sinh`, `Cosh`, `Pow`) are not
code of this repository; they are a parameter `MathLib` of every function that calls them, and
what the proofs use of them is the explicit contract `MathLib.Sound`.
-/

namespace Vo2

/-! ## The float64 values -/

/-- The values of a Go `float64`; `fin q` is the finite value denoting the rational `q`. -/
inductive F64 where
  | nan : F64
  | pinf : F64
  | ninf : F64
  | fin (q : ℚ) : F64
  deriving DecidableEq

namespace F64

/-- The largest finite value, `math.MaxFloat64 = (2^53 - 1) * 2^971`. -/
def maxQ : ℚ := (2 ^ 53 - 1) * 2 ^ 971

/-- The exponent of the unit in the last place used for rounding `q`: 53 significant bits, and
never below the subnormal quantum `2^-1074`. -/
def quantumExp (q : ℚ) : ℤ := max (Int.log 2 |q| - 52) (-1074)

/-- Round a rational to the nearest integer, ties to the even one. -/
def roundHalfEven (x : ℚ) : ℤ :=
  if x - ⌊x⌋ < 1 / 2 then ⌊x⌋
  else if 1 / 2 < x - ⌊x⌋ then ⌊x⌋ + 1
  else if ⌊x⌋ % 2 = 0 then ⌊x⌋ else ⌊x⌋ + 1

/-- The rational nearest to `q` on the binary64 grid, before the range check. -/
def roundQ (q : ℚ) : ℚ := roundHalfEven (q / 2 ^ quantumExp q) * 2 ^ quantumExp q

/-- IEEE 754 round-to-nearest-even into binary64. -/
def rnd (q : ℚ) : F64 :=
  if maxQ < roundQ q then pinf
  else if roundQ q < -maxQ then ninf
  else fin (roundQ q)

/-- `math.MaxFloat64`. -/
def maxFloat64 : F64 := fin maxQ

/-- Unary minus. -/
def neg : F64 → F64
  | nan => nan
  | pinf => ninf
  | ninf => pinf
  | fin q => fin (-q)

/-- `math.Abs`. -/
def abs : F64 → F64
  | nan => nan
  | pinf => pinf
  | ninf => pinf
  | fin q => fin |q|

/-- Floating-point addition. -/
def add : F64 → F64 → F64
  | nan, _ => nan
  | _, nan => nan
  | pinf, ninf => nan
  | ninf, pinf => nan
  | pinf, _ => pinf
  | _, pinf => pinf
  | ninf, _ => ninf
  | _, ninf => ninf
  | fin a, fin b => rnd (a + b)

/-- Floating-point subtraction. -/
def sub (x y : F64) : F64 := add x (neg y)

/-- An infinity with the sign of a nonzero rational, NaN for zero: the product of an infinity
and a finite value. -/
def infTimes (positive : Bool) (q : ℚ) : F64 :=
  if q = 0 then nan else if decide (0 < q) = positive then pinf else ninf

/-- Floating-point multiplication. -/
def mul : F64 → F64 → F64
  | nan, _ => nan
  | _, nan => nan
  | pinf, pinf => pinf
  | pinf, ninf => ninf
  | ninf, pinf => ninf
  | ninf, ninf => pinf
  | pinf, fin q => infTimes true q
  | ninf, fin q => infTimes false q
  | fin q, pinf => infTimes true q
  | fin q, ninf => infTimes false q
  | fin a, fin b => rnd (a * b)

/-- Floating-point division; the finite zero divides as `+0`. -/
def div : F64 → F64 → F64
  | nan, _ => nan
  | _, nan => nan
  | pinf, pinf => nan
  | pinf, ninf => nan
  | ninf, pinf => nan
  | ninf, ninf => nan
  | pinf, fin q => if 0 ≤ q then pinf else ninf
  | ninf, fin q => if 0 ≤ q then ninf else pinf
  | fin _, pinf => fin 0
  | fin _, ninf => fin 0
  | fin a, fin b =>
    if b = 0 then (if a = 0 then nan else if 0 < a then pinf else ninf) else rnd (a / b)

/-- The comparison `x <= y` of Go: false as soon as an operand is NaN. -/
def le : F64 → F64 → Bool
  | nan, _ => false
  | _, nan => false
  | ninf, _ => true
  | _, pinf => true
  | pinf, _ => false
  | _, ninf => false
  | fin a, fin b => decide (a ≤ b)

/-- The comparison `x == y` of Go: false as soon as an operand is NaN. -/
def eq : F64 → F64 → Bool
  | nan, _ => false
  | _, nan => false
  | x, y => decide (x = y)

/-- The comparison `x < y` of Go. -/
def lt (x y : F64) : Bool := le x y && !eq x y

/-- The comparison `x >= y` of Go. -/
def ge (x y : F64) : Bool := le y x

/-- The comparison `x > y` of Go. -/
def gt (x y : F64) : Bool := lt y x

/-- A value is finite when it is neither NaN nor an infinity. -/
def isFinite : F64 → Bool
  | fin _ => true
  | _ => false

/-- A value of the embedding is a `float64` value when it is NaN, an infinity, or a finite
value on the binary64 grid: one that rounding leaves unchanged. -/
def isFloat64 : F64 → Bool
  | fin q => decide (rnd q = fin q)
  | _ => true

end F64

open F64

/-! ## Go's math package -/

/-- The functions of Go's `math` package the program calls, as a parameter. -/
structure MathLib where
  /-- The function `math.Exp`. -/
  exp : F64 → F64
  /-- The function `math.Log`. -/
  log : F64 → F64
  /-- The function `math.Sinh`. -/
  sinh : F64 → F64
  /-- The function `math.Cosh`. -/
  cosh : F64 → F64
  /-- The function `math.Pow`. -/
  pow : F64 → F64 → F64

/-! ## The physical state -/

/-- The struct `Environment`, field for field. -/
structure Environment where
  BZPointsPerDim : Int
  Tae : F64
  Tce : F64
  Tbe : F64
  Tao : F64
  Tco : F64
  Tbo : F64
  M : F64
  W : F64
  Mu : F64
  Beta : F64
  B : F64
  Ja : F64
  Jc : F64
  Ka : F64
  Kc : F64
  Kb : F64
  EpsilonM : F64
  EpsilonR : F64
  IonsOnly : Bool
  deriving DecidableEq

/-- The hopping-expectation provider `HoppingEV`: its six methods, each a function of the
current `Environment`.  Its implementation is not part of the sources at hand. -/
structure HoppingEV where
  Dae : Environment → F64
  Dce : Environment → F64
  Dbe : Environment → F64
  Dao : Environment → F64
  Dco : Environment → F64
  Dbo : Environment → F64

/-- The struct `FinalEnvironment`: the embedded `Environment`, the six hopping expectation
values and the free energy. -/
structure FinalEnvironment where
  toEnvironment : Environment
  Dae : F64
  Dce : F64
  Dbe : F64
  Dao : F64
  Dco : F64
  Dbo : F64
  FreeEnergy : F64

/-- A run-time panic of the Go program. -/
inductive Panic where
  /-- The panic of `reflect.Value.Type` called on the zero Value. -/
  | typeOnZeroValue : Panic
  /-- The panic `Field ... not present in Environment` of `Set`. -/
  | fieldNotPresent (name : String) : Panic
  /-- The panic `Field ... is non-float` of `Set`. -/
  | fieldNonFloat (name : String) : Panic
  /-- The panic `index out of range`. -/
  | indexOutOfRange (i : Nat) : Panic
  /-- A panic raised by an external collaborator. -/
  | collaborator (msg : String) : Panic
  deriving DecidableEq

namespace Environment

/-- The method `DeltaS`. -/
def DeltaS (env : Environment) : F64 :=
  sub (add env.B env.EpsilonM) env.EpsilonR

/-- The method `QK`: combined biquadratic coefficient. -/
def QK (env : Environment) : F64 :=
  add (add (mul (fin 4) env.Ka) (mul (fin 2) env.Kc)) (mul (fin 8) env.Kb)

/-- The method `QJ`: combined renormalized exchange coefficient. -/
def QJ (env : Environment) (Ds : HoppingEV) : F64 :=
  let Dao := Ds.Dao env
  let Dco := Ds.Dco env
  add (mul (fin 4) (add env.Ja (mul env.Tao Dao))) (mul (fin 2) (add env.Jc (mul env.Tco Dco)))

/-- The method `Qele`. -/
def Qele (env : Environment) (Ds : HoppingEV) : F64 :=
  let Dae := Ds.Dae env
  let Dce := Ds.Dce env
  let Dbe := Ds.Dbe env
  add (add (mul (mul (fin 4) env.Tae) Dae) (mul (mul (fin 2) env.Tce) Dce))
    (mul (mul (fin 8) env.Tbe) Dbe)

/-- The method `Z1`: the single-site partition function. -/
def Z1 (L : MathLib) (env : Environment) (Ds : HoppingEV) : F64 :=
  let exp := L.exp (mul (neg env.Beta) (sub env.DeltaS (mul env.W env.QK)))
  add (fin 1) (mul (mul (fin 2) exp) (L.cosh (mul (mul env.Beta env.M) (env.QJ Ds))))

/-- The guard of `Fermi`: the temperature is 0 or `e^(Beta*energy)` is too big to calculate. -/
def fermiGuard (L : MathLib) (env : Environment) (energy : F64) : Bool :=
  F64.eq env.Beta pinf || ge env.Beta (abs (div maxFloat64 energy)) ||
    ge (abs (mul env.Beta energy)) (L.log maxFloat64)

/-- The method `Fermi`: the Fermi distribution function. -/
def Fermi (L : MathLib) (env : Environment) (energy : F64) : F64 :=
  if F64.eq energy (fin 0) then fin (1 / 2)
  else if fermiGuard L env energy then
    (if le energy (fin 0) then fin 1 else fin 0)
  else div (fin 1) (add (L.exp (mul energy env.Beta)) (fin 1))

/-- The method `FreeEnergyIons`. -/
def FreeEnergyIons (L : MathLib) (env : Environment) (Ds : HoppingEV) : F64 :=
  let T := div (fin 1) env.Beta
  mul (mul (fin (-2)) T) (L.log (env.Z1 L Ds))

end Environment

/-! ## The electronic collaborators -/

/-- The external routines `FreeEnergyElectrons` calls, each of which may panic: the Hamiltonian
builder `ElHamiltonian`, the matrix dimensions, the eigenvalue routine `cmatrix.Eigensystem`
(its eigenvalues) and the Brillouin-zone average `bzone.Avg`. -/
structure Electronic (Mat : Type) where
  ElHamiltonian : Environment → List F64 → Except Panic Mat
  Dims : Mat → Int × Int
  Eigensystem : Mat → Except Panic (List F64)
  Avg : Int → Int → (List F64 → Except Panic F64) → Except Panic F64

/-- The loop of `inner`: from index `alpha` on, `n` more eigenvalues are added to `sum`. -/
def bandSum (L : MathLib) (env : Environment) (evals : List F64) :
    Nat → Nat → F64 → Except Panic F64
  | 0, _, sum => .ok sum
  | n + 1, alpha, sum =>
    match evals.get? alpha with
    | none => .error (Panic.indexOutOfRange alpha)
    | some eps_ka =>
      let val := add (fin 1) (L.exp (mul (neg env.Beta) eps_ka))
      bandSum L env evals n (alpha + 1) (add sum (mul (fin 2) (L.log val)))

namespace Environment

/-- The closure `inner` of `FreeEnergyElectrons`. -/
def inner {Mat : Type} (L : MathLib) (E : Electronic Mat) (env : Environment)
    (k : List F64) : Except Panic F64 := do
  let H ← E.ElHamiltonian env k
  let dim := (E.Dims H).1
  let evals ← E.Eigensystem H
  bandSum L env evals dim.toNat 0 (fin 0)

/-- The method `FreeEnergyElectrons`. -/
def FreeEnergyElectrons {Mat : Type} (L : MathLib) (E : Electronic Mat)
    (env : Environment) : Except Panic F64 := do
  let Lpts := env.BZPointsPerDim
  let T := div (fin 1) env.Beta
  let avg ← E.Avg Lpts 3 (inner L E env)
  let band_part := mul (neg T) avg
  let n := fin 1
  let mu_part := mul (mul (fin 2) env.Mu) n
  return add band_part mu_part

/-- The sum `avg_avg_part` of `FreeEnergy`. -/
def avgAvgPart (L : MathLib) (env : Environment) (Ds : HoppingEV) : F64 :=
  add (add (mul (env.QJ Ds) (L.pow env.M (fin 2))) (mul env.QK (L.pow env.W (fin 2))))
    (env.Qele Ds)

/-- The method `FreeEnergy`: free energy per cell. -/
def FreeEnergy {Mat : Type} (L : MathLib) (E : Electronic Mat) (env : Environment)
    (Ds : HoppingEV) : Except Panic F64 :=
  let ion_part := env.FreeEnergyIons L Ds
  let avg_avg_part := env.avgAvgPart L Ds
  if env.IonsOnly then
    .ok (add ion_part avg_avg_part)
  else do
    let electron_part ← env.FreeEnergyElectrons L E
    return add (add ion_part electron_part) avg_avg_part

end Environment

/-! ## The bulk setter -/

/-- The kinds of the fields of `Environment`. -/
inductive Kind where
  | int
  | float64
  | bool
  deriving DecidableEq

/-- What `reflect` hands back: the zero Value, the typed nil pointer `reflect.Zero(TypeOf(env))`,
or an addressable field of the struct with its kind. -/
inductive RValue where
  | zero : RValue
  | nilPtr : RValue
  | field (name : String) (kind : Kind) : RValue
  deriving DecidableEq

/-- The `float64` fields of `Environment`. -/
inductive FloatField where
  | Tae | Tce | Tbe | Tao | Tco | Tbo | M | W | Mu | Beta | B | Ja | Jc | Ka | Kc | Kb
  | EpsilonM | EpsilonR
  deriving DecidableEq

namespace FloatField

/-- The name of a `float64` field in the struct declaration. -/
def name : FloatField → String
  | Tae => "Tae"
  | Tce => "Tce"
  | Tbe => "Tbe"
  | Tao => "Tao"
  | Tco => "Tco"
  | Tbo => "Tbo"
  | M => "M"
  | W => "W"
  | Mu => "Mu"
  | Beta => "Beta"
  | B => "B"
  | Ja => "Ja"
  | Jc => "Jc"
  | Ka => "Ka"
  | Kc => "Kc"
  | Kb => "Kb"
  | EpsilonM => "EpsilonM"
  | EpsilonR => "EpsilonR"

/-- The `float64` fields in the order of the struct declaration. -/
def all : List FloatField :=
  [Tae, Tce, Tbe, Tao, Tco, Tbo, M, W, Mu, Beta, B, Ja, Jc, Ka, Kc, Kb, EpsilonM, EpsilonR]

/-- The `float64` field of a given name, if there is one. -/
def ofName (s : String) : Option FloatField :=
  all.find? (fun f => f.name = s)

end FloatField

/-- The method `FieldByName` on the struct value: the zero Value for a name that is no field. -/
def FieldByName (name : String) : RValue :=
  if name = "BZPointsPerDim" then RValue.field name Kind.int
  else if name = "IonsOnly" then RValue.field name Kind.bool
  else
    match FloatField.ofName name with
    | some _ => RValue.field name Kind.float64
    | none => RValue.zero

namespace Environment

/-- Read a `float64` field. -/
def getFloat (env : Environment) : FloatField → F64
  | .Tae => env.Tae
  | .Tce => env.Tce
  | .Tbe => env.Tbe
  | .Tao => env.Tao
  | .Tco => env.Tco
  | .Tbo => env.Tbo
  | .M => env.M
  | .W => env.W
  | .Mu => env.Mu
  | .Beta => env.Beta
  | .B => env.B
  | .Ja => env.Ja
  | .Jc => env.Jc
  | .Ka => env.Ka
  | .Kc => env.Kc
  | .Kb => env.Kb
  | .EpsilonM => env.EpsilonM
  | .EpsilonR => env.EpsilonR

/-- Overwrite a `float64` field. -/
def putFloat (env : Environment) (f : FloatField) (x : F64) : Environment :=
  match f with
  | .Tae => { env with Tae := x }
  | .Tce => { env with Tce := x }
  | .Tbe => { env with Tbe := x }
  | .Tao => { env with Tao := x }
  | .Tco => { env with Tco := x }
  | .Tbo => { env with Tbo := x }
  | .M => { env with M := x }
  | .W => { env with W := x }
  | .Mu => { env with Mu := x }
  | .Beta => { env with Beta := x }
  | .B => { env with B := x }
  | .Ja => { env with Ja := x }
  | .Jc => { env with Jc := x }
  | .Ka => { env with Ka := x }
  | .Kc => { env with Kc := x }
  | .Kb => { env with Kb := x }
  | .EpsilonM => { env with EpsilonM := x }
  | .EpsilonR => { env with EpsilonR := x }

/-- The method `SetFloat` on the field of the given name, a `float64` field. -/
def SetFloat (env : Environment) (name : String) (x : F64) : Environment :=
  match FloatField.ofName name with
  | some f => env.putFloat f x
  | none => env

/-- The loop of `Set` from index `i` on, over the names still to be assigned. -/
def setFrom (v : List F64) : List String → Nat → Environment → Except Panic Environment
  | [], _, env => .ok env
  | name :: rest, i, env =>
    let field := FieldByName name
    if field = RValue.nilPtr then .error (Panic.fieldNotPresent name)
    else
      match field with
      | RValue.field _ Kind.float64 =>
        match v.get? i with
        | none => .error (Panic.indexOutOfRange i)
        | some x => setFrom v rest (i + 1) (env.SetFloat name x)
      | RValue.field _ _ => .error (Panic.fieldNonFloat name)
      | _ => .error Panic.typeOnZeroValue

/-- The method `Set`: assign `v[i]` to the field named `vars[i]`, in order. -/
def Set (env : Environment) (v : List F64) (vars : List String) : Except Panic Environment :=
  setFrom v vars 0 env

end Environment

/-! ## The residual builders -/

/-- What a call of a residual function leaves: the pair `(float64, error)` it returns and the
`Environment` after the call. -/
structure Residual where
  value : F64
  err : Option String
  env : Environment
  deriving DecidableEq

/-- The value `solve.SimpleDiffable(F, dim, h, epsabs)`: the residual function on the shared
`Environment`, and the constants handed to the solver. -/
structure Diffable where
  F : Environment → List F64 → Except Panic Residual
  Dimension : Nat
  H : F64
  Epsabs : F64

/-- The residual `F` of `AbsErrorM`, on the current state of the captured `Environment`. -/
def absErrorMF (L : MathLib) (Ds : HoppingEV) (vars : List String)
    (env : Environment) (v : List F64) : Except Panic Residual := do
  let env ← env.Set v vars
  let exp := L.exp (mul (neg env.Beta) (sub env.DeltaS (mul env.W env.QK)))
  let lhs := env.M
  let rhs := div (mul (mul (fin 2) exp) (L.sinh (mul (mul env.Beta env.M) (env.QJ Ds))))
    (env.Z1 L Ds)
  return { value := sub lhs rhs, err := none, env := env }

/-- The builder `AbsErrorM`: absolute error of the M equation. -/
def AbsErrorM (L : MathLib) (Ds : HoppingEV) (vars : List String) : Diffable :=
  { F := absErrorMF L Ds vars
    Dimension := vars.length
    H := rnd (1 / 1000000)
    Epsabs := rnd (1 / 10000) }

/-- The residual `F` of `AbsErrorW`, on the current state of the captured `Environment`. -/
def absErrorWF (L : MathLib) (Ds : HoppingEV) (vars : List String)
    (env : Environment) (v : List F64) : Except Panic Residual := do
  let env ← env.Set v vars
  let exp := L.exp (mul (neg env.Beta) (sub env.DeltaS (mul env.W env.QK)))
  let lhs := env.M
  let rhs := div (mul (mul (fin 2) exp) (L.cosh (mul (mul env.Beta env.M) (env.QJ Ds))))
    (env.Z1 L Ds)
  return { value := sub lhs rhs, err := none, env := env }

/-- The builder `AbsErrorW`: absolute error of the W equation. -/
def AbsErrorW (L : MathLib) (Ds : HoppingEV) (vars : List String) : Diffable :=
  { F := absErrorWF L Ds vars
    Dimension := vars.length
    H := rnd (1 / 1000000)
    Epsabs := rnd (1 / 10000) }

/-! ## What is assumed of Go's math package

Each clause is a documented special case of the function in Go's `math` package, or follows
from its stated accuracy (an error below one unit in the last place): `Exp` returns `+Inf`
above `709.78...` and `0` below `-745.13...`, `Exp(0) = 1`, `Exp(x) <= 2^ceil(x)` for
`x <= 0` since `e^x <= 2^x` there, `Log(MaxFloat64) = 709.78...`, `Sinh(0) = 0`,
`Cosh(0) = 1`, `Cosh(x) >= 1`, and `Cosh(x) = Exp(|x|) / 2` overflows with `Exp`. -/

/-- The contract of Go's `math` package that the proofs rely on. -/
structure MathLib.Sound (L : MathLib) : Prop where
  exp_nan : L.exp nan = nan
  exp_pinf : L.exp pinf = pinf
  exp_ninf : L.exp ninf = fin 0
  exp_zero : L.exp (fin 0) = fin 1
  exp_nonneg : ∀ x : F64, x ≠ nan → le (fin 0) (L.exp x) = true
  exp_overflow : ∀ q : ℚ, 710 < q → L.exp (fin q) = pinf
  exp_underflow : ∀ q : ℚ, q < -746 → L.exp (fin q) = fin 0
  exp_le_two_zpow : ∀ q : ℚ, q ≤ 0 → le (L.exp (fin q)) (fin (2 ^ ⌈q⌉)) = true
  log_maxFloat64_ge : le (fin 709) (L.log maxFloat64) = true
  log_maxFloat64_le : le (L.log maxFloat64) (fin 710) = true
  sinh_nan : L.sinh nan = nan
  sinh_zero : L.sinh (fin 0) = fin 0
  cosh_nan : L.cosh nan = nan
  cosh_zero : L.cosh (fin 0) = fin 1
  cosh_ge_one : ∀ x : F64, x ≠ nan → le (fin 1) (L.cosh x) = true
  cosh_overflow : ∀ q : ℚ, 711 < |q| → L.cosh (fin q) = pinf

/-! ## A coarse math package

A small computable library that meets the contract: it shows that the contract can be met and
lets the statements be evaluated on concrete inputs.  It is not Go's library. -/

/-- A coarse `Exp`: the power of two `2^floor(x)`, within the overflow thresholds. -/
def coarseExp : F64 → F64
  | nan => nan
  | pinf => pinf
  | ninf => fin 0
  | fin q => if 710 < q then pinf else if q < -746 then fin 0 else fin (2 ^ ⌊q⌋)

/-- A coarse `Log`: `ln 2` times the binary logarithm rounded up. -/
def coarseLog : F64 → F64
  | nan => nan
  | pinf => pinf
  | ninf => nan
  | fin q =>
    if q < 0 then nan else if q = 0 then ninf else rnd (Int.clog 2 q * (693 / 1000))

/-- A coarse `Sinh`: the identity within the overflow thresholds. -/
def coarseSinh : F64 → F64
  | nan => nan
  | pinf => pinf
  | ninf => ninf
  | fin q => if 711 < q then pinf else if q < -711 then ninf else rnd q

/-- A coarse `Cosh`: the power of two `2^floor(|x|)`, within the overflow threshold. -/
def coarseCosh : F64 → F64
  | nan => nan
  | pinf => pinf
  | ninf => pinf
  | fin q => if 711 < |q| then pinf else fin (2 ^ ⌊|q|⌋)

/-- A coarse `Pow`: squares only. -/
def coarsePow (x y : F64) : F64 := if y = fin 2 then mul x x else nan

/-- The coarse math package. -/
def coarseMath : MathLib :=
  { exp := coarseExp, log := coarseLog, sinh := coarseSinh, cosh := coarseCosh,
    pow := coarsePow }

/-- The provider whose six expectation values are all zero. -/
def zeroHopping : HoppingEV :=
  { Dae := fun _ => fin 0, Dce := fun _ => fin 0, Dbe := fun _ => fin 0,
    Dao := fun _ => fin 0, Dco := fun _ => fin 0, Dbo := fun _ => fin 0 }

/-- The `Environment` with every field zero (and `IonsOnly` false). -/
def zeroEnv : Environment :=
  { BZPointsPerDim := 0, Tae := fin 0, Tce := fin 0, Tbe := fin 0, Tao := fin 0,
    Tco := fin 0, Tbo := fin 0, M := fin 0, W := fin 0, Mu := fin 0, Beta := fin 0,
    B := fin 0, Ja := fin 0, Jc := fin 0, Ka := fin 0, Kc := fin 0, Kb := fin 0,
    EpsilonM := fin 0, EpsilonR := fin 0, IonsOnly := false }

/-- Electronic collaborators that panic as soon as one of them is called. -/
def failingElectronic : Electronic Unit :=
  { ElHamiltonian := fun _ _ => .error (Panic.collaborator "ElHamiltonian")
    Dims := fun _ => (0, 0)
    Eigensystem := fun _ => .error (Panic.collaborator "Eigensystem")
    Avg := fun _ _ _ => .error (Panic.collaborator "Avg") }

/-- Electronic collaborators of a one-band toy model: a 1x1 Hamiltonian whose eigenvalue is
the first coordinate of `k`, averaged over the single point `k = 0`. -/
def toyElectronic : Electronic F64 :=
  { ElHamiltonian := fun _ k => .ok (k.headD (fin 0))
    Dims := fun _ => (1, 1)
    Eigensystem := fun H => .ok [H]
    Avg := fun _ _ f => f [fin 0] }

/-- A low-temperature state with finite parameters: `Beta = 1000`, `B = 1`, `M = 1`, `Ja = 1`,
every other field zero. -/
def lowTempEnv : Environment :=
  { zeroEnv with Beta := fin 1000, B := fin 1, M := fin 1, Ja := fin 1 }

/-- A low-temperature state with finite parameters and a negative level splitting:
`Beta = 1000`, `B = -1`, every other field zero. -/
def deepWellEnv : Environment :=
  { zeroEnv with Beta := fin 1000, B := fin (-1) }

/-- The all-zero state at `Beta = 1`. -/
def unitBetaEnv : Environment :=
  { zeroEnv with Beta := fin 1 }

/-! ## Loading, marshalling and the final snapshot -/

/-- The external file and JSON routines, a Go `error` being its message: `ioutil.ReadFile`,
`serialize.CopyFromJSON` filling the `Environment` it is handed, and `serialize.MakeJSON` on
an `Environment` and on a `FinalEnvironment`. -/
structure Serializer where
  ReadFile : String → Except String String
  CopyFromJSON : String → Environment → Except String Environment
  MakeJSON : Environment → Except String String
  MakeJSONFinal : FinalEnvironment → Except String String

/-- The function `NewEnvironment`: fill a fresh `Environment` from serialized data. -/
def NewEnvironment (S : Serializer) (jsonData : String) : Except String Environment :=
  match S.CopyFromJSON jsonData zeroEnv with
  | .error err => .error err
  | .ok env => .ok env

/-- The function `LoadEnv`: load an `Environment` from the JSON file at `envFilePath`. -/
def LoadEnv (S : Serializer) (envFilePath : String) : Except String Environment :=
  match S.ReadFile envFilePath with
  | .error err => .error err
  | .ok data =>
    match NewEnvironment S data with
    | .error err => .error err
    | .ok env => .ok env

/-- The function `LoadIonEnv`: load an `Environment` and set all electronic parameters to 0
to restrict to the ionic system. -/
def LoadIonEnv (S : Serializer) (envFilePath : String) : Except String Environment :=
  match LoadEnv S envFilePath with
  | .error err => .error err
  | .ok env =>
    .ok { env with
      Tae := fin 0, Tce := fin 0, Tbe := fin 0, Tao := fin 0, Tco := fin 0, Tbo := fin 0,
      EpsilonM := fin 0, EpsilonR := fin 0, Mu := fin 0, IonsOnly := true }

/-- The method `Environment.Marshal`: the JSON text and the `Environment` after the call, or
the panic on a marshalling error. -/
def Environment.Marshal (S : Serializer) (env : Environment) :
    Except Panic (String × Environment) :=
  let env1 := if F64.eq env.Beta pinf = true then { env with Beta := maxFloat64 } else env
  match S.MakeJSON env1 with
  | .error err => .error (Panic.collaborator err)
  | .ok marshalled =>
    let env2 := if F64.eq env1.Beta maxFloat64 = true then { env1 with Beta := pinf } else env1
    .ok (marshalled, env2)

/-- The method `FinalEnvironment.Marshal`. -/
def FinalEnvironment.Marshal (S : Serializer) (env : FinalEnvironment) :
    Except Panic (String × FinalEnvironment) :=
  let env1 := if F64.eq env.toEnvironment.Beta pinf = true then
    { env with toEnvironment := { env.toEnvironment with Beta := maxFloat64 } } else env
  match S.MakeJSONFinal env1 with
  | .error err => .error (Panic.collaborator err)
  | .ok marshalled =>
    let env2 := if F64.eq env1.toEnvironment.Beta maxFloat64 = true then
      { env1 with toEnvironment := { env1.toEnvironment with Beta := pinf } } else env1
    .ok (marshalled, env2)

/-- The function `NewFinalEnvironment`: the six hopping expectation values and the free
energy of the given `Environment`, packaged with a copy of it. -/
def NewFinalEnvironment {Mat : Type} (L : MathLib) (E : Electronic Mat) (env : Environment)
    (Ds : HoppingEV) : Except Panic FinalEnvironment :=
  let Dae := Ds.Dae env
  let Dce := Ds.Dce env
  let Dbe := Ds.Dbe env
  let Dao := Ds.Dao env
  let Dco := Ds.Dco env
  let Dbo := Ds.Dbo env
  match env.FreeEnergy L E Ds with
  | .error p => .error p
  | .ok FreeEnergy =>
    .ok { toEnvironment := env, Dae := Dae, Dce := Dce, Dbe := Dbe, Dao := Dao, Dco := Dco,
          Dbo := Dbo, FreeEnergy := FreeEnergy }

/-- A serializer over a one-file store: every path reads the same text, parsing gives a fixed
record, and marshalling gives a fixed text. -/
def toySerializer (record : Environment) : Serializer :=
  { ReadFile := fun _ => .ok "record"
    CopyFromJSON := fun _ _ => .ok record
    MakeJSON := fun _ => .ok "json"
    MakeJSONFinal := fun _ => .ok "json" }

/-- The documented special cases of Go's `math` package at infinity and NaN that the proofs
about `Beta = +Inf` rely on: `Log(NaN) = NaN`, `Log(+Inf) = +Inf`, `Cosh(+-Inf) = +Inf`. -/
structure MathLib.Special (L : MathLib) : Prop where
  log_nan : L.log nan = nan
  log_pinf : L.log pinf = pinf
  cosh_pinf : L.cosh pinf = pinf
  cosh_ninf : L.cosh ninf = pinf

/-- A value that is NaN or an infinity. -/
def F64.isNonFinite : F64 → Prop
  | fin _ => False
  | _ => True

/-! ## The accuracy of Exp

Go's `Exp` has an error below one unit in the last place, so for `|x| <= 64` its value is
finite and within the relative distance `2^-50` of `e^x`, which lies between `(1 + x/n)^n` and
`(1 - x/n)^(-n)`; the bracket is taken at `n = 8192`. -/

/-- The accuracy of `Exp` that the proofs about rounding in the last place rely on. -/
structure MathLib.Accurate (L : MathLib) : Prop where
  exp_bracket : ∀ q : ℚ, |q| ≤ 64 → ∃ y : ℚ, L.exp (fin q) = fin y ∧
    (1 - 2 ^ (-50 : ℤ)) * (1 + q / 8192) ^ 8192 ≤ y ∧
    y * (1 - q / 8192) ^ 8192 ≤ 1 + 2 ^ (-50 : ℤ)

/-- An `Exp` within the bracket: `(1 + x/8192)^8192` for `|x| <= 64`, the coarse one
elsewhere. -/
def bracketExp : F64 → F64
  | nan => nan
  | pinf => pinf
  | ninf => fin 0
  | fin q => if |q| ≤ 64 then fin ((1 + q / 8192) ^ 8192) else coarseExp (fin q)

/-- The coarse math package with the `Exp` within the bracket. -/
def bracketMath : MathLib :=
  { exp := bracketExp, log := coarseLog, sinh := coarseSinh, cosh := coarseCosh,
    pow := coarsePow }

/-- A cold state with finite parameters and a positive level splitting: `Beta = 1000`,
`B = 1`, every other field zero. -/
def coldEnv : Environment :=
  { zeroEnv with Beta := fin 1000, B := fin 1 }

/-- A state with finite parameters and a negative level splitting at `Beta = 1`: `B = -50`,
every other field zero. -/
def warmWellEnv : Environment :=
  { zeroEnv with Beta := fin 1, B := fin (-50) }

/-! ## Rounding: symmetry, monotonicity, exactness on the binary64 grid -/

namespace F64

theorem roundHalfEven_intCast (n : ℤ) : roundHalfEven (n : ℚ) = n := by
  simp [roundHalfEven]

theorem roundHalfEven_mono {x y : ℚ} (h : x ≤ y) : roundHalfEven x ≤ roundHalfEven y := by
  have hfl : ⌊x⌋ ≤ ⌊y⌋ := Int.floor_mono h
  have hx0 := Int.floor_le x
  have hx1 := Int.lt_floor_add_one x
  have hy0 := Int.floor_le y
  have hy1 := Int.lt_floor_add_one y
  rcases hfl.lt_or_eq with hlt | heq
  · have h1 : roundHalfEven x ≤ ⌊x⌋ + 1 := by
      unfold roundHalfEven; split_ifs <;> omega
    have h2 : ⌊y⌋ ≤ roundHalfEven y := by
      unfold roundHalfEven; split_ifs <;> omega
    omega
  · unfold roundHalfEven
    rw [heq] at *
    split_ifs <;> first | omega | (exfalso; linarith)

theorem roundHalfEven_neg (x : ℚ) : roundHalfEven (-x) = -roundHalfEven x := by
  by_cases hx : x = (⌊x⌋ : ℚ)
  · rw [hx, ← Int.cast_neg, roundHalfEven_intCast, roundHalfEven_intCast]
  · have h0 := Int.floor_le x
    have h1 := Int.lt_floor_add_one x
    have hlt : (⌊x⌋ : ℚ) < x := lt_of_le_of_ne h0 (Ne.symm hx)
    have hfl : ⌊-x⌋ = -⌊x⌋ - 1 := by
      rw [Int.floor_eq_iff]
      push_cast
      constructor <;> linarith
    unfold roundHalfEven
    rw [hfl]
    push_cast
    split_ifs <;> first | omega | (exfalso; linarith)

theorem le_roundHalfEven {n : ℤ} {x : ℚ} (h : (n : ℚ) ≤ x) : n ≤ roundHalfEven x := by
  have := roundHalfEven_mono h
  rwa [roundHalfEven_intCast] at this

theorem roundHalfEven_le {n : ℤ} {x : ℚ} (h : x ≤ (n : ℚ)) : roundHalfEven x ≤ n := by
  have := roundHalfEven_mono h
  rwa [roundHalfEven_intCast] at this

theorem quantumExp_neg (q : ℚ) : quantumExp (-q) = quantumExp q := by
  simp [quantumExp]

theorem roundQ_neg (q : ℚ) : roundQ (-q) = -roundQ q := by
  simp [roundQ, quantumExp_neg, neg_div, roundHalfEven_neg]

theorem roundQ_zero : roundQ 0 = 0 := by
  simp [roundQ, roundHalfEven]

theorem roundQ_nonneg {q : ℚ} (h : 0 ≤ q) : 0 ≤ roundQ q := by
  unfold roundQ
  have hp : (0 : ℚ) < 2 ^ quantumExp q := by positivity
  have : (0 : ℤ) ≤ roundHalfEven (q / 2 ^ quantumExp q) :=
    le_roundHalfEven (by simpa using div_nonneg h hp.le)
  have : (0 : ℚ) ≤ (roundHalfEven (q / 2 ^ quantumExp q) : ℚ) := by exact_mod_cast this
  positivity

theorem quantumExp_mono {a b : ℚ} (ha : 0 < a) (h : a ≤ b) : quantumExp a ≤ quantumExp b := by
  unfold quantumExp
  have hb : 0 < b := lt_of_lt_of_le ha h
  rw [abs_of_pos ha, abs_of_pos hb]
  have := Int.log_mono_right (b := 2) ha h
  omega

theorem roundQ_mono_pos {a b : ℚ} (ha : 0 < a) (h : a ≤ b) : roundQ a ≤ roundQ b := by
  have hb : 0 < b := lt_of_lt_of_le ha h
  have he := quantumExp_mono ha h
  rcases he.lt_or_eq with hlt | heq
  · -- different quanta: a power of two lies between
    have hqb : quantumExp b = Int.log 2 b - 52 := by
      unfold quantumExp at hlt ⊢
      rw [abs_of_pos hb] at hlt ⊢
      omega
    have hqa : Int.log 2 a - 52 ≤ quantumExp a := by
      unfold quantumExp
      rw [abs_of_pos ha]
      exact le_max_left _ _
    set ea := quantumExp a with hea
    set eb := quantumExp b with heb
    have hpa : (0 : ℚ) < 2 ^ ea := by positivity
    have hpb : (0 : ℚ) < 2 ^ eb := by positivity
    -- the boundary 2^(eb+52)
    have hbnd_le : (2 : ℚ) ^ (eb + 52) ≤ b := by
      have := Int.zpow_log_le_self (b := 2) (by norm_num) hb
      rw [hqb]
      simpa using this
    have hbnd_gt : a < (2 : ℚ) ^ (eb + 52) := by
      have h1 := Int.lt_zpow_succ_log_self (b := 2) (by norm_num) a
      have h2 : ((2 : ℕ) : ℚ) ^ (Int.log 2 a + 1) ≤ (2 : ℚ) ^ (eb + 52) := by
        push_cast
        exact zpow_le_zpow_right₀ (by norm_num) (by omega)
      exact lt_of_lt_of_le h1 h2
    -- roundQ a ≤ boundary
    have hA : roundQ a ≤ (2 : ℚ) ^ (eb + 52) := by
      unfold roundQ
      rw [← hea]
      have hk : (0 : ℤ) ≤ eb + 52 - ea := by omega
      have hN : (2 : ℚ) ^ (eb + 52) = ((2 ^ (eb + 52 - ea).toNat : ℤ) : ℚ) * 2 ^ ea := by
        push_cast
        rw [← zpow_natCast, Int.toNat_of_nonneg hk, ← zpow_add₀ (by norm_num)]
        congr 1; ring
      rw [hN]
      apply mul_le_mul_of_nonneg_right _ hpa.le
      have : roundHalfEven (a / 2 ^ ea) ≤ (2 ^ (eb + 52 - ea).toNat : ℤ) := by
        apply roundHalfEven_le
        rw [div_le_iff₀ hpa, ← hN]
        exact hbnd_gt.le
      exact_mod_cast this
    have hB : (2 : ℚ) ^ (eb + 52) ≤ roundQ b := by
      unfold roundQ
      rw [← heb]
      have hN : (2 : ℚ) ^ (eb + 52) = ((2 ^ 52 : ℤ) : ℚ) * 2 ^ eb := by
        push_cast
        rw [zpow_add₀ (by norm_num)]
        rw [mul_comm]; norm_cast
      rw [hN]
      apply mul_le_mul_of_nonneg_right _ hpb.le
      have : (2 ^ 52 : ℤ) ≤ roundHalfEven (b / 2 ^ eb) := by
        apply le_roundHalfEven
        rw [le_div_iff₀ hpb, ← hN]
        exact hbnd_le
      exact_mod_cast this
    exact le_trans hA hB
  · unfold roundQ
    rw [heq]
    have hp : (0 : ℚ) < 2 ^ quantumExp b := by positivity
    apply mul_le_mul_of_nonneg_right _ hp.le
    have : roundHalfEven (a / 2 ^ quantumExp b) ≤ roundHalfEven (b / 2 ^ quantumExp b) :=
      roundHalfEven_mono (div_le_div_of_nonneg_right h hp.le)
    exact_mod_cast this

theorem roundQ_mono {a b : ℚ} (h : a ≤ b) : roundQ a ≤ roundQ b := by
  rcases lt_trichotomy 0 a with ha | ha | ha
  · exact roundQ_mono_pos ha h
  · subst ha; rw [roundQ_zero]; exact roundQ_nonneg h
  · rcases le_or_lt 0 b with hb | hb
    · have h1 : roundQ a ≤ 0 := by
        have := roundQ_nonneg (q := -a) (by linarith)
        rw [roundQ_neg] at this; linarith
      exact le_trans h1 (roundQ_nonneg hb)
    · have := roundQ_mono_pos (a := -b) (b := -a) (by linarith) (by linarith)
      rw [roundQ_neg, roundQ_neg] at this
      linarith

theorem quantumExp_le_of_grid {m e : ℤ} (h0 : m ≠ 0) (hm : |m| < 2 ^ 53) (he : -1074 ≤ e) :
    quantumExp (m * 2 ^ e) ≤ e := by
  unfold quantumExp
  apply max_le _ he
  have hpos : (0 : ℚ) < |(m : ℚ) * 2 ^ e| := by
    apply abs_pos.mpr
    have : (m : ℚ) ≠ 0 := by exact_mod_cast h0
    positivity
  have hlt : |(m : ℚ) * 2 ^ e| < ((2 : ℕ) : ℚ) ^ (e + 53) := by
    rw [abs_mul, abs_of_pos (by positivity : (0 : ℚ) < 2 ^ e)]
    push_cast
    rw [zpow_add₀ (by norm_num), mul_comm]
    apply mul_lt_mul_of_pos_left _ (by positivity)
    have : |(m : ℚ)| < 2 ^ 53 := by exact_mod_cast hm
    exact_mod_cast this
  have := (Int.lt_zpow_iff_log_lt (b := 2) (by norm_num) hpos).mp hlt
  omega

theorem roundQ_of_grid {m e : ℤ} (hm : |m| < 2 ^ 53) (he : -1074 ≤ e) :
    roundQ (m * 2 ^ e) = m * 2 ^ e := by
  by_cases h0 : m = 0
  · subst h0; simp [roundQ_zero]
  have hle := quantumExp_le_of_grid h0 hm he
  unfold roundQ
  set g := quantumExp ((m : ℚ) * 2 ^ e) with hg
  have hk : (0 : ℤ) ≤ e - g := by omega
  have hpow : (2 : ℚ) ^ e = ((2 ^ (e - g).toNat : ℤ) : ℚ) * 2 ^ g := by
    push_cast
    rw [← zpow_natCast, Int.toNat_of_nonneg hk, ← zpow_add₀ (by norm_num)]
    congr 1; ring
  have hdiv : (m : ℚ) * 2 ^ e / 2 ^ g = ((m * 2 ^ (e - g).toNat : ℤ) : ℚ) := by
    rw [hpow]
    have hp : (2 : ℚ) ^ g ≠ 0 := by positivity
    field_simp
    ring
  rw [hdiv, roundHalfEven_intCast, hpow]
  push_cast
  ring

theorem maxQ_pos : 0 < maxQ := by unfold maxQ; norm_num

theorem rnd_of_grid {m e : ℤ} (hm : |m| < 2 ^ 53) (he : -1074 ≤ e)
    (hr : |(m : ℚ) * 2 ^ e| ≤ maxQ) : rnd (m * 2 ^ e) = fin (m * 2 ^ e) := by
  unfold rnd
  rw [roundQ_of_grid hm he]
  have := abs_le.mp hr
  rw [if_neg (by linarith [this.2]), if_neg (by linarith [this.1])]

theorem rnd_intCast {n : ℤ} (hn : |n| < 2 ^ 53) : rnd (n : ℚ) = fin n := by
  have h := rnd_of_grid (m := n) (e := 0) hn (by norm_num) (by
    simp only [zpow_zero, mul_one]
    have : ((|n| : ℤ) : ℚ) < ((2 ^ 53 : ℤ) : ℚ) := by exact_mod_cast hn
    have h2 : ((2 ^ 53 : ℤ) : ℚ) ≤ maxQ := by unfold maxQ; norm_num
    have h3 : |(n : ℚ)| = ((|n| : ℤ) : ℚ) := by simp
    rw [h3]; linarith)
  simpa using h

theorem rnd_zero : rnd 0 = fin 0 := by
  simpa using rnd_intCast (n := 0) (by norm_num)

theorem rnd_one : rnd 1 = fin 1 := by
  simpa using rnd_intCast (n := 1) (by norm_num)

theorem rnd_neg (q : ℚ) : rnd (-q) = neg (rnd q) := by
  unfold rnd
  rw [roundQ_neg]
  have := maxQ_pos
  by_cases h1 : maxQ < roundQ q
  · rw [if_pos h1, if_neg (by linarith), if_pos (by linarith)]; rfl
  · by_cases h2 : roundQ q < -maxQ
    · rw [if_neg h1, if_pos h2, if_pos (by linarith)]; rfl
    · rw [if_neg h1, if_neg h2, if_neg (by linarith), if_neg (by linarith)]; rfl

theorem rnd_mono {a b : ℚ} (h : a ≤ b) : le (rnd a) (rnd b) = true := by
  have hm := roundQ_mono h
  have := maxQ_pos
  unfold rnd
  split_ifs <;> simp [le] <;> linarith

theorem rnd_ne_nan (q : ℚ) : rnd q ≠ nan := by
  unfold rnd; split_ifs <;> simp

end F64

/-! ## The coarse math package meets the contract -/

theorem clog_maxQ : Int.clog 2 maxQ = 1024 := by
  have hpos : (0 : ℚ) < maxQ := maxQ_pos
  have h1 : Int.clog 2 maxQ ≤ 1024 := by
    rw [← Int.le_zpow_iff_clog_le (by norm_num) hpos]
    unfold maxQ; norm_num
  have h2 : (1023 : ℤ) < Int.clog 2 maxQ := by
    rw [← Int.zpow_lt_iff_lt_clog (by norm_num) hpos]
    unfold maxQ; norm_num
  omega

theorem coarseMath_sound : coarseMath.Sound where
  exp_nan := rfl
  exp_pinf := rfl
  exp_ninf := rfl
  exp_zero := by norm_num [coarseMath, coarseExp]
  exp_nonneg := by
    intro x hx
    cases x with
    | nan => exact absurd rfl hx
    | pinf => rfl
    | ninf => simp [coarseMath, coarseExp, le]
    | fin q =>
      simp only [coarseMath, coarseExp]
      split_ifs
      · rfl
      · simp [le]
      · simp only [le, decide_eq_true_eq]; positivity
  exp_overflow := by
    intro q hq
    simp [coarseMath, coarseExp, hq]
  exp_underflow := by
    intro q hq
    have : ¬ (710 < q) := by linarith
    simp [coarseMath, coarseExp, hq, this]
  exp_le_two_zpow := by
    intro q hq
    have h1 : ¬ (710 < q) := by linarith
    simp only [coarseMath, coarseExp, if_neg h1]
    split_ifs
    · simp only [le, decide_eq_true_eq]; positivity
    · simp only [le, decide_eq_true_eq]
      exact zpow_le_zpow_right₀ (by norm_num) (Int.floor_le_ceil q)
  log_maxFloat64_ge := by
    have h0 : ¬ (maxQ < 0) := by have := maxQ_pos; linarith
    have h1 : maxQ ≠ 0 := ne_of_gt maxQ_pos
    simp only [coarseMath, coarseLog, maxFloat64, if_neg h0, if_neg h1, clog_maxQ]
    have := rnd_mono (a := 709) (b := ((1024 : ℤ) : ℚ) * (693 / 1000)) (by norm_num)
    rwa [show (709 : ℚ) = ((709 : ℤ) : ℚ) by norm_num, rnd_intCast (by norm_num)] at this
  log_maxFloat64_le := by
    have h0 : ¬ (maxQ < 0) := by have := maxQ_pos; linarith
    have h1 : maxQ ≠ 0 := ne_of_gt maxQ_pos
    simp only [coarseMath, coarseLog, maxFloat64, if_neg h0, if_neg h1, clog_maxQ]
    have := rnd_mono (a := ((1024 : ℤ) : ℚ) * (693 / 1000)) (b := 710) (by norm_num)
    rwa [show (710 : ℚ) = ((710 : ℤ) : ℚ) by norm_num, rnd_intCast (by norm_num)] at this
  sinh_nan := rfl
  sinh_zero := by
    norm_num [coarseMath, coarseSinh, rnd_zero]
  cosh_nan := rfl
  cosh_zero := by simp [coarseMath, coarseCosh]
  cosh_ge_one := by
    intro x hx
    cases x with
    | nan => exact absurd rfl hx
    | pinf => rfl
    | ninf => rfl
    | fin q =>
      simp only [coarseMath, coarseCosh]
      split_ifs
      · rfl
      · simp only [le, decide_eq_true_eq]
        exact one_le_zpow₀ (by norm_num) (Int.floor_nonneg.mpr (abs_nonneg q))
  cosh_overflow := by
    intro q hq
    simp [coarseMath, coarseCosh, hq]

/-! ## The Fermi function -/

/-- C1: `Fermi(0)` returns exactly 0.5 for every `Environment`, so for every finite positive
`Beta` and for `Beta = +Inf` alike: the test `energy == 0` is taken before any test on the
temperature or on overflow. -/
theorem Fermi_zero (L : MathLib) (env : Environment) :
    env.Fermi L (fin 0) = fin (1 / 2) := by
  simp [Environment.Fermi, F64.eq]

/-- C2: with `Beta = +Inf`, `Fermi(e)` is 1.0 for every `e < 0`, 0.0 for every `e > 0` and 0.5
for `e == 0`: the zero-temperature step function. -/
theorem Fermi_zero_temperature (L : MathLib) (env : Environment) (hB : env.Beta = pinf)
    (e : F64) :
    (lt e (fin 0) = true → env.Fermi L e = fin 1) ∧
    (gt e (fin 0) = true → env.Fermi L e = fin 0) ∧
    (F64.eq e (fin 0) = true → env.Fermi L e = fin (1 / 2)) := by
  refine ⟨?_, ?_, ?_⟩
  · intro h
    cases e with
    | nan => simp [lt, le] at h
    | pinf => simp [lt, le] at h
    | ninf => simp [Environment.Fermi, Environment.fermiGuard, F64.eq, le, hB]
    | fin q =>
      simp only [lt, le, F64.eq, Bool.and_eq_true, decide_eq_true_eq, Bool.not_eq_true',
        decide_eq_false_iff_not] at h
      simp [Environment.Fermi, Environment.fermiGuard, F64.eq, le, hB, h.1, h.2]
  · intro h
    cases e with
    | nan => simp [gt, lt, le] at h
    | ninf => simp [gt, lt, le] at h
    | pinf => simp [Environment.Fermi, Environment.fermiGuard, F64.eq, le, hB]
    | fin q =>
      simp only [gt, lt, le, F64.eq, Bool.and_eq_true, decide_eq_true_eq, Bool.not_eq_true',
        decide_eq_false_iff_not] at h
      have hne : ¬ (fin q = fin 0) := by
        intro hq; exact h.2 hq.symm
      have hq : ¬ (q ≤ 0) := by
        intro hle
        apply h.2
        have : q = 0 := le_antisymm hle h.1
        rw [this]
      simp [Environment.Fermi, Environment.fermiGuard, F64.eq, le, hB, hne, hq]
  · intro h
    simp [Environment.Fermi, h]

/-- The zero-temperature step function at the energies -1, 1 and 0. -/
theorem Fermi_zero_temperature_witness :
    Environment.Fermi coarseMath { zeroEnv with Beta := pinf } (fin (-1)) = fin 1 ∧
    Environment.Fermi coarseMath { zeroEnv with Beta := pinf } (fin 1) = fin 0 ∧
    Environment.Fermi coarseMath { zeroEnv with Beta := pinf } (fin 0) = fin (1 / 2) :=
  ⟨(Fermi_zero_temperature coarseMath { zeroEnv with Beta := pinf } rfl (fin (-1))).1
      (by decide),
    (Fermi_zero_temperature coarseMath { zeroEnv with Beta := pinf } rfl (fin 1)).2.1
      (by decide),
    (Fermi_zero_temperature coarseMath { zeroEnv with Beta := pinf } rfl (fin 0)).2.2
      (by decide)⟩

/-! ## Comparisons and absolute value -/

namespace F64

theorem le_chain {x y z : F64} (h1 : le x y = true) (h2 : le y z = true) : le x z = true := by
  cases x <;> cases y <;> cases z <;> simp_all [le]
  exact le_trans h1 h2

theorem ne_nan_of_le_left {x y : F64} (h : le x y = true) : x ≠ nan := by
  cases x <;> simp_all [le]

theorem ne_nan_of_le_right {x y : F64} (h : le x y = true) : y ≠ nan := by
  cases x <;> cases y <;> simp_all [le]

theorem abs_rnd (q : ℚ) : abs (rnd q) = rnd |q| := by
  rcases le_or_lt 0 q with h | h
  · rw [abs_of_nonneg h]
    have h0 := roundQ_nonneg h
    have := maxQ_pos
    unfold rnd
    split_ifs <;> simp [abs, abs_of_nonneg h0]
    linarith
  · rw [abs_of_neg h, rnd_neg]
    have h0 : roundQ q ≤ 0 := by
      have := roundQ_nonneg (q := -q) (by linarith)
      rw [roundQ_neg] at this; linarith
    have := maxQ_pos
    unfold rnd
    split_ifs <;> simp [abs, neg, abs_of_nonpos h0]
    linarith

theorem rnd_eq_fin {q r : ℚ} (h : rnd q = fin r) : r = roundQ q ∧ |r| ≤ maxQ := by
  unfold rnd at h
  split_ifs at h with h1 h2
  simp only [fin.injEq] at h
  subst h
  exact ⟨rfl, abs_le.mpr ⟨by linarith, by linarith⟩⟩

theorem abs_le_maxQ_of_isFloat64 {q : ℚ} (h : isFloat64 (fin q) = true) : |q| ≤ maxQ := by
  simp only [isFloat64, decide_eq_true_eq] at h
  exact (rnd_eq_fin h).2

end F64

theorem roundQ_two_zpow_1024 : roundQ ((2 : ℚ) ^ (1024 : ℤ)) = (2 : ℚ) ^ (1024 : ℤ) := by
  have := roundQ_of_grid (m := 1) (e := 1024) (by norm_num) (by norm_num)
  simpa using this

theorem roundQ_two_zpow_1000 : roundQ ((2 : ℚ) ^ (1000 : ℤ)) = (2 : ℚ) ^ (1000 : ℤ) := by
  have := roundQ_of_grid (m := 1) (e := 1000) (by norm_num) (by norm_num)
  simpa using this

theorem roundQ_one : roundQ 1 = 1 := by
  have := roundQ_of_grid (m := 1) (e := 0) (by norm_num) (by norm_num)
  simpa using this

/-- The guard `Beta >= |MaxFloat64/energy|` of `Fermi` is subsumed by the guard
`|Beta*energy| >= Log(MaxFloat64)`, for a finite nonzero energy. -/
theorem guard_subsumed_fin (L : MathLib) (hL : L.Sound) {b e : ℚ} (hb : 0 < b) (he : e ≠ 0)
    (hr : |e| ≤ maxQ)
    (h : ge (fin b) (abs (div maxFloat64 (fin e))) = true) :
    ge (abs (mul (fin b) (fin e))) (L.log maxFloat64) = true := by
  have hmax := maxQ_pos
  have hepos : 0 < |e| := abs_pos.mpr he
  simp only [ge, div, maxFloat64, if_neg he, abs_rnd, abs_div, abs_of_pos hmax] at h
  -- h : le (rnd (maxQ / |e|)) (fin b)
  have hx1 : 1 ≤ maxQ / |e| := by rw [le_div_iff₀ hepos]; linarith
  have hr1 : 1 ≤ roundQ (maxQ / |e|) := by
    have := roundQ_mono hx1; rwa [roundQ_one] at this
  have hrb : roundQ (maxQ / |e|) ≤ maxQ ∧ roundQ (maxQ / |e|) ≤ b := by
    unfold rnd at h
    split_ifs at h with h1 h2
    · simp [le] at h
    · linarith
    · simp only [le, decide_eq_true_eq] at h
      exact ⟨by linarith, h⟩
  -- the quotient does not reach 2^1024, so |e| > 1/2
  have hxlt : maxQ / |e| < (2 : ℚ) ^ (1024 : ℤ) := by
    by_contra hc
    push_neg at hc
    have := roundQ_mono hc
    rw [roundQ_two_zpow_1024] at this
    have hm : maxQ < (2 : ℚ) ^ (1024 : ℤ) := by unfold maxQ; norm_num
    linarith
  have hehalf : 1 / 2 ≤ |e| := by
    rw [div_lt_iff₀ hepos] at hxlt
    have hm : (2 : ℚ) ^ (1024 : ℤ) * (1 / 2) ≤ maxQ := by unfold maxQ; norm_num
    by_contra hc
    push_neg at hc
    have : (2 : ℚ) ^ (1024 : ℤ) * |e| < (2 : ℚ) ^ (1024 : ℤ) * (1 / 2) :=
      mul_lt_mul_of_pos_left hc (by positivity)
    linarith
  have hprod : 710 ≤ b * |e| := by
    rcases le_or_lt |e| 1420 with hs | hs
    · have hx : (2 : ℚ) ^ (1000 : ℤ) ≤ maxQ / |e| := by
        rw [le_div_iff₀ hepos]
        have hm : (2 : ℚ) ^ (1000 : ℤ) * 1420 ≤ maxQ := by unfold maxQ; norm_num
        have : (2 : ℚ) ^ (1000 : ℤ) * |e| ≤ (2 : ℚ) ^ (1000 : ℤ) * 1420 :=
          mul_le_mul_of_nonneg_left hs (by positivity)
        linarith
      have := roundQ_mono hx
      rw [roundQ_two_zpow_1000] at this
      have hb1000 : (2 : ℚ) ^ (1000 : ℤ) ≤ b := by linarith [hrb.2]
      have h2 : (2 : ℚ) ^ (1000 : ℤ) * (1 / 2) ≤ b * |e| :=
        mul_le_mul hb1000 hehalf (by norm_num) hb.le
      have h3 : (710 : ℚ) ≤ (2 : ℚ) ^ (1000 : ℤ) * (1 / 2) := by norm_num
      linarith
    · have hb1 : 1 ≤ b := by linarith [hrb.2]
      have : 1 * 1420 ≤ b * |e| := mul_le_mul hb1 hs.le (by norm_num) hb.le
      linarith
  simp only [ge, mul, abs_rnd, abs_mul, abs_of_pos hb]
  have h710 : le (fin 710) (rnd (b * |e|)) = true := by
    have := rnd_mono hprod
    rwa [show (710 : ℚ) = ((710 : ℤ) : ℚ) by norm_num, rnd_intCast (by norm_num)] at this
  exact le_chain hL.log_maxFloat64_le h710

/-- The guard `Beta >= |MaxFloat64/energy|` never fires unless the guard
`|Beta*energy| >= Log(MaxFloat64)` holds, for finite `Beta > 0` and every `float64` energy
other than zero. -/
theorem guard_subsumed (L : MathLib) (hL : L.Sound) {b : ℚ} (hb : 0 < b) (energy : F64)
    (hv : energy.isFloat64 = true) (he : F64.eq energy (fin 0) = false)
    (h : ge (fin b) (abs (div maxFloat64 energy)) = true) :
    ge (abs (mul (fin b) energy)) (L.log maxFloat64) = true := by
  have hlog : L.log maxFloat64 ≠ nan := ne_nan_of_le_left hL.log_maxFloat64_le
  cases energy with
  | nan => simp [F64.ge, F64.div, maxFloat64, F64.abs, F64.le] at h
  | pinf =>
    have : infTimes true b = pinf := by simp [infTimes, hb.ne', hb]
    simp only [F64.ge, F64.mul, this, F64.abs]
    cases hl : L.log maxFloat64 <;> simp_all [F64.le]
  | ninf =>
    have : infTimes false b = ninf := by simp [infTimes, hb.ne', hb, not_lt.mpr hb.le]
    simp only [F64.ge, F64.mul, this, F64.abs]
    cases hl : L.log maxFloat64 <;> simp_all [F64.le]
  | fin e =>
    have he0 : e ≠ 0 := by
      intro h0; subst h0; simp [F64.eq] at he
    exact guard_subsumed_fin L hL hb he0 (abs_le_maxQ_of_isFloat64 hv) h

/-- C3: for finite `Beta > 0` and a `float64` energy other than zero: when
`|Beta*energy| >= Log(MaxFloat64)` holds, `Fermi` returns 1.0 for `energy <= 0` and 0.0 for
`energy > 0`; otherwise it returns `1/(Exp(energy*Beta)+1)`; and the guard
`Beta >= |MaxFloat64/energy|` never fires unless `|Beta*energy| >= Log(MaxFloat64)` holds. -/
theorem Fermi_finite_temperature (L : MathLib) (hL : L.Sound) (env : Environment) (b : ℚ)
    (hB : env.Beta = fin b) (hb : 0 < b) (energy : F64) (hv : energy.isFloat64 = true)
    (he : F64.eq energy (fin 0) = false) :
    (ge (abs (mul env.Beta energy)) (L.log maxFloat64) = true →
      env.Fermi L energy = if le energy (fin 0) = true then fin 1 else fin 0) ∧
    (ge (abs (mul env.Beta energy)) (L.log maxFloat64) = false →
      env.Fermi L energy = div (fin 1) (add (L.exp (mul energy env.Beta)) (fin 1))) ∧
    (ge env.Beta (abs (div maxFloat64 energy)) = true →
      ge (abs (mul env.Beta energy)) (L.log maxFloat64) = true) := by
  have hsub := guard_subsumed L hL hb energy hv he
  rw [hB]
  refine ⟨?_, ?_, hsub⟩
  · intro h3
    simp [Environment.Fermi, Environment.fermiGuard, he, hB, h3]
  · intro h3
    have h2 : ge (fin b) (abs (div maxFloat64 energy)) = false := by
      cases h2 : ge (fin b) (abs (div maxFloat64 energy))
      · rfl
      · rw [hsub h2] at h3; exact absurd h3 (by simp)
    have h1 : F64.eq (fin b) pinf = false := by simp [F64.eq]
    simp [Environment.Fermi, Environment.fermiGuard, he, hB, h3, h2, h1]

theorem isFloat64_intCast {n : ℤ} (hn : |n| < 2 ^ 53) : isFloat64 (fin (n : ℚ)) = true := by
  simp [isFloat64, rnd_intCast hn]

/-- With `Beta = 1` the energy 1024 is beyond the overflow guard and `Fermi` returns 0. -/
theorem Fermi_finite_temperature_witness :
    Environment.Fermi coarseMath { zeroEnv with Beta := fin 1 } (fin 1024) = fin 0 := by
  have hv : isFloat64 (fin 1024) = true := by
    simpa using isFloat64_intCast (n := 1024) (by norm_num)
  have hg : ge (abs (mul (fin 1) (fin 1024))) (coarseMath.log maxFloat64) = true := by
    have h1 : mul (fin 1) (fin 1024) = fin 1024 := by
      have := rnd_intCast (n := 1024) (by norm_num)
      simp only [mul]; norm_num; simpa using this
    rw [h1]
    exact le_chain coarseMath_sound.log_maxFloat64_le (by decide)
  have h := (Fermi_finite_temperature coarseMath coarseMath_sound
    { zeroEnv with Beta := fin 1 } 1 rfl (by norm_num) (fin 1024) hv (by decide)).1 hg
  rw [h]
  decide

/-! ## Rounding near a grid point, and the range of 1/(y+1) -/

namespace F64

theorem roundHalfEven_eq_of_near {x : ℚ} {n : ℤ} (h1 : (n : ℚ) - 1 / 2 < x)
    (h2 : x < (n : ℚ) + 1 / 2) : roundHalfEven x = n := by
  rcases le_or_lt (n : ℚ) x with h | h
  · have hfl : ⌊x⌋ = n := by
      rw [Int.floor_eq_iff]; constructor <;> linarith
    unfold roundHalfEven
    rw [hfl, if_pos (by linarith)]
  · have hfl : ⌊x⌋ = n - 1 := by
      rw [Int.floor_eq_iff]; push_cast; constructor <;> linarith
    unfold roundHalfEven
    rw [hfl]; push_cast
    rw [if_neg (by linarith), if_pos (by linarith)]
    ring

theorem quantumExp_eq {q : ℚ} {k : ℤ} (hk : -1022 ≤ k) (h1 : (2 : ℚ) ^ k ≤ |q|)
    (h2 : |q| < (2 : ℚ) ^ (k + 1)) : quantumExp q = k - 52 := by
  have hpos : 0 < |q| := lt_of_lt_of_le (by positivity) h1
  have hlog : Int.log 2 |q| = k := by
    have a1 : k ≤ Int.log 2 |q| := by
      rw [← Int.zpow_le_iff_le_log (by norm_num) hpos]; exact_mod_cast h1
    have a2 : Int.log 2 |q| < k + 1 := by
      rw [← Int.lt_zpow_iff_log_lt (by norm_num) hpos]; exact_mod_cast h2
    omega
  unfold quantumExp
  rw [hlog]; omega

theorem roundQ_eq_of_near {q : ℚ} {k n : ℤ} (hk : -1022 ≤ k) (h1 : (2 : ℚ) ^ k ≤ |q|)
    (h2 : |q| < (2 : ℚ) ^ (k + 1)) (h3 : (n : ℚ) - 1 / 2 < q / 2 ^ (k - 52))
    (h4 : q / 2 ^ (k - 52) < (n : ℚ) + 1 / 2) : roundQ q = n * 2 ^ (k - 52) := by
  unfold roundQ
  rw [quantumExp_eq hk h1 h2, roundHalfEven_eq_of_near h3 h4]

/-- Adding at most `2^-64` to 1 rounds back to 1. -/
theorem rnd_one_add_tiny {y : ℚ} (h0 : 0 ≤ y) (h1 : y ≤ 2 ^ (-64 : ℤ)) :
    rnd (y + 1) = fin 1 := by
  have hup : roundQ (1 + 2 ^ (-64 : ℤ)) = 1 := by
    have := roundQ_eq_of_near (q := 1 + 2 ^ (-64 : ℤ)) (k := 0) (n := 2 ^ 52) (by norm_num)
      (by norm_num [abs_of_pos]) (by norm_num [abs_of_pos]) (by norm_num) (by norm_num)
    rw [this]; norm_num
  have hlo : roundQ 1 = 1 := by
    have := roundQ_of_grid (m := 1) (e := 0) (by norm_num) (by norm_num)
    simpa using this
  have h2 : roundQ (y + 1) = 1 := by
    apply le_antisymm
    · have := roundQ_mono (a := y + 1) (b := 1 + 2 ^ (-64 : ℤ)) (by linarith)
      linarith
    · have := roundQ_mono (a := 1) (b := y + 1) (by linarith)
      linarith
  have := maxQ_pos
  have hm : (1 : ℚ) ≤ maxQ := by unfold maxQ; norm_num
  unfold rnd
  rw [h2, if_neg (by linarith), if_neg (by linarith)]

theorem add_one_ge {y : F64} (h : le (fin 0) y = true) : le (fin 1) (add y (fin 1)) = true := by
  cases y with
  | nan => simp [le] at h
  | pinf => rfl
  | ninf => simp [le] at h
  | fin q =>
    simp only [le, decide_eq_true_eq] at h
    simp only [add]
    have := rnd_mono (a := 1) (b := q + 1) (by linarith)
    rwa [rnd_one] at this

theorem one_add_ge {y : F64} (h : le (fin 0) y = true) : le (fin 1) (add (fin 1) y) = true := by
  cases y with
  | nan => simp [le] at h
  | pinf => rfl
  | ninf => simp [le] at h
  | fin q =>
    simp only [le, decide_eq_true_eq] at h
    simp only [add]
    have := rnd_mono (a := 1) (b := 1 + q) (by linarith)
    rwa [rnd_one] at this

theorem one_div_range {z : F64} (h : le (fin 1) z = true) :
    le (fin 0) (div (fin 1) z) = true ∧ le (div (fin 1) z) (fin 1) = true := by
  cases z with
  | nan => simp [le] at h
  | pinf => simp [div, le]
  | ninf => simp [le] at h
  | fin q =>
    simp only [le, decide_eq_true_eq] at h
    have hq : q ≠ 0 := by linarith
    have hpos : (0 : ℚ) < q := by linarith
    simp only [div, if_neg hq]
    constructor
    · have := rnd_mono (a := 0) (b := 1 / q) (by positivity)
      rwa [rnd_zero] at this
    · have := rnd_mono (a := 1 / q) (b := 1) (by rw [div_le_one hpos]; exact h)
      rwa [rnd_one] at this

end F64

/-- The unguarded branch of `Fermi` stays within `[0, 1]` as soon as its argument is not NaN. -/
theorem fermi_else_range (L : MathLib) (hL : L.Sound) {x : F64} (hx : x ≠ nan) :
    le (fin 0) (div (fin 1) (add (L.exp x) (fin 1))) = true ∧
    le (div (fin 1) (add (L.exp x) (fin 1))) (fin 1) = true :=
  one_div_range (add_one_ge (hL.exp_nonneg x hx))

/-- C4, as amended: for every `Beta` other than NaN (so for every `Beta > 0`, finite or
`+Inf`) and every finite energy, `Fermi(energy)` is a number of the closed interval `[0, 1]`,
never NaN; it is 0.5 when `energy == 0`, and exactly 0 or 1 when the guard fires. -/
theorem Fermi_range (L : MathLib) (hL : L.Sound) (env : Environment) (hB : env.Beta ≠ nan)
    (e : ℚ) :
    (le (fin 0) (env.Fermi L (fin e)) = true ∧ le (env.Fermi L (fin e)) (fin 1) = true) ∧
    (F64.eq (fin e) (fin 0) = true → env.Fermi L (fin e) = fin (1 / 2)) ∧
    (F64.eq (fin e) (fin 0) = false → env.fermiGuard L (fin e) = true →
      env.Fermi L (fin e) = fin 0 ∨ env.Fermi L (fin e) = fin 1) := by
  refine ⟨?_, ?_, ?_⟩
  · unfold Environment.Fermi
    split_ifs with h0 hg hle
    · norm_num [F64.le]
    · norm_num [F64.le]
    · norm_num [F64.le]
    · apply fermi_else_range L hL
      have he : e ≠ 0 := by
        intro h; subst h; simp [F64.eq] at h0
      cases hb : env.Beta with
      | nan => exact absurd hb hB
      | pinf => simp_all [Environment.fermiGuard, F64.eq]
      | ninf =>
        simp only [F64.mul, infTimes, if_neg he]
        split_ifs <;> simp
      | fin b => simp only [F64.mul]; exact rnd_ne_nan _
  · intro h; simp [Environment.Fermi, h]
  · intro h0 hg
    simp only [Environment.Fermi, h0, hg]
    by_cases hle : F64.le (fin e) (fin 0) = true <;> simp [hle]

/-- At `Beta = 1` and energy `2`, `Fermi` is within `[0, 1]`. -/
theorem Fermi_range_witness :
    le (fin 0) (Environment.Fermi coarseMath { zeroEnv with Beta := fin 1 } (fin 2)) = true ∧
    le (Environment.Fermi coarseMath { zeroEnv with Beta := fin 1 } (fin 2)) (fin 1) = true :=
  (Fermi_range coarseMath coarseMath_sound { zeroEnv with Beta := fin 1 }
    (by simp [zeroEnv]) 2).1

theorem le_false_of_lt {x : F64} {a b : ℚ} (hab : a < b) (h : le (fin b) x = true) :
    le x (fin a) = false := by
  cases hx : le x (fin a)
  · rfl
  · have := le_chain h hx
    simp only [F64.le, decide_eq_true_eq] at this
    linarith

/-- At `Beta = 1` and energy `-64` the guard of `Fermi` does not fire, and `Fermi` returns
exactly 1: the sum `Exp(-64) + 1` rounds to 1. -/
theorem fermi_minus64 (L : MathLib) (hL : L.Sound) :
    Environment.fermiGuard L { zeroEnv with Beta := fin 1 } (fin (-64)) = false ∧
    Environment.Fermi L { zeroEnv with Beta := fin 1 } (fin (-64)) = fin 1 := by
  have hg : Environment.fermiGuard L { zeroEnv with Beta := fin 1 } (fin (-64)) = false := by
    have h1 : F64.eq (fin 1) pinf = false := by simp [F64.eq]
    have h2 : ge (fin 1) (F64.abs (F64.div maxFloat64 (fin (-64)))) = false := by
      have hne : (-64 : ℚ) ≠ 0 := by norm_num
      simp only [F64.ge, F64.div, maxFloat64, if_neg hne, abs_rnd]
      apply le_false_of_lt (a := 1) (b := 2) (by norm_num)
      have := rnd_mono (a := 2) (b := |maxQ / (-64)|) (by unfold maxQ; norm_num [abs_of_pos])
      rwa [show (2 : ℚ) = ((2 : ℤ) : ℚ) by norm_num, rnd_intCast (by norm_num)] at this
    have h3 : ge (F64.abs (F64.mul (fin 1) (fin (-64)))) (L.log maxFloat64) = false := by
      have hm : F64.abs (F64.mul (fin 1) (fin (-64))) = fin 64 := by
        simp only [F64.mul, abs_rnd]
        have := rnd_intCast (n := 64) (by norm_num)
        norm_num [abs_of_pos]; simpa using this
      rw [hm]
      exact le_false_of_lt (a := 64) (b := 709) (by norm_num) hL.log_maxFloat64_ge
    simp [Environment.fermiGuard, h1, h2, h3]
  refine ⟨hg, ?_⟩
  have h0 : F64.eq (fin (-64)) (fin 0) = false := by decide
  have hmul : F64.mul (fin (-64)) (fin 1) = fin (-64) := by
    have := rnd_intCast (n := -64) (by norm_num)
    simp only [F64.mul]; norm_num; simpa using this
  have hnn := hL.exp_nonneg (fin (-64)) (by simp)
  have hle := hL.exp_le_two_zpow (-64) (by norm_num)
  have hceil : ⌈(-64 : ℚ)⌉ = -64 := by
    rw [show (-64 : ℚ) = ((-64 : ℤ) : ℚ) by norm_num, Int.ceil_intCast]
  rw [hceil] at hle
  simp only [Environment.Fermi, h0, hg, hmul]
  cases hy : L.exp (fin (-64)) with
  | nan => rw [hy] at hnn; simp [F64.le] at hnn
  | pinf => rw [hy] at hle; simp [F64.le] at hle
  | ninf => rw [hy] at hnn; simp [F64.le] at hnn
  | fin y =>
    rw [hy] at hnn hle
    simp only [F64.le, decide_eq_true_eq] at hnn hle
    simp only [F64.add, rnd_one_add_tiny hnn hle, F64.div]
    norm_num [rnd_one]

/-- C4 as stated fails: at `Beta = 1` and the finite energy `-64` the energy is not zero and
the guard does not fire, yet `Fermi` returns exactly 1.0, not a value strictly between 0 and
1; so it is with every math library that meets the contract, the coarse one among them. -/
theorem Fermi_unguarded_not_strict :
    (∀ L : MathLib, L.Sound →
      Environment.fermiGuard L { zeroEnv with Beta := fin 1 } (fin (-64)) = false ∧
      Environment.Fermi L { zeroEnv with Beta := fin 1 } (fin (-64)) = fin 1) ∧
    (Environment.fermiGuard coarseMath { zeroEnv with Beta := fin 1 } (fin (-64)) = false ∧
      Environment.Fermi coarseMath { zeroEnv with Beta := fin 1 } (fin (-64)) = fin 1) :=
  ⟨fun L hL => fermi_minus64 L hL, fermi_minus64 coarseMath coarseMath_sound⟩

/-! ## The partition function Z1 -/

namespace F64

theorem rnd_of_den_one {q : ℚ} (h1 : q.den = 1) (h2 : q.num.natAbs < 2 ^ 53) :
    rnd q = fin q := by
  have hq : q = (q.num : ℚ) := by
    have := Rat.num_div_den q
    rw [h1] at this; simpa using this.symm
  have hn : |q.num| < 2 ^ 53 := by
    rw [Int.abs_eq_natAbs]; exact_mod_cast h2
  rw [hq]
  simpa using rnd_intCast hn

theorem add_fin (a b : ℚ) : add (fin a) (fin b) = rnd (a + b) := rfl

theorem mul_fin (a b : ℚ) : mul (fin a) (fin b) = rnd (a * b) := rfl

theorem neg_fin (a : ℚ) : neg (fin a) = fin (-a) := rfl

theorem sub_fin (a b : ℚ) : sub (fin a) (fin b) = rnd (a - b) := by
  simp [sub, neg, add, sub_eq_add_neg]

theorem div_fin {a b : ℚ} (hb : b ≠ 0) : div (fin a) (fin b) = rnd (a / b) := by
  simp [div, hb]

theorem mul_nonneg_of_ne_nan {u c : F64} (hu : le (fin 0) u = true) (hc : le (fin 0) c = true)
    (h : mul u c ≠ nan) : le (fin 0) (mul u c) = true := by
  cases u with
  | nan => simp [le] at hu
  | ninf => simp [le] at hu
  | pinf =>
    cases c with
    | nan => simp [le] at hc
    | ninf => simp [le] at hc
    | pinf => rfl
    | fin q =>
      simp only [le, decide_eq_true_eq] at hc
      simp only [mul, infTimes] at h ⊢
      split_ifs at h ⊢ with h1 h2 <;> simp_all [le]
      exact h1 (le_antisymm h2 hc)
  | fin p =>
    simp only [le, decide_eq_true_eq] at hu
    cases c with
    | nan => simp [le] at hc
    | ninf => simp [le] at hc
    | pinf =>
      simp only [mul, infTimes] at h ⊢
      split_ifs at h ⊢ with h1 h2 <;> simp_all [le]
      exact h1 (le_antisymm h2 hu)
    | fin q =>
      simp only [le, decide_eq_true_eq] at hc
      simp only [mul]
      have := rnd_mono (a := 0) (b := p * q) (by positivity)
      rwa [rnd_zero] at this

theorem add_ne_nan_right {x y : F64} (h : add x y ≠ nan) : y ≠ nan := by
  intro hy; subst hy; cases x <;> simp [add] at h

theorem mul_ne_nan_left {x y : F64} (h : mul x y ≠ nan) : x ≠ nan := by
  intro hx; subst hx; simp [mul] at h

theorem mul_ne_nan_right {x y : F64} (h : mul x y ≠ nan) : y ≠ nan := by
  intro hy; subst hy; cases x <;> simp [mul] at h

end F64

/-- C5, as amended: for every `Environment` and every provider, `Z1` is never below 1: it is
NaN or it is `>= 1`. -/
theorem Z1_ge_one (L : MathLib) (hL : L.Sound) (env : Environment) (Ds : HoppingEV)
    (h : env.Z1 L Ds ≠ nan) : ge (env.Z1 L Ds) (fin 1) = true := by
  unfold Environment.Z1 at h ⊢
  simp only [] at h ⊢
  have ht := add_ne_nan_right h
  have hc := mul_ne_nan_right ht
  have ha := mul_ne_nan_right (mul_ne_nan_left ht)
  have hc1 : le (fin 1) (L.cosh (mul (mul env.Beta env.M) (env.QJ Ds))) = true := by
    apply hL.cosh_ge_one
    intro hx; rw [hx, hL.cosh_nan] at hc; exact hc rfl
  have ha0 : le (fin 0)
      (L.exp (mul (neg env.Beta) (sub env.DeltaS (mul env.W env.QK)))) = true := by
    apply hL.exp_nonneg
    intro hx; rw [hx, hL.exp_nan] at ha; exact ha rfl
  have h2a := mul_nonneg_of_ne_nan (u := fin 2) (by decide) ha0 (mul_ne_nan_left ht)
  have hc0 : le (fin 0) (L.cosh (mul (mul env.Beta env.M) (env.QJ Ds))) = true :=
    le_chain (by decide) hc1
  exact one_add_ge (mul_nonneg_of_ne_nan h2a hc0 ht)

/-- For the all-zero `Environment`, `Z1` is 3. -/
theorem Z1_ge_one_witness : ge (Environment.Z1 coarseMath zeroEnv zeroHopping) (fin 1) = true :=
  Z1_ge_one coarseMath coarseMath_sound zeroEnv zeroHopping (by
    norm_num [Environment.Z1, Environment.DeltaS, Environment.QK, Environment.QJ, zeroEnv,
      zeroHopping, coarseMath, coarseExp, coarseCosh, add_fin, mul_fin, sub_fin, neg_fin,
      rnd_of_den_one]
    simp)

/-- At `Beta = 1000`, `B = 1`, `M = 1`, `Ja = 1` the exponential factor of `Z1` underflows to 0
and the cosh factor overflows to `+Inf`: `Z1 = 1 + 2*0*Inf` is NaN. -/
theorem Z1_lowTemp (L : MathLib) (hL : L.Sound) :
    Environment.Z1 L lowTempEnv zeroHopping = nan := by
  have h1 : mul (neg lowTempEnv.Beta) (sub lowTempEnv.DeltaS (mul lowTempEnv.W lowTempEnv.QK))
      = fin (-1000) := by
    norm_num [Environment.DeltaS, Environment.QK, lowTempEnv, zeroEnv, add_fin, mul_fin,
      sub_fin, neg_fin, rnd_of_den_one]
  have h2 : mul (mul lowTempEnv.Beta lowTempEnv.M) (lowTempEnv.QJ zeroHopping) = fin 4000 := by
    norm_num [Environment.QJ, lowTempEnv, zeroEnv, zeroHopping, add_fin, mul_fin,
      rnd_of_den_one]
  unfold Environment.Z1
  simp only [h1, h2]
  rw [hL.exp_underflow (-1000) (by norm_num), hL.cosh_overflow 4000 (by norm_num)]
  norm_num [mul_fin, rnd_of_den_one, F64.mul, infTimes, F64.add]

/-- C5 as stated fails: at the finite parameters `Beta = 1000`, `B = 1`, `M = 1`, `Ja = 1`
(all others zero, a provider returning zeros) `Z1` is NaN with every math library that meets
the contract, so the comparison `Z1 >= 1` is false. -/
theorem Z1_not_ge_one :
    (∀ L : MathLib, L.Sound → Environment.Z1 L lowTempEnv zeroHopping = nan) ∧
    ge (Environment.Z1 coarseMath lowTempEnv zeroHopping) (fin 1) = false :=
  ⟨Z1_lowTemp, by rw [Z1_lowTemp coarseMath coarseMath_sound]; rfl⟩

/-! ## The bulk setter: success, last write wins, frame -/

theorem name_of_ofName {s : String} {f : FloatField} (h : FloatField.ofName s = some f) :
    f.name = s := by
  have := List.find?_some h
  simpa using this

theorem ofName_injective {s t : String} {f : FloatField} (hs : FloatField.ofName s = some f)
    (ht : FloatField.ofName t = some f) : s = t := by
  rw [← name_of_ofName hs, ← name_of_ofName ht]

theorem FieldByName_of_float {s : String} {f : FloatField} (h : FloatField.ofName s = some f) :
    FieldByName s = RValue.field s Kind.float64 := by
  have hn := name_of_ofName h
  have h1 : s ≠ "BZPointsPerDim" := by
    rw [← hn]; cases f <;> decide
  have h2 : s ≠ "IonsOnly" := by
    rw [← hn]; cases f <;> decide
  simp [FieldByName, h1, h2, h]

namespace Environment

theorem getFloat_putFloat_same (env : Environment) (f : FloatField) (x : F64) :
    (env.putFloat f x).getFloat f = x := by
  cases f <;> rfl

theorem getFloat_putFloat_ne (env : Environment) {f g : FloatField} (h : f ≠ g) (x : F64) :
    (env.putFloat f x).getFloat g = env.getFloat g := by
  cases f <;> cases g <;> first | rfl | exact absurd rfl h

theorem putFloat_BZPointsPerDim (env : Environment) (f : FloatField) (x : F64) :
    (env.putFloat f x).BZPointsPerDim = env.BZPointsPerDim := by
  cases f <;> rfl

theorem putFloat_IonsOnly (env : Environment) (f : FloatField) (x : F64) :
    (env.putFloat f x).IonsOnly = env.IonsOnly := by
  cases f <;> rfl

theorem setFrom_cons_float {v : List F64} {s : String} {rest : List String} {i : Nat}
    {env : Environment} {f : FloatField} {x : F64} (hf : FloatField.ofName s = some f)
    (hx : v.get? i = some x) :
    setFrom v (s :: rest) i env = setFrom v rest (i + 1) (env.putFloat f x) := by
  rw [List.get?_eq_getElem?] at hx
  simp [setFrom, FieldByName_of_float hf, hx, SetFloat, hf]

/-- The loop of `Set` on valid names with enough values: it succeeds, each named field holds
the value of the last index naming it, and everything else is unchanged. -/
theorem setFrom_spec (v : List F64) :
    ∀ (vars : List String) (i : Nat) (env : Environment),
      (∀ s ∈ vars, (FloatField.ofName s).isSome = true) → i + vars.length ≤ v.length →
      ∃ env', setFrom v vars i env = .ok env' ∧
        (∀ (k : Nat) (s : String) (f : FloatField), vars.get? k = some s →
          FloatField.ofName s = some f →
          (∀ (j : Nat) (t : String), k < j → vars.get? j = some t → t ≠ s) →
          v.get? (i + k) = some (env'.getFloat f)) ∧
        (∀ f : FloatField, (∀ s ∈ vars, FloatField.ofName s ≠ some f) →
          env'.getFloat f = env.getFloat f) ∧
        env'.BZPointsPerDim = env.BZPointsPerDim ∧ env'.IonsOnly = env.IonsOnly := by
  intro vars
  induction vars with
  | nil =>
    intro i env _ _
    exact ⟨env, rfl, by simp, by simp, rfl, rfl⟩
  | cons s rest ih =>
    intro i env hvalid hlen
    have hs := hvalid s (List.mem_cons_self _ _)
    obtain ⟨f, hf⟩ := Option.isSome_iff_exists.mp hs
    have hi : i < v.length := by simp at hlen; omega
    obtain ⟨x, hx⟩ : ∃ x, v.get? i = some x := ⟨v.get ⟨i, hi⟩, List.get?_eq_get hi⟩
    obtain ⟨env', hok, hval, hframe, hbz, hio⟩ := ih (i + 1) (env.putFloat f x)
      (fun t ht => hvalid t (List.mem_cons_of_mem _ ht)) (by simp at hlen ⊢; omega)
    refine ⟨env', ?_, ?_, ?_, ?_, ?_⟩
    · rw [setFrom_cons_float hf hx, hok]
    · intro k t g hk hg hlast
      cases k with
      | zero =>
        simp at hk
        subst hk
        have hfg : f = g := by rw [hf] at hg; exact Option.some.inj hg
        subst hfg
        have : env'.getFloat f = (env.putFloat f x).getFloat f := by
          apply hframe
          intro u hu hu'
          obtain ⟨j, hj⟩ := List.get?_of_mem hu
          have := hlast (j + 1) u (by omega) (by simpa using hj)
          exact this (ofName_injective hu' hf)
        rw [this, getFloat_putFloat_same]
        simpa using hx
      | succ k =>
        have := hval k t g (by simpa using hk) hg (by
          intro j u hj hu
          exact hlast (j + 1) u (by omega) (by simpa using hu))
        rw [← this]
        congr 1; omega
    · intro g hg
      rw [hframe g (fun t ht => hg t (List.mem_cons_of_mem _ ht))]
      apply getFloat_putFloat_ne
      intro hfg
      subst hfg
      exact hg s (List.mem_cons_self _ _) hf
    · rw [hbz, putFloat_BZPointsPerDim]
    · rw [hio, putFloat_IonsOnly]

end Environment

/-! ## The residual of the M equation -/

theorem Set_spec (env : Environment) (vars : List String) (v : List F64)
    (hvalid : ∀ s ∈ vars, (FloatField.ofName s).isSome = true)
    (hlen : v.length = vars.length) :
    ∃ env', env.Set v vars = .ok env' ∧
      (∀ (k : Nat) (s : String) (f : FloatField), vars.get? k = some s →
        FloatField.ofName s = some f →
        (∀ (j : Nat) (t : String), k < j → vars.get? j = some t → t ≠ s) →
        v.get? k = some (env'.getFloat f)) := by
  obtain ⟨env', hok, hval, _⟩ := Environment.setFrom_spec v vars 0 env hvalid (by omega)
  exact ⟨env', hok, fun k s f hk hf hl => by simpa using hval k s f hk hf hl⟩

/-- C7: for valid float field names and a trial vector of the same length, the function
built by `AbsErrorM` first writes the trial values into the named fields by `Set` and then
returns `M - 2*exp(-Beta*(DeltaS - W*QK))*sinh(Beta*M*QJ)/Z1` with a nil error, every
quantity being computed from the `Environment` after the write; after the call the
`Environment` holds the trial values (for a name given twice, the later value). -/
theorem AbsErrorM_residual (L : MathLib) (Ds : HoppingEV) (env : Environment)
    (vars : List String) (v : List F64)
    (hvalid : ∀ s ∈ vars, (FloatField.ofName s).isSome = true)
    (hlen : v.length = vars.length) :
    ∃ env', env.Set v vars = .ok env' ∧
      (AbsErrorM L Ds vars).F env v = .ok
        { value := sub env'.M
            (div (mul (mul (fin 2)
                (L.exp (mul (neg env'.Beta) (sub env'.DeltaS (mul env'.W env'.QK)))))
              (L.sinh (mul (mul env'.Beta env'.M) (env'.QJ Ds)))) (env'.Z1 L Ds))
          err := none
          env := env' } ∧
      (∀ (k : Nat) (s : String) (f : FloatField), vars.get? k = some s →
        FloatField.ofName s = some f →
        (∀ (j : Nat) (t : String), k < j → vars.get? j = some t → t ≠ s) →
        v.get? k = some (env'.getFloat f)) := by
  obtain ⟨env', hok, hval⟩ := Set_spec env vars v hvalid hlen
  refine ⟨env', hok, ?_, hval⟩
  simp only [AbsErrorM, absErrorMF, hok]
  rfl

theorem valid_M_W_Mu : ∀ s ∈ ["M", "W", "Mu"], (FloatField.ofName s).isSome = true := by
  intro s hs
  simp only [List.mem_cons, List.mem_singleton, List.not_mem_nil, or_false] at hs
  rcases hs with rfl | rfl | rfl <;> rfl

/-- The residual of `AbsErrorM` on the all-zero state with the trial values `0, 1, 2` for
`M, W, Mu`. -/
theorem AbsErrorM_residual_witness :
    ∃ env', zeroEnv.Set [fin 0, fin 1, fin 2] ["M", "W", "Mu"] = .ok env' ∧
      (AbsErrorM coarseMath zeroHopping ["M", "W", "Mu"]).F zeroEnv [fin 0, fin 1, fin 2] = .ok
        { value := sub env'.M
            (div (mul (mul (fin 2)
                (coarseMath.exp (mul (neg env'.Beta) (sub env'.DeltaS (mul env'.W env'.QK)))))
              (coarseMath.sinh (mul (mul env'.Beta env'.M) (env'.QJ zeroHopping))))
              (env'.Z1 coarseMath zeroHopping))
          err := none
          env := env' } ∧
      (∀ (k : Nat) (s : String) (f : FloatField), ["M", "W", "Mu"].get? k = some s →
        FloatField.ofName s = some f →
        (∀ (j : Nat) (t : String), k < j → ["M", "W", "Mu"].get? j = some t → t ≠ s) →
        [fin 0, fin 1, fin 2].get? k = some (env'.getFloat f)) :=
  AbsErrorM_residual coarseMath zeroHopping zeroEnv ["M", "W", "Mu"] [fin 0, fin 1, fin 2]
    valid_M_W_Mu rfl

/-! ## The residual of the M equation at M = 0 -/

namespace F64

theorem isFinite_iff {x : F64} : isFinite x = true ↔ ∃ q, x = fin q := by
  cases x <;> simp [isFinite]

theorem zero_div_of_one_le {z : F64} (h : le (fin 1) z = true) : div (fin 0) z = fin 0 := by
  cases z with
  | nan => simp [le] at h
  | pinf => rfl
  | ninf => simp [le] at h
  | fin q =>
    simp only [le, decide_eq_true_eq] at h
    have hq : q ≠ 0 := by linarith
    simp [div, hq, rnd_zero]

end F64

/-- The exponential factor is nonnegative as soon as twice it is finite. -/
theorem two_mul_exp_finite (L : MathLib) (hL : L.Sound) {x : F64} {t : ℚ}
    (h : mul (fin 2) (L.exp x) = fin t) : 0 ≤ t := by
  have hx : x ≠ nan := by
    intro hx; rw [hx, hL.exp_nan] at h; simp [F64.mul] at h
  have h0 := hL.exp_nonneg x hx
  cases ha : L.exp x with
  | nan => rw [ha] at h0; simp [F64.le] at h0
  | ninf => rw [ha] at h0; simp [F64.le] at h0
  | pinf => rw [ha] at h; simp [F64.mul, infTimes] at h
  | fin a =>
    rw [ha] at h h0
    simp only [F64.le, decide_eq_true_eq] at h0
    have hm := rnd_mono (a := 0) (b := 2 * a) (by positivity)
    rw [rnd_zero, ← mul_fin, h] at hm
    simpa [F64.le] using hm

/-- The residual expression of the M equation is exactly 0 on a state with `M = 0`, finite
`Beta`, `Tao = Tco = Ja = Jc = 0`, finite `Dao` and `Dco`, and a finite factor `2*exp(..)`. -/
theorem residualM_zero (L : MathLib) (hL : L.Sound) (Ds : HoppingEV) (env : Environment)
    (b : ℚ) (hB : env.Beta = fin b) (hM : env.M = fin 0)
    (hTao : env.Tao = fin 0) (hTco : env.Tco = fin 0) (hJa : env.Ja = fin 0)
    (hJc : env.Jc = fin 0) (hDao : isFinite (Ds.Dao env) = true)
    (hDco : isFinite (Ds.Dco env) = true)
    (hexp : isFinite (mul (fin 2) (L.exp (mul (neg env.Beta)
      (sub env.DeltaS (mul env.W env.QK))))) = true) :
    sub env.M (div (mul (mul (fin 2) (L.exp (mul (neg env.Beta)
        (sub env.DeltaS (mul env.W env.QK)))))
      (L.sinh (mul (mul env.Beta env.M) (env.QJ Ds)))) (env.Z1 L Ds)) = fin 0 := by
  obtain ⟨d1, hd1⟩ := isFinite_iff.mp hDao
  obtain ⟨d2, hd2⟩ := isFinite_iff.mp hDco
  obtain ⟨t, ht⟩ := isFinite_iff.mp hexp
  have ht0 := two_mul_exp_finite L hL ht
  have hQJ : env.QJ Ds = fin 0 := by
    simp only [Environment.QJ, hd1, hd2, hTao, hTco, hJa, hJc]
    norm_num [add_fin, mul_fin, rnd_of_den_one]
  have harg : mul (mul (fin b) (fin 0)) (fin 0) = fin 0 := by
    norm_num [mul_fin, rnd_of_den_one]
  have hz1 : le (fin 1) (env.Z1 L Ds) = true := by
    unfold Environment.Z1
    simp only [hQJ, hM]
    rw [ht, hB, harg, hL.cosh_zero]
    apply one_add_ge
    rw [mul_fin]
    have := rnd_mono (a := 0) (b := t * 1) (by linarith)
    rwa [rnd_zero] at this
  rw [ht, hQJ, hM, hB, harg, hL.sinh_zero, mul_fin, mul_zero, rnd_zero,
    zero_div_of_one_le hz1]
  norm_num [sub_fin, rnd_zero]

/-- C6, as amended: for finite `Beta`, `Tao = Tco = 0` and `Ja = Jc = 0`, the trial vector
`(0, w, mu)` for `["M", "W", "Mu"]`, a provider whose `Dao` and `Dco` are finite, and a
factor `2*exp(-Beta*(DeltaS - W*QK))` that is finite (no overflow), the residual function
built by `AbsErrorM` returns exactly 0 with a nil error. -/
theorem AbsErrorM_zero_at_M_zero (L : MathLib) (hL : L.Sound) (Ds : HoppingEV)
    (env : Environment) (w mu : F64) (b : ℚ) (hB : env.Beta = fin b)
    (hTao : env.Tao = fin 0) (hTco : env.Tco = fin 0) (hJa : env.Ja = fin 0)
    (hJc : env.Jc = fin 0)
    (hDao : isFinite (Ds.Dao { env with M := fin 0, W := w, Mu := mu }) = true)
    (hDco : isFinite (Ds.Dco { env with M := fin 0, W := w, Mu := mu }) = true)
    (hexp : isFinite (mul (fin 2) (L.exp (mul (neg env.Beta)
      (sub env.DeltaS (mul w env.QK))))) = true) :
    (AbsErrorM L Ds ["M", "W", "Mu"]).F env [fin 0, w, mu] =
      .ok { value := fin 0, err := none, env := { env with M := fin 0, W := w, Mu := mu } } := by
  have hset : env.Set [fin 0, w, mu] ["M", "W", "Mu"] =
      .ok { env with M := fin 0, W := w, Mu := mu } := rfl
  have key := residualM_zero L hL Ds { env with M := fin 0, W := w, Mu := mu } b hB rfl
    hTao hTco hJa hJc hDao hDco hexp
  simp only [AbsErrorM, absErrorMF, hset]
  show Except.ok _ = _
  rw [key]

/-- The residual of `AbsErrorM` at `M = 0` on the all-zero state with `Beta = 1`, for the
trial values `0, 1, 2`. -/
theorem AbsErrorM_zero_at_M_zero_witness :
    (AbsErrorM coarseMath zeroHopping ["M", "W", "Mu"]).F { zeroEnv with Beta := fin 1 }
        [fin 0, fin 1, fin 2] =
      .ok { value := fin 0, err := none
            env := { zeroEnv with Beta := fin 1, M := fin 0, W := fin 1, Mu := fin 2 } } :=
  AbsErrorM_zero_at_M_zero coarseMath coarseMath_sound zeroHopping
    { zeroEnv with Beta := fin 1 } (fin 1) (fin 2) 1 rfl rfl rfl rfl rfl rfl rfl (by
      norm_num [Environment.DeltaS, Environment.QK, zeroEnv, coarseMath, coarseExp, add_fin,
        mul_fin, sub_fin, neg_fin, rnd_of_den_one, isFinite])

/-- On the state `Beta = 1000`, `B = -1` the exponential factor overflows. -/
theorem deepWell_exp (L : MathLib) (hL : L.Sound) :
    L.exp (mul (neg deepWellEnv.Beta)
      (sub deepWellEnv.DeltaS (mul deepWellEnv.W deepWellEnv.QK))) = pinf := by
  have h1 : mul (neg deepWellEnv.Beta)
      (sub deepWellEnv.DeltaS (mul deepWellEnv.W deepWellEnv.QK)) = fin 1000 := by
    norm_num [Environment.DeltaS, Environment.QK, deepWellEnv, zeroEnv, add_fin, mul_fin,
      sub_fin, neg_fin, rnd_of_den_one]
  rw [h1, hL.exp_overflow 1000 (by norm_num)]

theorem deepWell_arg :
    mul (mul deepWellEnv.Beta deepWellEnv.M) (deepWellEnv.QJ zeroHopping) = fin 0 := by
  norm_num [Environment.QJ, deepWellEnv, zeroEnv, zeroHopping, add_fin, mul_fin,
    rnd_of_den_one]

/-- With `M = 0` on the state `Beta = 1000`, `B = -1` the residual of the M equation is NaN:
the exponential factor overflows to `+Inf` and `Inf * Sinh(0)` is NaN. -/
theorem AbsErrorM_deepWell (L : MathLib) (hL : L.Sound) :
    (AbsErrorM L zeroHopping ["M", "W", "Mu"]).F deepWellEnv [fin 0, fin 0, fin 0] =
      .ok { value := nan, err := none, env := deepWellEnv } := by
  have hset : deepWellEnv.Set [fin 0, fin 0, fin 0] ["M", "W", "Mu"] = .ok deepWellEnv := rfl
  simp only [AbsErrorM, absErrorMF, hset]
  show Except.ok _ = _
  rw [deepWell_exp L hL, deepWell_arg, hL.sinh_zero]
  simp [F64.mul, infTimes, F64.div, F64.sub, F64.neg, F64.add, deepWellEnv, zeroEnv]

/-- C6 as stated fails: with finite `Beta = 1000 > 0`, `B = -1`, every other field zero
(`Tao = Tco = 0`, `Ja = Jc = 0`), a provider returning zeros and the trial vector `(0, 0, 0)`
for `["M", "W", "Mu"]`, the residual of `AbsErrorM` is NaN, not 0, with every math library
that meets the contract. -/
theorem AbsErrorM_not_zero_at_M_zero :
    (∀ L : MathLib, L.Sound →
      (AbsErrorM L zeroHopping ["M", "W", "Mu"]).F deepWellEnv [fin 0, fin 0, fin 0] =
        .ok { value := nan, err := none, env := deepWellEnv }) ∧
    (AbsErrorM coarseMath zeroHopping ["M", "W", "Mu"]).F deepWellEnv [fin 0, fin 0, fin 0] ≠
      .ok { value := fin 0, err := none, env := deepWellEnv } :=
  ⟨AbsErrorM_deepWell, by rw [AbsErrorM_deepWell coarseMath coarseMath_sound]; simp⟩

/-! ## The residual of the W equation -/

/-- C8, as amended: for valid float field names and a trial vector of the same length, the
function built by `AbsErrorW` writes the trial values by `Set` and returns
`M - t/Z1` with a nil error, where `t = 2*exp(-Beta*(DeltaS - W*QK))*cosh(Beta*M*QJ)` and
`Z1 = 1 + t` are computed from the `Environment` after the write; the left-hand side is the
field `M`, not the field `W`. -/
theorem AbsErrorW_residual (L : MathLib) (Ds : HoppingEV) (env : Environment)
    (vars : List String) (v : List F64)
    (hvalid : ∀ s ∈ vars, (FloatField.ofName s).isSome = true)
    (hlen : v.length = vars.length) :
    ∃ env', env.Set v vars = .ok env' ∧
      (AbsErrorW L Ds vars).F env v = .ok
        { value := sub env'.M
            (div (mul (mul (fin 2)
                (L.exp (mul (neg env'.Beta) (sub env'.DeltaS (mul env'.W env'.QK)))))
              (L.cosh (mul (mul env'.Beta env'.M) (env'.QJ Ds)))) (env'.Z1 L Ds))
          err := none
          env := env' } ∧
      env'.Z1 L Ds = add (fin 1) (mul (mul (fin 2)
          (L.exp (mul (neg env'.Beta) (sub env'.DeltaS (mul env'.W env'.QK)))))
        (L.cosh (mul (mul env'.Beta env'.M) (env'.QJ Ds)))) := by
  obtain ⟨env', hok, _⟩ := Set_spec env vars v hvalid hlen
  refine ⟨env', hok, ?_, rfl⟩
  simp only [AbsErrorW, absErrorWF, hok]
  rfl

theorem valid_M_W : ∀ s ∈ ["M", "W"], (FloatField.ofName s).isSome = true := by
  intro s hs
  simp only [List.mem_cons, List.mem_singleton, List.not_mem_nil, or_false] at hs
  rcases hs with rfl | rfl <;> rfl

/-- The residual of `AbsErrorW` on the all-zero state with the trial values `1, 2` for
`M, W`. -/
theorem AbsErrorW_residual_witness :
    ∃ env', zeroEnv.Set [fin 1, fin 2] ["M", "W"] = .ok env' ∧
      (AbsErrorW coarseMath zeroHopping ["M", "W"]).F zeroEnv [fin 1, fin 2] = .ok
        { value := sub env'.M
            (div (mul (mul (fin 2)
                (coarseMath.exp (mul (neg env'.Beta) (sub env'.DeltaS (mul env'.W env'.QK)))))
              (coarseMath.cosh (mul (mul env'.Beta env'.M) (env'.QJ zeroHopping))))
              (env'.Z1 coarseMath zeroHopping))
          err := none
          env := env' } ∧
      env'.Z1 coarseMath zeroHopping = add (fin 1) (mul (mul (fin 2)
          (coarseMath.exp (mul (neg env'.Beta) (sub env'.DeltaS (mul env'.W env'.QK)))))
        (coarseMath.cosh (mul (mul env'.Beta env'.M) (env'.QJ zeroHopping)))) :=
  AbsErrorW_residual coarseMath zeroHopping zeroEnv ["M", "W"] [fin 1, fin 2] valid_M_W rfl

/-- On the state `Beta = 1000`, `B = -1` the partition function overflows to `+Inf`. -/
theorem deepWell_Z1 (L : MathLib) (hL : L.Sound) :
    deepWellEnv.Z1 L zeroHopping = pinf := by
  unfold Environment.Z1
  simp only []
  rw [deepWell_exp L hL, deepWell_arg, hL.cosh_zero]
  simp [F64.mul, infTimes, F64.add]

/-- On the state `Beta = 1000`, `B = -1` the residual of `AbsErrorW` is NaN (`Inf/Inf`),
whereas `M - (1 - 1/Z1)` is `-1`. -/
theorem AbsErrorW_deepWell (L : MathLib) (hL : L.Sound) :
    (AbsErrorW L zeroHopping ["M", "W"]).F deepWellEnv [fin 0, fin 0] =
      .ok { value := nan, err := none, env := deepWellEnv } ∧
    sub deepWellEnv.M (sub (fin 1) (div (fin 1) (deepWellEnv.Z1 L zeroHopping))) =
      fin (-1) := by
  constructor
  · have hset : deepWellEnv.Set [fin 0, fin 0] ["M", "W"] = .ok deepWellEnv := rfl
    simp only [AbsErrorW, absErrorWF, hset]
    show Except.ok _ = _
    rw [deepWell_Z1 L hL, deepWell_exp L hL, deepWell_arg, hL.cosh_zero]
    simp [F64.mul, infTimes, F64.div, F64.sub, F64.neg, F64.add, deepWellEnv, zeroEnv]
  · rw [deepWell_Z1 L hL]
    norm_num [F64.div, sub_fin, rnd_of_den_one, deepWellEnv, zeroEnv]

/-- C8 as stated fails in its last clause: on the state `Beta = 1000`, `B = -1` (every other
field zero) with the trial vector `(0, 0)` for `["M", "W"]`, the residual of `AbsErrorW` is
NaN while `M - (1 - 1/Z1)` is `-1`, with every math library that meets the contract. -/
theorem AbsErrorW_not_one_sub_inv :
    (∀ L : MathLib, L.Sound →
      (AbsErrorW L zeroHopping ["M", "W"]).F deepWellEnv [fin 0, fin 0] =
        .ok { value := nan, err := none, env := deepWellEnv } ∧
      sub deepWellEnv.M (sub (fin 1) (div (fin 1) (deepWellEnv.Z1 L zeroHopping))) =
        fin (-1)) ∧
    (AbsErrorW coarseMath zeroHopping ["M", "W"]).F deepWellEnv [fin 0, fin 0] ≠
      .ok { value := sub deepWellEnv.M
              (sub (fin 1) (div (fin 1) (deepWellEnv.Z1 coarseMath zeroHopping)))
            err := none, env := deepWellEnv } := by
  refine ⟨AbsErrorW_deepWell, ?_⟩
  obtain ⟨h1, h2⟩ := AbsErrorW_deepWell coarseMath coarseMath_sound
  rw [h1, h2]
  simp

/-! ## The free energy -/

/-- C9: with `IonsOnly = true`, `FreeEnergy(Ds)` is exactly the ionic part plus the
average-times-average part `QJ*M^2 + QK*W^2 + Qele` (summed in the order of the code:
`ion + ((QJ*M^2 + QK*W^2) + Qele)`), and the electronic term is not evaluated at all: the
result is the same for any two choices of the Hamiltonian builder, the eigenvalue routine and
the Brillouin-zone average, panicking ones included. -/
theorem FreeEnergy_ionsOnly (L : MathLib) (env : Environment) (Ds : HoppingEV)
    (h : env.IonsOnly = true) {Mat Mat' : Type} (E : Electronic Mat) (E' : Electronic Mat') :
    env.FreeEnergy L E Ds = .ok (add (env.FreeEnergyIons L Ds)
      (add (add (mul (env.QJ Ds) (L.pow env.M (fin 2))) (mul env.QK (L.pow env.W (fin 2))))
        (env.Qele Ds))) ∧
    env.FreeEnergy L E Ds = env.FreeEnergy L E' Ds := by
  simp [Environment.FreeEnergy, Environment.avgAvgPart, h]

/-- With `IonsOnly = true` the free energy of the all-zero state is the same with panicking
electronic collaborators and with the one-band toy model. -/
theorem FreeEnergy_ionsOnly_witness :
    Environment.FreeEnergy coarseMath failingElectronic { zeroEnv with IonsOnly := true }
        zeroHopping =
      .ok (add (Environment.FreeEnergyIons coarseMath { zeroEnv with IonsOnly := true }
          zeroHopping)
        (add (add (mul (Environment.QJ { zeroEnv with IonsOnly := true } zeroHopping)
              (coarseMath.pow (fin 0) (fin 2)))
            (mul (Environment.QK { zeroEnv with IonsOnly := true })
              (coarseMath.pow (fin 0) (fin 2))))
          (Environment.Qele { zeroEnv with IonsOnly := true } zeroHopping))) ∧
    Environment.FreeEnergy coarseMath failingElectronic { zeroEnv with IonsOnly := true }
        zeroHopping =
      Environment.FreeEnergy coarseMath toyElectronic { zeroEnv with IonsOnly := true }
        zeroHopping :=
  FreeEnergy_ionsOnly coarseMath { zeroEnv with IonsOnly := true } zeroHopping rfl
    failingElectronic toyElectronic

/-- The loop of `inner` over a list holding at least `alpha + n` eigenvalues adds the terms
of the next `n` eigenvalues. -/
theorem bandSum_eq (L : MathLib) (env : Environment) (evals : List F64) :
    ∀ (n alpha : Nat) (sum : F64), alpha + n ≤ evals.length →
      bandSum L env evals n alpha sum = .ok (((evals.drop alpha).take n).foldl
        (fun s eps => add s (mul (fin 2)
          (L.log (add (fin 1) (L.exp (mul (neg env.Beta) eps)))))) sum) := by
  intro n
  induction n with
  | zero => intro alpha sum _; simp [bandSum]
  | succ n ih =>
    intro alpha sum h
    have hlt : alpha < evals.length := by omega
    have hget : evals.get? alpha = some (evals.get ⟨alpha, hlt⟩) := List.get?_eq_get hlt
    have hdrop : evals.drop alpha = evals.get ⟨alpha, hlt⟩ :: evals.drop (alpha + 1) :=
      List.drop_eq_getElem_cons hlt
    simp only [bandSum, hget]
    rw [ih (alpha + 1) _ (by omega), hdrop]
    simp only [List.take_succ_cons, List.foldl_cons]

/-- C10: with `IonsOnly = false`, `FreeEnergy(Ds)` is `FreeEnergyIons(Ds) +
FreeEnergyElectrons() + (QJ*M^2 + QK*W^2 + Qele)`, where `FreeEnergyIons` is
`-2*(1/Beta)*Log(Z1)` and `FreeEnergyElectrons` is `-(1/Beta)` times the Brillouin-zone
average of the sum over the eigenvalues `eps` of `H(env, k)` of `2*Log(1 + Exp(-Beta*eps))`,
plus `2*Mu*1.0`: `Mu` is in the additive term and not in the exponent. -/
theorem FreeEnergy_full (L : MathLib) {Mat : Type} (E : Electronic Mat) (env : Environment)
    (Ds : HoppingEV) (h : env.IonsOnly = false) :
    env.FreeEnergy L E Ds = (env.FreeEnergyElectrons L E).map (fun electron_part =>
      add (add (env.FreeEnergyIons L Ds) electron_part)
        (add (add (mul (env.QJ Ds) (L.pow env.M (fin 2)))
          (mul env.QK (L.pow env.W (fin 2)))) (env.Qele Ds))) ∧
    env.FreeEnergyIons L Ds =
      mul (mul (fin (-2)) (div (fin 1) env.Beta)) (L.log (env.Z1 L Ds)) ∧
    env.FreeEnergyElectrons L E = (E.Avg env.BZPointsPerDim 3 (env.inner L E)).map
      (fun avg => add (mul (neg (div (fin 1) env.Beta)) avg)
        (mul (mul (fin 2) env.Mu) (fin 1))) ∧
    (∀ (k : List F64) (H : Mat) (evals : List F64), E.ElHamiltonian env k = .ok H →
      E.Eigensystem H = .ok evals → evals.length = (E.Dims H).1.toNat →
      env.inner L E k = .ok (evals.foldl (fun s eps => add s (mul (fin 2)
        (L.log (add (fin 1) (L.exp (mul (neg env.Beta) eps)))))) (fin 0))) := by
  refine ⟨?_, rfl, ?_, ?_⟩
  · simp only [Environment.FreeEnergy, Environment.avgAvgPart, h]
    cases env.FreeEnergyElectrons L E <;> rfl
  · simp only [Environment.FreeEnergyElectrons]
    cases E.Avg env.BZPointsPerDim 3 (env.inner L E) <;> rfl
  · intro k H evals hH hev hlen
    simp only [Environment.inner, hH, hev, bind, Except.bind]
    rw [bandSum_eq L env evals _ 0 (fin 0) (by omega), ← hlen]
    simp

/-- The free energy of the all-zero state (`IonsOnly = false`) with the one-band toy model
is the sum of the ionic, electronic and average-times-average parts. -/
theorem FreeEnergy_full_witness :
    Environment.FreeEnergy coarseMath toyElectronic zeroEnv zeroHopping =
      (Environment.FreeEnergyElectrons coarseMath toyElectronic zeroEnv).map
        (fun electron_part =>
          add (add (Environment.FreeEnergyIons coarseMath zeroEnv zeroHopping) electron_part)
            (add (add (mul (Environment.QJ zeroEnv zeroHopping)
                  (coarseMath.pow zeroEnv.M (fin 2)))
                (mul (Environment.QK zeroEnv) (coarseMath.pow zeroEnv.W (fin 2))))
              (Environment.Qele zeroEnv zeroHopping))) :=
  (FreeEnergy_full coarseMath toyElectronic zeroEnv zeroHopping rfl).1

/-! ## The residual of the W equation and the form 1 - 1/Z1 in the last place -/

namespace F64

theorem roundHalfEven_half_odd {n : ℤ} (h : n % 2 = 1) :
    roundHalfEven ((n : ℚ) + 1 / 2) = n + 1 := by
  have hfl : ⌊(n : ℚ) + 1 / 2⌋ = n := by
    rw [Int.floor_eq_iff]; constructor <;> linarith
  unfold roundHalfEven
  rw [hfl]
  have e : (n : ℚ) + 1 / 2 - (n : ℚ) = 1 / 2 := by ring
  rw [e, if_neg (lt_irrefl _), if_neg (lt_irrefl _), if_neg (by omega)]

theorem rnd_third : rnd (1 / 3) = fin (6004799503160661 / 2 ^ 54) := by
  have h := roundQ_eq_of_near (q := 1 / 3) (k := -2) (n := 6004799503160661) (by norm_num)
    (by norm_num [abs_of_pos]) (by norm_num [abs_of_pos]) (by norm_num) (by norm_num)
  have hm : (1 : ℚ) ≤ maxQ := by unfold maxQ; norm_num
  unfold rnd
  rw [h]
  norm_num
  rw [if_neg (by linarith), if_neg (by linarith)]

theorem rnd_two_thirds : rnd (2 / 3) = fin (6004799503160661 / 2 ^ 53) := by
  have h := roundQ_eq_of_near (q := 2 / 3) (k := -1) (n := 6004799503160661) (by norm_num)
    (by norm_num [abs_of_pos]) (by norm_num [abs_of_pos]) (by norm_num) (by norm_num)
  have hm : (1 : ℚ) ≤ maxQ := by unfold maxQ; norm_num
  unfold rnd
  rw [h]
  norm_num
  rw [if_neg (by linarith), if_neg (by linarith)]

theorem rnd_one_sub_third :
    rnd (1 - 6004799503160661 / 2 ^ 54) = fin (6004799503160662 / 2 ^ 53) := by
  have hq : quantumExp (1 - 6004799503160661 / 2 ^ 54 : ℚ) = -1 - 52 :=
    quantumExp_eq (k := -1) (by norm_num) (by norm_num [abs_of_pos]) (by norm_num [abs_of_pos])
  have hr : roundHalfEven ((1 - 6004799503160661 / 2 ^ 54 : ℚ) / 2 ^ (-1 - 52 : ℤ))
      = 6004799503160661 + 1 := by
    have := roundHalfEven_half_odd (n := 6004799503160661) (by norm_num)
    rw [← this]
    congr 1
    norm_num
  have hm : (1 : ℚ) ≤ maxQ := by unfold maxQ; norm_num
  unfold rnd roundQ
  rw [hq, hr]
  norm_num
  rw [if_neg (by linarith), if_neg (by linarith)]

end F64

theorem neg_grid53 {m : ℤ} (hm : |m| < 2 ^ 53) :
    sub (fin 0) (fin ((m : ℚ) / 2 ^ 53)) = fin (-((m : ℚ) / 2 ^ 53)) := by
  have h := rnd_of_grid (m := m) (e := -53) hm (by norm_num) (by
    have h1 : |(m : ℚ)| < 2 ^ 53 := by exact_mod_cast hm
    have h2 : (2 : ℚ) ^ 53 ≤ maxQ := by unfold maxQ; norm_num
    rw [abs_mul, abs_of_pos (by positivity : (0 : ℚ) < 2 ^ (-53 : ℤ))]
    have h3 : |(m : ℚ)| * 2 ^ (-53 : ℤ) ≤ |(m : ℚ)| * 1 :=
      mul_le_mul_of_nonneg_left (by norm_num) (abs_nonneg _)
    linarith)
  have e : (m : ℚ) * 2 ^ (-53 : ℤ) = (m : ℚ) / 2 ^ 53 := by
    rw [zpow_neg, div_eq_mul_inv]; norm_cast
  rw [e] at h
  rw [sub_fin, zero_sub, rnd_neg, h, neg_fin]

/-- On the all-zero state at `Beta = 1` the residual of `AbsErrorW` is `-fl(2/3)`, whereas
`M - (1 - 1/Z1)` is `-fl(1 - fl(1/3))`: the two differ in the last place. -/
theorem AbsErrorW_unitBeta (L : MathLib) (hL : L.Sound) :
    (AbsErrorW L zeroHopping ["M", "W"]).F unitBetaEnv [fin 0, fin 0] =
      .ok { value := fin (-(6004799503160661 / 2 ^ 53)), err := none, env := unitBetaEnv } ∧
    sub unitBetaEnv.M (sub (fin 1) (div (fin 1) (unitBetaEnv.Z1 L zeroHopping))) =
      fin (-(6004799503160662 / 2 ^ 53)) := by
  have harg : mul (neg unitBetaEnv.Beta)
      (sub unitBetaEnv.DeltaS (mul unitBetaEnv.W unitBetaEnv.QK)) = fin 0 := by
    norm_num [Environment.DeltaS, Environment.QK, unitBetaEnv, zeroEnv, add_fin, mul_fin,
      sub_fin, neg_fin, rnd_of_den_one]
  have harg2 : mul (mul unitBetaEnv.Beta unitBetaEnv.M) (unitBetaEnv.QJ zeroHopping)
      = fin 0 := by
    norm_num [Environment.QJ, unitBetaEnv, zeroEnv, zeroHopping, add_fin, mul_fin,
      rnd_of_den_one]
  have hZ : unitBetaEnv.Z1 L zeroHopping = fin 3 := by
    unfold Environment.Z1
    simp only []
    rw [harg, harg2, hL.exp_zero, hL.cosh_zero]
    norm_num [add_fin, mul_fin, rnd_of_den_one]
  have hM : unitBetaEnv.M = fin 0 := rfl
  constructor
  · have hset : unitBetaEnv.Set [fin 0, fin 0] ["M", "W"] = .ok unitBetaEnv := rfl
    simp only [AbsErrorW, absErrorWF, hset]
    show Except.ok _ = _
    rw [hZ, harg, harg2, hL.exp_zero, hL.cosh_zero, hM]
    have h1 : mul (mul (fin 2) (fin 1)) (fin 1) = fin 2 := by
      norm_num [mul_fin, rnd_of_den_one]
    rw [h1, div_fin (by norm_num), rnd_two_thirds]
    have := neg_grid53 (m := 6004799503160661) (by norm_num)
    simp only [Int.cast_ofNat] at this
    rw [this]
  · rw [hZ, hM, div_fin (by norm_num), rnd_third, sub_fin, rnd_one_sub_third]
    have := neg_grid53 (m := 6004799503160662) (by norm_num)
    simp only [Int.cast_ofNat] at this
    rw [this]

/-! ## The bulk setter: when it panics -/

theorem FieldByName_BZ : FieldByName "BZPointsPerDim" = RValue.field "BZPointsPerDim" Kind.int := by
  rfl

theorem FieldByName_IonsOnly : FieldByName "IonsOnly" = RValue.field "IonsOnly" Kind.bool := by
  rfl

theorem FieldByName_of_none {s : String} (h : FloatField.ofName s = none) :
    (FieldByName s = RValue.field s Kind.int ∨ FieldByName s = RValue.field s Kind.bool ∨
      FieldByName s = RValue.zero) := by
  unfold FieldByName
  split_ifs
  · exact Or.inl rfl
  · exact Or.inr (Or.inl rfl)
  · rw [h]; exact Or.inr (Or.inr rfl)

namespace Environment

theorem setFrom_cons_bad {v : List F64} {s : String} {rest : List String} {i : Nat}
    {env : Environment} (h : FloatField.ofName s = none) :
    ∃ p, setFrom v (s :: rest) i env = .error p := by
  rcases FieldByName_of_none h with h1 | h1 | h1
  · exact ⟨Panic.fieldNonFloat s, by simp [setFrom, h1]⟩
  · exact ⟨Panic.fieldNonFloat s, by simp [setFrom, h1]⟩
  · exact ⟨Panic.typeOnZeroValue, by simp [setFrom, h1]⟩

theorem setFrom_error_iff (v : List F64) :
    ∀ (vars : List String) (i : Nat) (env : Environment), i + vars.length ≤ v.length →
      ((∃ p, setFrom v vars i env = .error p) ↔ ∃ s ∈ vars, FloatField.ofName s = none) := by
  intro vars
  induction vars with
  | nil => intro i env _; simp [setFrom]
  | cons s rest ih =>
    intro i env hlen
    cases hs : FloatField.ofName s with
    | none =>
      constructor
      · intro _; exact ⟨s, List.mem_cons_self _ _, hs⟩
      · intro _; exact setFrom_cons_bad hs
    | some f =>
      have hi : i < v.length := by simp at hlen; omega
      have hx : v.get? i = some (v.get ⟨i, hi⟩) := List.get?_eq_get hi
      rw [setFrom_cons_float hs hx, ih (i + 1) _ (by simp at hlen ⊢; omega)]
      constructor
      · rintro ⟨t, ht, htn⟩; exact ⟨t, List.mem_cons_of_mem _ ht, htn⟩
      · rintro ⟨t, ht, htn⟩
        rcases List.mem_cons.mp ht with rfl | ht'
        · rw [hs] at htn; exact absurd htn (by simp)
        · exact ⟨t, ht', htn⟩

end Environment

/-- C11: for a vector at least as long as the list of names, `Set` panics if and only if
some name is not the name of a `float64` field; it panics for a name that is no field at all
and for the non-float fields `BZPointsPerDim` and `IonsOnly`, so such a name is never
silently ignored. -/
theorem Set_panics_iff (env : Environment) (v : List F64) (vars : List String)
    (hlen : vars.length ≤ v.length) :
    ((∃ p, env.Set v vars = .error p) ↔ ∃ s ∈ vars, FloatField.ofName s = none) ∧
    FloatField.ofName "BZPointsPerDim" = none ∧ FloatField.ofName "IonsOnly" = none ∧
    (∀ s : String, FieldByName s = RValue.zero → FloatField.ofName s = none) := by
  refine ⟨Environment.setFrom_error_iff v vars 0 env (by omega), rfl, rfl, ?_⟩
  intro s hs
  cases h : FloatField.ofName s with
  | none => rfl
  | some f => rw [FieldByName_of_float h] at hs; exact absurd hs (by simp)

/-- Setting `IonsOnly`, `BZPointsPerDim` or a name that is no field panics. -/
theorem Set_panics_iff_witness :
    (∃ p, zeroEnv.Set [fin 1, fin 2] ["M", "IonsOnly"] = .error p) ∧
    zeroEnv.Set [fin 1] ["BZPointsPerDim"] = .error (Panic.fieldNonFloat "BZPointsPerDim") ∧
    zeroEnv.Set [fin 1] ["Temperature"] = .error Panic.typeOnZeroValue :=
  ⟨((Set_panics_iff zeroEnv [fin 1, fin 2] ["M", "IonsOnly"] (by simp)).1).mpr
      ⟨"IonsOnly", by simp, rfl⟩, rfl, rfl⟩

/-! ## The bulk setter: what it leaves -/

/-- C12: for valid float field names and a vector at least as long, after `Set(v, vars)`
each field named in `vars` holds `v[i]` for the last index `i` at which its name occurs, and
every field not named in `vars` is unchanged, `BZPointsPerDim` and `IonsOnly` included. -/
theorem Set_frame (env : Environment) (v : List F64) (vars : List String)
    (hvalid : ∀ s ∈ vars, (FloatField.ofName s).isSome = true)
    (hlen : vars.length ≤ v.length) :
    ∃ env', env.Set v vars = .ok env' ∧
      (∀ (k : Nat) (s : String) (f : FloatField), vars.get? k = some s →
        FloatField.ofName s = some f →
        (∀ (j : Nat) (t : String), k < j → vars.get? j = some t → t ≠ s) →
        v.get? k = some (env'.getFloat f)) ∧
      (∀ f : FloatField, (∀ s ∈ vars, FloatField.ofName s ≠ some f) →
        env'.getFloat f = env.getFloat f) ∧
      env'.BZPointsPerDim = env.BZPointsPerDim ∧ env'.IonsOnly = env.IonsOnly := by
  obtain ⟨env', hok, hval, hframe, hbz, hio⟩ :=
    Environment.setFrom_spec v vars 0 env hvalid (by omega)
  exact ⟨env', hok, fun k s f hk hf hl => by simpa using hval k s f hk hf hl, hframe, hbz, hio⟩

theorem valid_M_W_M : ∀ s ∈ ["M", "W", "M"], (FloatField.ofName s).isSome = true := by
  intro s hs
  simp only [List.mem_cons, List.mem_singleton, List.not_mem_nil, or_false] at hs
  rcases hs with rfl | rfl | rfl <;> rfl

/-- Setting `M, W, M` to `1, 2, 3` on the all-zero state succeeds. -/
theorem Set_frame_witness :
    ∃ env', zeroEnv.Set [fin 1, fin 2, fin 3] ["M", "W", "M"] = .ok env' ∧
      (∀ (k : Nat) (s : String) (f : FloatField), ["M", "W", "M"].get? k = some s →
        FloatField.ofName s = some f →
        (∀ (j : Nat) (t : String), k < j → ["M", "W", "M"].get? j = some t → t ≠ s) →
        [fin 1, fin 2, fin 3].get? k = some (env'.getFloat f)) ∧
      (∀ f : FloatField, (∀ s ∈ ["M", "W", "M"], FloatField.ofName s ≠ some f) →
        env'.getFloat f = zeroEnv.getFloat f) ∧
      env'.BZPointsPerDim = zeroEnv.BZPointsPerDim ∧ env'.IonsOnly = zeroEnv.IonsOnly :=
  Set_frame zeroEnv [fin 1, fin 2, fin 3] ["M", "W", "M"] valid_M_W_M (by simp)

/-! ## Loading and the final snapshot -/

/-- C13: for every source record that loads, the `Environment` returned by `LoadIonEnv` has
`Tae = Tce = Tbe = Tao = Tco = Tbo = EpsilonM = EpsilonR = Mu = 0.0` and `IonsOnly = true`
whatever the record held, every other field equals the loaded value, and `LoadIonEnv` returns
an error (and no `Environment`) exactly when `LoadEnv` does, the same error. -/
theorem LoadIonEnv_spec (S : Serializer) (path : String) :
    (∀ env0 : Environment, LoadEnv S path = .ok env0 →
      ∃ env, LoadIonEnv S path = .ok env ∧
        env.Tae = fin 0 ∧ env.Tce = fin 0 ∧ env.Tbe = fin 0 ∧ env.Tao = fin 0 ∧
        env.Tco = fin 0 ∧ env.Tbo = fin 0 ∧ env.EpsilonM = fin 0 ∧ env.EpsilonR = fin 0 ∧
        env.Mu = fin 0 ∧ env.IonsOnly = true ∧
        env.BZPointsPerDim = env0.BZPointsPerDim ∧ env.M = env0.M ∧ env.W = env0.W ∧
        env.Beta = env0.Beta ∧ env.B = env0.B ∧ env.Ja = env0.Ja ∧ env.Jc = env0.Jc ∧
        env.Ka = env0.Ka ∧ env.Kc = env0.Kc ∧ env.Kb = env0.Kb) ∧
    (∀ err : String, LoadIonEnv S path = .error err ↔ LoadEnv S path = .error err) := by
  constructor
  · intro env0 h
    simp [LoadIonEnv, h]
  · intro err
    unfold LoadIonEnv
    cases LoadEnv S path <;> simp

/-- C15: `NewFinalEnvironment(env, Ds)` returns a snapshot whose embedded `Environment` is
`env`, whose `Dae, Dce, Dbe, Dao, Dco, Dbo` are the provider's values of the same names at
`env`, and whose `FreeEnergy` is `env.FreeEnergy(Ds)`; nothing else is computed or checked
(and it panics exactly when `FreeEnergy` does). -/
theorem NewFinalEnvironment_spec {Mat : Type} (L : MathLib) (E : Electronic Mat)
    (env : Environment) (Ds : HoppingEV) :
    NewFinalEnvironment L E env Ds = (env.FreeEnergy L E Ds).map (fun F =>
      { toEnvironment := env, Dae := Ds.Dae env, Dce := Ds.Dce env, Dbe := Ds.Dbe env,
        Dao := Ds.Dao env, Dco := Ds.Dco env, Dbo := Ds.Dbo env, FreeEnergy := F }) := by
  unfold NewFinalEnvironment
  cases env.FreeEnergy L E Ds <;> rfl

/-! ## Marshalling -/

theorem eq_maxFloat64_self : F64.eq maxFloat64 maxFloat64 = true := by
  simp [F64.eq, maxFloat64]

theorem eq_pinf_maxFloat64 : F64.eq pinf maxFloat64 = false := by
  simp [F64.eq, maxFloat64]

/-- C14: for an `Environment` with `Beta = +Inf`, `Marshal` serializes the record with `Beta`
replaced by `MaxFloat64`, and when it returns the live object is as before, `Beta = +Inf`
again; the same holds for `FinalEnvironment.Marshal`. -/
theorem Marshal_inf (S : Serializer) (env : Environment) (fenv : FinalEnvironment)
    (hB : env.Beta = pinf) (hF : fenv.toEnvironment.Beta = pinf) :
    (∀ (out : String) (env' : Environment), env.Marshal S = .ok (out, env') ↔
      (S.MakeJSON { env with Beta := maxFloat64 } = .ok out ∧ env' = env)) ∧
    (∀ (out : String) (fenv' : FinalEnvironment), fenv.Marshal S = .ok (out, fenv') ↔
      (S.MakeJSONFinal
        { fenv with toEnvironment := { fenv.toEnvironment with Beta := maxFloat64 } } = .ok out ∧
        fenv' = fenv)) := by
  constructor
  · intro out env'
    have h1 : F64.eq env.Beta pinf = true := by rw [hB]; rfl
    have hrestore : ({ ({ env with Beta := maxFloat64 } : Environment) with Beta := pinf }
        : Environment) = env := by
      cases env; simp only [Environment.mk.injEq] at *; simp_all
    simp only [Environment.Marshal, h1, if_true, eq_maxFloat64_self, hrestore]
    cases S.MakeJSON { env with Beta := maxFloat64 } with
    | error e => simp
    | ok s =>
      simp only [Except.ok.injEq, Prod.mk.injEq]
      constructor
      · rintro ⟨rfl, rfl⟩; exact ⟨rfl, rfl⟩
      · rintro ⟨rfl, rfl⟩; exact ⟨rfl, rfl⟩
  · intro out fenv'
    have h1 : F64.eq fenv.toEnvironment.Beta pinf = true := by rw [hF]; rfl
    have hrestore : ({ ({ fenv with toEnvironment :=
          { fenv.toEnvironment with Beta := maxFloat64 } } : FinalEnvironment) with
        toEnvironment := { ({ fenv.toEnvironment with Beta := maxFloat64 } : Environment) with
          Beta := pinf } } : FinalEnvironment) = fenv := by
      cases fenv with
      | mk e a b c d f g h =>
        cases e; simp only [FinalEnvironment.mk.injEq, Environment.mk.injEq] at *; simp_all
    simp only [FinalEnvironment.Marshal, h1, if_true, eq_maxFloat64_self, hrestore]
    cases S.MakeJSONFinal
        { fenv with toEnvironment := { fenv.toEnvironment with Beta := maxFloat64 } } with
    | error e => simp
    | ok s =>
      simp only [Except.ok.injEq, Prod.mk.injEq]
      constructor
      · rintro ⟨rfl, rfl⟩; exact ⟨rfl, rfl⟩
      · rintro ⟨rfl, rfl⟩; exact ⟨rfl, rfl⟩

/-- Marshalling the all-zero state at `Beta = +Inf` returns the text and leaves the state as
it was. -/
theorem Marshal_inf_witness :
    Environment.Marshal (toySerializer zeroEnv) { zeroEnv with Beta := pinf } =
      .ok ("json", { zeroEnv with Beta := pinf }) :=
  ((Marshal_inf (toySerializer zeroEnv) { zeroEnv with Beta := pinf }
    { toEnvironment := { zeroEnv with Beta := pinf }, Dae := fin 0, Dce := fin 0,
      Dbe := fin 0, Dao := fin 0, Dco := fin 0, Dbo := fin 0, FreeEnergy := fin 0 }
    rfl rfl).1 "json" { zeroEnv with Beta := pinf }).mpr ⟨rfl, rfl⟩

/-- When `Beta` is neither `+Inf` nor `MaxFloat64`, `Marshal` serializes the record itself and
leaves every field as it was. -/
theorem Marshal_transient (S : Serializer) (env : Environment) (h1 : env.Beta ≠ pinf)
    (h2 : env.Beta ≠ maxFloat64) (out : String) (hout : S.MakeJSON env = .ok out) :
    env.Marshal S = .ok (out, env) := by
  have e1 : F64.eq env.Beta pinf = false := by
    cases hb : env.Beta <;> simp_all [F64.eq]
  have e2 : F64.eq env.Beta maxFloat64 = false := by
    cases hb : env.Beta <;> simp_all [F64.eq, maxFloat64]
  simp [Environment.Marshal, e1, e2, hout]

/-- C18 at the failing input: an `Environment` whose `Beta` is the finite value `MaxFloat64`
comes out of `Marshal` with `Beta = +Inf`: the restoring test cannot tell a substituted
`MaxFloat64` from one that was there before the call. -/
theorem Marshal_maxFloat64 (S : Serializer) (env : Environment) (hB : env.Beta = maxFloat64)
    (out : String) (hout : S.MakeJSON env = .ok out) :
    env.Marshal S = .ok (out, { env with Beta := pinf }) := by
  have e1 : F64.eq env.Beta pinf = false := by
    rw [hB]; simp [F64.eq, maxFloat64]
  have e2 : F64.eq env.Beta maxFloat64 = true := by
    rw [hB]; exact eq_maxFloat64_self
  simp [Environment.Marshal, e1, e2, hout]

/-- Marshalling the all-zero state at `Beta = MaxFloat64` leaves `Beta = +Inf`. -/
theorem Marshal_maxFloat64_witness :
    Environment.Marshal (toySerializer zeroEnv) { zeroEnv with Beta := maxFloat64 } =
      .ok ("json", { zeroEnv with Beta := pinf }) :=
  Marshal_maxFloat64 (toySerializer zeroEnv) { zeroEnv with Beta := maxFloat64 } rfl "json" rfl

/-! ## The pure ionic case -/

theorem rnd_of_isFloat64 {m : ℚ} (h : isFloat64 (fin m) = true) : rnd m = fin m := by
  simpa [isFloat64] using h

/-- The residual expression of the M equation on a state of the pure ionic case with
`M = m`: it is `m`. -/
theorem residualM_ionic (L : MathLib) (hL : L.Sound) (Ds : HoppingEV) (env : Environment)
    (m : ℚ) (hm : isFloat64 (fin m) = true) (hM : env.M = fin m)
    (hBeta : env.Beta = fin 1) (hB : env.B = fin 0) (hEM : env.EpsilonM = fin 0)
    (hER : env.EpsilonR = fin 0) (hJa : env.Ja = fin 0) (hJc : env.Jc = fin 0)
    (hKa : env.Ka = fin 0) (hKc : env.Kc = fin 0) (hKb : env.Kb = fin 0)
    (hTao : env.Tao = fin 0) (hTco : env.Tco = fin 0) (hW : env.W = fin 1)
    (hDao : isFinite (Ds.Dao env) = true) (hDco : isFinite (Ds.Dco env) = true) :
    sub env.M (div (mul (mul (fin 2) (L.exp (mul (neg env.Beta)
        (sub env.DeltaS (mul env.W env.QK)))))
      (L.sinh (mul (mul env.Beta env.M) (env.QJ Ds)))) (env.Z1 L Ds)) = fin m := by
  obtain ⟨d1, hd1⟩ := isFinite_iff.mp hDao
  obtain ⟨d2, hd2⟩ := isFinite_iff.mp hDco
  have hQJ : env.QJ Ds = fin 0 := by
    simp only [Environment.QJ, hd1, hd2, hTao, hTco, hJa, hJc]
    norm_num [add_fin, mul_fin, rnd_of_den_one]
  have hQK : env.QK = fin 0 := by
    simp only [Environment.QK, hKa, hKc, hKb]
    norm_num [add_fin, mul_fin, rnd_of_den_one]
  have hDS : env.DeltaS = fin 0 := by
    simp only [Environment.DeltaS, hB, hEM, hER]
    norm_num [add_fin, sub_fin, rnd_of_den_one]
  have hexp : L.exp (mul (neg (fin 1)) (sub (fin 0) (mul (fin 1) (fin 0)))) = fin 1 := by
    have : mul (neg (fin 1)) (sub (fin 0) (mul (fin 1) (fin 0))) = fin 0 := by
      norm_num [add_fin, mul_fin, sub_fin, neg_fin, rnd_of_den_one]
    rw [this, hL.exp_zero]
  have harg : mul (mul (fin 1) (fin m)) (fin 0) = fin 0 := by
    rw [mul_fin, one_mul, rnd_of_isFloat64 hm, mul_fin, mul_zero, rnd_zero]
  have hZ1 : env.Z1 L Ds = fin 3 := by
    unfold Environment.Z1
    simp only [hQJ, hQK, hDS, hBeta, hW, hM]
    rw [hexp, harg, hL.cosh_zero]
    norm_num [add_fin, mul_fin, rnd_of_den_one]
  rw [hZ1, hQJ, hQK, hDS, hBeta, hW, hM, hexp, harg, hL.sinh_zero]
  have h0 : div (mul (mul (fin 2) (fin 1)) (fin 0)) (fin 3) = fin 0 := by
    norm_num [mul_fin, div_fin, rnd_of_den_one]
  rw [h0, sub_fin, sub_zero, rnd_of_isFloat64 hm]

/-- C17: in the pure non-interacting ionic case (`Beta = 1`, `B = 0`, `EpsilonM = EpsilonR =
0`, `Ja = Jc = Ka = Kc = Kb = 0`, all six hoppings 0, `W = 1`) with `variables = ["M"]`, the
residual of `AbsErrorM` at a finite trial value `m` is `m` itself (the provider's `Dao` and
`Dco` being finite), so `M = 0` is a root and the only one.  Of the six hoppings only `Tao`
and `Tco` enter the residual, so only they are assumed zero. -/
theorem AbsErrorM_ionic (L : MathLib) (hL : L.Sound) (Ds : HoppingEV) (env : Environment)
    (m : ℚ) (hm : isFloat64 (fin m) = true)
    (hBeta : env.Beta = fin 1) (hB : env.B = fin 0) (hEM : env.EpsilonM = fin 0)
    (hER : env.EpsilonR = fin 0) (hJa : env.Ja = fin 0) (hJc : env.Jc = fin 0)
    (hKa : env.Ka = fin 0) (hKc : env.Kc = fin 0) (hKb : env.Kb = fin 0)
    (hTao : env.Tao = fin 0) (hTco : env.Tco = fin 0) (hW : env.W = fin 1)
    (hDao : isFinite (Ds.Dao { env with M := fin m }) = true)
    (hDco : isFinite (Ds.Dco { env with M := fin m }) = true) :
    (AbsErrorM L Ds ["M"]).F env [fin m] =
      .ok { value := fin m, err := none, env := { env with M := fin m } } ∧
    (F64.eq (fin m) (fin 0) = true ↔ m = 0) := by
  refine ⟨?_, by simp [F64.eq]⟩
  have hset : env.Set [fin m] ["M"] = .ok { env with M := fin m } := rfl
  have key := residualM_ionic L hL Ds { env with M := fin m } m hm rfl hBeta hB hEM hER hJa
    hJc hKa hKc hKb hTao hTco hW hDao hDco
  simp only [AbsErrorM, absErrorMF, hset]
  show Except.ok _ = _
  rw [key]

/-- In the pure ionic case the residual at the trial value `1/2` is `1/2`. -/
theorem AbsErrorM_ionic_witness :
    (AbsErrorM coarseMath zeroHopping ["M"]).F { zeroEnv with Beta := fin 1, W := fin 1 }
        [fin (1 / 2)] =
      .ok { value := fin (1 / 2), err := none
            env := { zeroEnv with Beta := fin 1, W := fin 1, M := fin (1 / 2) } } ∧
    (F64.eq (fin (1 / 2)) (fin 0) = true ↔ (1 / 2 : ℚ) = 0) :=
  AbsErrorM_ionic coarseMath coarseMath_sound zeroHopping
    { zeroEnv with Beta := fin 1, W := fin 1 } (1 / 2)
    (by
      have h := rnd_of_grid (m := 1) (e := -1) (by norm_num) (by norm_num)
        (by unfold maxQ; norm_num [abs_of_pos])
      have e : ((1 : ℤ) : ℚ) * 2 ^ (-1 : ℤ) = 1 / 2 := by norm_num
      rw [e] at h
      simp only [isFloat64]
      exact decide_eq_true h)
    rfl rfl rfl rfl rfl rfl rfl rfl rfl rfl rfl rfl rfl rfl

/-! ## The ionic free energy at infinite Beta -/

theorem coarseMath_special : coarseMath.Special where
  log_nan := rfl
  log_pinf := rfl
  cosh_pinf := rfl
  cosh_ninf := rfl

namespace F64

theorem mul_nonFinite_left {x : F64} (hx : x.isNonFinite) (y : F64) :
    (mul x y).isNonFinite := by
  cases x <;> cases y <;> simp_all [isNonFinite, F64.mul, infTimes] <;> split_ifs <;> trivial

theorem mul_nonFinite_right (x : F64) {y : F64} (hy : y.isNonFinite) :
    (mul x y).isNonFinite := by
  cases x <;> cases y <;> simp_all [isNonFinite, F64.mul, infTimes] <;> split_ifs <;> trivial

theorem zero_mul_nonFinite {y : F64} (hy : y.isNonFinite) : mul (fin 0) y = nan := by
  cases y <;> simp_all [isNonFinite, F64.mul, infTimes]

end F64

/-- With `Beta = +Inf` the partition function `Z1` is NaN or `+Inf`, never a finite number. -/
theorem Z1_beta_inf (L : MathLib) (hL : L.Sound) (hS : L.Special) (env : Environment)
    (Ds : HoppingEV) (hB : env.Beta = pinf) :
    env.Z1 L Ds = nan ∨ env.Z1 L Ds = pinf := by
  unfold Environment.Z1
  simp only [hB]
  have hy : (mul (mul pinf env.M) (env.QJ Ds)).isNonFinite :=
    mul_nonFinite_left (mul_nonFinite_left (by trivial) _) _
  have hx : (mul (neg pinf) (sub env.DeltaS (mul env.W env.QK))).isNonFinite :=
    mul_nonFinite_left (by simp [F64.neg, isNonFinite]) _
  have hc : L.cosh (mul (mul pinf env.M) (env.QJ Ds)) = nan ∨
      L.cosh (mul (mul pinf env.M) (env.QJ Ds)) = pinf := by
    cases h : mul (mul pinf env.M) (env.QJ Ds) with
    | nan => left; exact hL.cosh_nan
    | pinf => right; exact hS.cosh_pinf
    | ninf => right; exact hS.cosh_ninf
    | fin q => rw [h] at hy; exact absurd hy (by simp [isNonFinite])
  have ha : L.exp (mul (neg pinf) (sub env.DeltaS (mul env.W env.QK))) = nan ∨
      L.exp (mul (neg pinf) (sub env.DeltaS (mul env.W env.QK))) = pinf ∨
      L.exp (mul (neg pinf) (sub env.DeltaS (mul env.W env.QK))) = fin 0 := by
    cases h : mul (neg pinf) (sub env.DeltaS (mul env.W env.QK)) with
    | nan => left; exact hL.exp_nan
    | pinf => right; left; exact hL.exp_pinf
    | ninf => right; right; exact hL.exp_ninf
    | fin q => rw [h] at hx; exact absurd hx (by simp [isNonFinite])
  rcases hc with hc | hc <;> rcases ha with ha | ha | ha <;> rw [hc, ha] <;>
    norm_num [F64.mul, F64.add, infTimes, mul_fin, rnd_zero]

/-- C16 on the code: with `Beta = +Inf` the value of `FreeEnergyIons` is NaN for every
`Environment` and every provider: `T = 1/Inf = 0` multiplies the logarithm of a `Z1` that is
NaN or `+Inf`. -/
theorem FreeEnergyIons_beta_inf (L : MathLib) (hL : L.Sound) (hS : L.Special)
    (env : Environment) (Ds : HoppingEV) (hB : env.Beta = pinf) :
    env.FreeEnergyIons L Ds = nan := by
  have hT : mul (fin (-2)) (div (fin 1) pinf) = fin 0 := by
    norm_num [F64.div, mul_fin, rnd_zero]
  unfold Environment.FreeEnergyIons
  simp only [hB, hT]
  rcases Z1_beta_inf L hL hS env Ds hB with h | h
  · rw [h, hS.log_nan]; rfl
  · rw [h, hS.log_pinf]; simp [F64.mul, infTimes]

/-- The ionic free energy of the all-zero state at `Beta = +Inf` is NaN. -/
theorem FreeEnergyIons_beta_inf_witness :
    Environment.FreeEnergyIons coarseMath { zeroEnv with Beta := pinf } zeroHopping = nan :=
  FreeEnergyIons_beta_inf coarseMath coarseMath_sound coarseMath_special
    { zeroEnv with Beta := pinf } zeroHopping rfl

/-! ## An Exp within the bracket meets both contracts -/

theorem bracket_le_two_zpow {q : ℚ} (h0 : q ≤ 0) (h64 : |q| ≤ 64) :
    (1 + q / 8192) ^ 8192 ≤ (2 : ℚ) ^ ⌈q⌉ := by
  have hq : -64 ≤ q := by have := abs_le.mp h64; linarith [this.1]
  have hc0 : ⌈q⌉ ≤ 0 := Int.ceil_le.mpr (by simpa using h0)
  obtain ⟨k, hk⟩ : ∃ k : ℕ, ⌈q⌉ = -(k : ℤ) := ⟨(-⌈q⌉).toNat, by omega⟩
  have hqk : q ≤ -(k : ℚ) := by
    have := Int.le_ceil q
    rw [hk] at this; simpa using this
  have hbase0 : (0 : ℚ) ≤ 1 + q / 8192 := by linarith
  have hbern : 1 + q / 8192 ≤ (1 - 1 / 8192 : ℚ) ^ k := by
    have hb := one_add_mul_le_pow (R := ℚ) (a := -(1 / 8192)) (by norm_num) k
    have e : (1 : ℚ) + -(1 / 8192) = 1 - 1 / 8192 := by ring
    rw [e] at hb
    linarith
  have hhalf : (1 - 1 / 8192 : ℚ) ^ 8192 ≤ 1 / 2 := by norm_num
  calc (1 + q / 8192) ^ 8192 ≤ ((1 - 1 / 8192 : ℚ) ^ k) ^ 8192 :=
        pow_le_pow_left₀ hbase0 hbern 8192
    _ = ((1 - 1 / 8192 : ℚ) ^ 8192) ^ k := by rw [← pow_mul, ← pow_mul, mul_comm]
    _ ≤ (1 / 2 : ℚ) ^ k := pow_le_pow_left₀ (by norm_num) hhalf k
    _ = (2 : ℚ) ^ ⌈q⌉ := by rw [hk, zpow_neg, zpow_natCast, one_div, inv_pow]

theorem bracketExp_fin (q : ℚ) : bracketMath.exp (fin q) =
    if |q| ≤ 64 then fin ((1 + q / 8192) ^ 8192) else coarseExp (fin q) := rfl

theorem bracketMath_sound : bracketMath.Sound where
  exp_nan := rfl
  exp_pinf := rfl
  exp_ninf := rfl
  exp_zero := by
    rw [bracketExp_fin, if_pos (by norm_num), zero_div, add_zero, one_pow]
  exp_nonneg := by
    intro x hx
    cases x with
    | nan => exact absurd rfl hx
    | pinf => rfl
    | ninf => exact coarseMath_sound.exp_nonneg ninf hx
    | fin q =>
      rw [bracketExp_fin]
      split_ifs
      · simp only [F64.le, decide_eq_true_eq]
        exact Even.pow_nonneg (by decide) _
      · exact coarseMath_sound.exp_nonneg (fin q) hx
  exp_overflow := by
    intro q hq
    have h : ¬ |q| ≤ 64 := by
      intro h; have := (abs_le.mp h).2; linarith
    rw [bracketExp_fin, if_neg h]
    exact coarseMath_sound.exp_overflow q hq
  exp_underflow := by
    intro q hq
    have h : ¬ |q| ≤ 64 := by
      intro h; have := (abs_le.mp h).1; linarith
    rw [bracketExp_fin, if_neg h]
    exact coarseMath_sound.exp_underflow q hq
  exp_le_two_zpow := by
    intro q hq
    rw [bracketExp_fin]
    split_ifs with h
    · simp only [F64.le, decide_eq_true_eq]
      exact bracket_le_two_zpow hq h
    · exact coarseMath_sound.exp_le_two_zpow q hq
  log_maxFloat64_ge := coarseMath_sound.log_maxFloat64_ge
  log_maxFloat64_le := coarseMath_sound.log_maxFloat64_le
  sinh_nan := rfl
  sinh_zero := coarseMath_sound.sinh_zero
  cosh_nan := rfl
  cosh_zero := coarseMath_sound.cosh_zero
  cosh_ge_one := coarseMath_sound.cosh_ge_one
  cosh_overflow := coarseMath_sound.cosh_overflow

theorem bracketMath_accurate : bracketMath.Accurate where
  exp_bracket := by
    intro q hq
    refine ⟨(1 + q / 8192) ^ 8192, by rw [bracketExp_fin, if_pos hq], ?_, ?_⟩
    · have h0 : (0 : ℚ) ≤ (1 + q / 8192) ^ 8192 := Even.pow_nonneg (by decide) _
      have : (1 - 2 ^ (-50 : ℤ) : ℚ) ≤ 1 := by norm_num
      exact mul_le_of_le_one_left h0 this
    · have hb := abs_le.mp hq
      have h1 : (1 + q / 8192) * (1 - q / 8192) ≤ 1 := by nlinarith [sq_nonneg q]
      have h2 : (0 : ℚ) ≤ (1 + q / 8192) * (1 - q / 8192) := by
        apply mul_nonneg <;> linarith [hb.1, hb.2]
      have h3 : (1 + q / 8192) ^ 8192 * (1 - q / 8192) ^ 8192 ≤ 1 :=
        (mul_pow _ _ _).symm.trans_le (pow_le_one₀ h2 h1)
      have : (1 : ℚ) ≤ 1 + 2 ^ (-50 : ℤ) := by norm_num
      exact le_trans h3 this

/-! ## Particle-hole symmetry of Fermi -/

theorem rnd_of_roundQ {q r : ℚ} (h : roundQ q = r) (hr : |r| ≤ maxQ) : rnd q = fin r := by
  have := abs_le.mp hr
  unfold rnd
  rw [h, if_neg (by linarith [this.2]), if_neg (by linarith [this.1])]

/-- Numeric bounds on `Exp` from the bracket. -/
theorem exp_bounds (L : MathLib) (hA : L.Accurate) (q lo hi : ℚ) (hq : |q| ≤ 64)
    (hlo : lo ≤ (1 - 2 ^ (-50 : ℤ)) * (1 + q / 8192) ^ 8192)
    (hhi : 1 + 2 ^ (-50 : ℤ) ≤ hi * (1 - q / 8192) ^ 8192) :
    ∃ y : ℚ, L.exp (fin q) = fin y ∧ lo ≤ y ∧ y ≤ hi := by
  obtain ⟨y, hy, h1, h2⟩ := hA.exp_bracket q hq
  refine ⟨y, hy, le_trans hlo h1, ?_⟩
  have hb := abs_le.mp hq
  have hpos : (0 : ℚ) < (1 - q / 8192) ^ 8192 := pow_pos (by linarith only [hb.2]) _
  exact le_of_mul_le_mul_right (le_trans h2 hhi) hpos

theorem exp_bounds_pos (L : MathLib) (hA : L.Accurate) :
    ∃ y : ℚ, L.exp (fin (73 / 2)) = fin y ∧ 6399999999999999 ≤ y ∧ y ≤ 2 ^ 53 - 1 :=
  exp_bounds L hA (73 / 2) _ _ (by norm_num [abs_of_pos]) (by norm_num) (by norm_num)

theorem exp_bounds_neg (L : MathLib) (hA : L.Accurate) :
    ∃ y : ℚ, L.exp (fin (-(73 / 2))) = fin y ∧ 9 / 8 * 2 ^ (-53 : ℤ) ≤ y ∧
      y ≤ 2 ^ (-52 : ℤ) :=
  exp_bounds L hA (-(73 / 2)) _ _ (by norm_num [abs_of_pos]) (by norm_num) (by norm_num)


/-- At `Beta = 1` the guard of `Fermi` does not fire at the energies `36.5` and `-36.5`. -/
theorem guard_unit (L : MathLib) (hL : L.Sound) (q : ℚ) (hq : |q| = 73 / 2) :
    Environment.fermiGuard L unitBetaEnv (fin q) = false := by
  have hne : q ≠ 0 := by
    intro h; rw [h] at hq; norm_num at hq
  have h1 : F64.eq (fin 1) pinf = false := by simp [F64.eq]
  have h2 : ge (fin 1) (F64.abs (F64.div maxFloat64 (fin q))) = false := by
    simp only [F64.ge, F64.div, maxFloat64, if_neg hne, abs_rnd]
    apply le_false_of_lt (a := 1) (b := 2) (by norm_num)
    have := rnd_mono (a := 2) (b := |maxQ / q|) (by
      rw [abs_div, hq, abs_of_pos maxQ_pos]; unfold maxQ; norm_num)
    rwa [show (2 : ℚ) = ((2 : ℤ) : ℚ) by norm_num, rnd_intCast (by norm_num)] at this
  have h3 : ge (F64.abs (F64.mul (fin 1) (fin q))) (L.log maxFloat64) = false := by
    have hm : F64.abs (F64.mul (fin 1) (fin q)) = fin (73 / 2) := by
      simp only [F64.mul, abs_rnd, one_mul, hq]
      have := rnd_of_grid (m := 73) (e := -1) (by norm_num) (by norm_num)
        (by unfold maxQ; norm_num [abs_of_pos])
      norm_num at this ⊢; exact this
    rw [hm]
    exact le_false_of_lt (a := 73 / 2) (b := 709) (by norm_num) hL.log_maxFloat64_ge
  simp [Environment.fermiGuard, unitBetaEnv, h1, h2, h3]

/-- At `Beta = 1`, `Fermi(36.5)` is a value between `2^-53` and `23 * 2^-57`. -/
theorem fermi_pos_unit (L : MathLib) (hL : L.Sound) (hA : L.Accurate) :
    ∃ a : ℚ, Environment.Fermi L unitBetaEnv (fin (73 / 2)) = fin a ∧
      2 ^ (-53 : ℤ) ≤ a ∧ a ≤ 23 * 2 ^ (-57 : ℤ) := by
  obtain ⟨y, hy, hlo, hhi⟩ := exp_bounds_pos L hA
  have hg := guard_unit L hL (73 / 2) (by norm_num [abs_of_pos])
  have h0 : F64.eq (fin (73 / 2)) (fin 0) = false := by simp [F64.eq]
  have hmul : F64.mul (fin (73 / 2)) (fin 1) = fin (73 / 2) := by
    have := rnd_of_grid (m := 73) (e := -1) (by norm_num) (by norm_num)
      (by unfold maxQ; norm_num [abs_of_pos])
    simp only [F64.mul, mul_one]
    norm_num at this ⊢; exact this
  -- the sum `y + 1`
  have hz1 : (6400000000000000 : ℚ) ≤ roundQ (y + 1) := by
    have := roundQ_mono (a := 6400000000000000) (b := y + 1) (by linarith)
    have e := roundQ_of_grid (m := 6400000000000000) (e := 0) (by norm_num) (by norm_num)
    norm_num at e
    rwa [e] at this
  have hz2 : roundQ (y + 1) ≤ 2 ^ 53 := by
    have := roundQ_mono (a := y + 1) (b := 2 ^ 53) (by linarith)
    have e := roundQ_of_grid (m := 1) (e := 53) (by norm_num) (by norm_num)
    norm_num at e
    have e2 : roundQ (2 ^ 53) = 2 ^ 53 := by norm_num; exact e
    rwa [e2] at this
  have hadd : F64.add (fin y) (fin 1) = fin (roundQ (y + 1)) := by
    simp only [F64.add]
    apply rnd_of_roundQ rfl
    rw [abs_of_pos (by linarith)]
    refine le_trans hz2 ?_
    unfold maxQ; norm_num
  have hzpos : (0 : ℚ) < roundQ (y + 1) := by linarith
  have hzne : roundQ (y + 1) ≠ 0 := ne_of_gt hzpos
  -- its reciprocal
  have ha1 : (2 : ℚ) ^ (-53 : ℤ) ≤ roundQ (1 / roundQ (y + 1)) := by
    have := roundQ_mono (a := 2 ^ (-53 : ℤ)) (b := 1 / roundQ (y + 1)) (by
      rw [le_div_iff₀ hzpos]
      calc (2 : ℚ) ^ (-53 : ℤ) * roundQ (y + 1) ≤ 2 ^ (-53 : ℤ) * 2 ^ 53 :=
            mul_le_mul_of_nonneg_left hz2 (by positivity)
        _ = 1 := by norm_num)
    have e := roundQ_of_grid (m := 1) (e := -53) (by norm_num) (by norm_num)
    norm_num at e
    have e2 : roundQ (2 ^ (-53 : ℤ)) = 2 ^ (-53 : ℤ) := by norm_num; exact e
    rwa [e2] at this
  have ha2 : roundQ (1 / roundQ (y + 1)) ≤ 23 * 2 ^ (-57 : ℤ) := by
    have := roundQ_mono (a := 1 / roundQ (y + 1)) (b := 23 * 2 ^ (-57 : ℤ)) (by
      rw [div_le_iff₀ hzpos]
      calc (1 : ℚ) ≤ 23 * 2 ^ (-57 : ℤ) * 6400000000000000 := by norm_num
        _ ≤ 23 * 2 ^ (-57 : ℤ) * roundQ (y + 1) :=
            mul_le_mul_of_nonneg_left hz1 (by positivity))
    have e := roundQ_of_grid (m := 23) (e := -57) (by norm_num) (by norm_num)
    norm_num at e
    have e2 : roundQ (23 * 2 ^ (-57 : ℤ)) = 23 * 2 ^ (-57 : ℤ) := by norm_num; exact e
    rwa [e2] at this
  refine ⟨roundQ (1 / roundQ (y + 1)), ?_, ha1, ha2⟩
  have hB : unitBetaEnv.Beta = fin 1 := rfl
  simp only [Environment.Fermi, h0, hg, hB, hmul, hy, hadd, F64.div, if_neg hzne,
    Bool.false_eq_true, if_false]
  apply rnd_of_roundQ rfl
  rw [abs_of_nonneg (le_trans (by positivity) ha1)]
  refine le_trans ha2 ?_
  unfold maxQ; norm_num


/-- At `Beta = 1`, `Fermi(-36.5)` is `1 - 2^-52`, the float64 just below the one below 1. -/
theorem fermi_neg_unit (L : MathLib) (hL : L.Sound) (hA : L.Accurate) :
    Environment.Fermi L unitBetaEnv (fin (-(73 / 2))) = fin (1 - 2 ^ (-52 : ℤ)) := by
  obtain ⟨y, hy, hlo, hhi⟩ := exp_bounds_neg L hA
  have hg := guard_unit L hL (-(73 / 2)) (by norm_num [abs_of_pos])
  have h0 : F64.eq (fin (-(73 / 2))) (fin 0) = false := by simp [F64.eq]
  have hmul : F64.mul (fin (-(73 / 2))) (fin 1) = fin (-(73 / 2)) := by
    have := rnd_of_grid (m := -73) (e := -1) (by norm_num) (by norm_num)
      (by unfold maxQ; norm_num [abs_of_pos])
    simp only [F64.mul, mul_one]
    norm_num at this ⊢; exact this
  have hy0 : (0 : ℚ) < y := lt_of_lt_of_le (by norm_num) hlo
  have hsum : roundQ (y + 1) = 1 + 2 ^ (-52 : ℤ) := by
    have := roundQ_eq_of_near (q := y + 1) (k := 0) (n := 2 ^ 52 + 1) (by norm_num)
      (by rw [abs_of_pos (by linarith)]; norm_num; linarith)
      (by rw [abs_of_pos (by linarith)]; norm_num at hhi ⊢; linarith)
      (by norm_num at hlo ⊢; linarith)
      (by norm_num at hhi ⊢; linarith)
    rw [this]; norm_num
  have hadd : F64.add (fin y) (fin 1) = fin (1 + 2 ^ (-52 : ℤ)) := by
    simp only [F64.add]
    apply rnd_of_roundQ hsum
    unfold maxQ; norm_num [abs_of_pos]
  have hne : (1 + 2 ^ (-52 : ℤ) : ℚ) ≠ 0 := by norm_num
  have hinv : roundQ (1 / (1 + 2 ^ (-52 : ℤ))) = 1 - 2 ^ (-52 : ℤ) := by
    have := roundQ_eq_of_near (q := 1 / (1 + 2 ^ (-52 : ℤ))) (k := -1) (n := 2 ^ 53 - 2)
      (by norm_num) (by norm_num [abs_of_pos]) (by norm_num [abs_of_pos]) (by norm_num)
      (by norm_num)
    rw [this]; norm_num
  have hB : unitBetaEnv.Beta = fin 1 := rfl
  simp only [Environment.Fermi, h0, hg, hB, hmul, hy, hadd, F64.div, if_neg hne,
    Bool.false_eq_true, if_false]
  apply rnd_of_roundQ hinv
  unfold maxQ; norm_num [abs_of_pos]

/-- At `Beta = 1` the sum `Fermi(36.5) + Fermi(-36.5)` is `1 - 2^-53`, the float64 just
below 1. -/
theorem fermi_sum_unit (L : MathLib) (hL : L.Sound) (hA : L.Accurate) :
    F64.add (Environment.Fermi L unitBetaEnv (fin (73 / 2)))
      (Environment.Fermi L unitBetaEnv (neg (fin (73 / 2)))) = fin (1 - 1 / 2 ^ 53) := by
  obtain ⟨a, ha, hlo, hhi⟩ := fermi_pos_unit L hL hA
  rw [neg_fin, ha, fermi_neg_unit L hL hA]
  have hsum : roundQ (a + (1 - 2 ^ (-52 : ℤ))) = 1 - 1 / 2 ^ 53 := by
    have := roundQ_eq_of_near (q := a + (1 - 2 ^ (-52 : ℤ))) (k := -1) (n := 2 ^ 53 - 1)
      (by norm_num)
      (by rw [abs_of_pos (by norm_num at hlo ⊢; linarith)]; norm_num at hlo ⊢; linarith)
      (by rw [abs_of_pos (by norm_num at hlo ⊢; linarith)]; norm_num at hhi ⊢; linarith)
      (by norm_num at hlo ⊢; linarith)
      (by norm_num at hhi ⊢; linarith)
    rw [this]; norm_num
  simp only [F64.add]
  apply rnd_of_roundQ hsum
  unfold maxQ; norm_num [abs_of_pos]


theorem abs_div_neg (x : F64) (q : ℚ) :
    F64.abs (F64.div x (fin (-q))) = F64.abs (F64.div x (fin q)) := by
  cases x with
  | nan => rfl
  | pinf => simp only [F64.div]; split_ifs <;> rfl
  | ninf => simp only [F64.div]; split_ifs <;> rfl
  | fin a =>
    by_cases hq : q = 0
    · subst hq; simp
    · have hq2 : -q ≠ 0 := neg_ne_zero.mpr hq
      simp only [F64.div, if_neg hq, if_neg hq2, abs_rnd, div_neg, abs_neg]

theorem abs_mul_neg (x : F64) (q : ℚ) :
    F64.abs (F64.mul x (fin (-q))) = F64.abs (F64.mul x (fin q)) := by
  cases x with
  | nan => rfl
  | pinf =>
    simp only [F64.mul, infTimes, neg_eq_zero]
    split_ifs <;> rfl
  | ninf =>
    simp only [F64.mul, infTimes, neg_eq_zero]
    split_ifs <;> rfl
  | fin a => simp only [F64.mul, abs_rnd, mul_neg, abs_neg]

/-- The guard of `Fermi` depends on a finite energy only through its absolute value. -/
theorem fermiGuard_neg (L : MathLib) (env : Environment) (q : ℚ) :
    env.fermiGuard L (neg (fin q)) = env.fermiGuard L (fin q) := by
  simp only [Environment.fermiGuard, neg_fin, abs_div_neg, abs_mul_neg]

/-- C19, amended: for every state, every math library and every finite energy `e`, the guard
of `Fermi` takes the same value at `e` and `-e`, and when `e == 0` or the guard fires (as it
does at `Beta = +Inf`), `Fermi(e) + Fermi(-e)` is exactly 1. -/
theorem Fermi_symmetric_guarded (L : MathLib) (env : Environment) (q : ℚ)
    (h : F64.eq (fin q) (fin 0) = true ∨ env.fermiGuard L (fin q) = true) :
    env.fermiGuard L (neg (fin q)) = env.fermiGuard L (fin q) ∧
    F64.add (env.Fermi L (fin q)) (env.Fermi L (neg (fin q))) = fin 1 := by
  refine ⟨fermiGuard_neg L env q, ?_⟩
  have hhalf : F64.add (fin (1 / 2)) (fin (1 / 2)) = fin 1 := by
    simp only [F64.add]; norm_num [rnd_one]
  have h10 : F64.add (fin 1) (fin 0) = fin 1 := by simp only [F64.add]; norm_num [rnd_one]
  have h01 : F64.add (fin 0) (fin 1) = fin 1 := by simp only [F64.add]; norm_num [rnd_one]
  by_cases hq : q = 0
  · subst hq
    have e0 : F64.eq (fin 0) (fin 0) = true := by decide
    simp only [Environment.Fermi, neg_fin, neg_zero, e0, if_true, hhalf]
  · have hg : env.fermiGuard L (fin q) = true := by
      rcases h with h | h
      · exact absurd (by simpa [F64.eq] using h) hq
      · exact h
    have hg2 : env.fermiGuard L (fin (-q)) = true := by
      rw [← neg_fin, fermiGuard_neg, hg]
    have e1 : F64.eq (fin q) (fin 0) = false := by simp [F64.eq, hq]
    have e2 : F64.eq (fin (-q)) (fin 0) = false := by simp [F64.eq, hq]
    simp only [Environment.Fermi, neg_fin, e1, e2, hg, hg2, if_true, Bool.false_eq_true,
      if_false, F64.le, decide_eq_true_eq]
    rcases lt_or_gt_of_ne hq with hlt | hgt
    · rw [if_pos hlt.le, if_neg (by linarith), h10]
    · rw [if_neg (by linarith), if_pos (by linarith), h01]

theorem Fermi_symmetric_guarded_witness :
    (F64.eq (fin 3) (fin 0) = true ∨
      Environment.fermiGuard coarseMath { zeroEnv with Beta := pinf } (fin 3) = true) ∧
    (Environment.fermiGuard coarseMath { zeroEnv with Beta := pinf } (neg (fin 3)) =
        Environment.fermiGuard coarseMath { zeroEnv with Beta := pinf } (fin 3) ∧
      F64.add (Environment.Fermi coarseMath { zeroEnv with Beta := pinf } (fin 3))
        (Environment.Fermi coarseMath { zeroEnv with Beta := pinf } (neg (fin 3))) = fin 1) :=
  ⟨Or.inr (by simp [Environment.fermiGuard, F64.eq]),
    Fermi_symmetric_guarded coarseMath { zeroEnv with Beta := pinf } 3
      (Or.inr (by simp [Environment.fermiGuard, F64.eq]))⟩

/-- C19 as stated fails in the branch `1/(exp(e*Beta)+1)`: at `Beta = 1` and the finite energy
`36.5` neither energy is zero nor does the guard fire, `Fermi(-36.5)` is `1 - 2^-52`,
`Fermi(36.5)` lies between `2^-53` and `23 * 2^-57`, and the float64 sum of the two is
`1 - 2^-53`, not 1; so it is with every math library that meets the two contracts, the one
with the `Exp` within the bracket among them. -/
theorem Fermi_not_symmetric :
    (∀ L : MathLib, L.Sound → L.Accurate →
      Environment.fermiGuard L unitBetaEnv (fin (73 / 2)) = false ∧
      F64.add (Environment.Fermi L unitBetaEnv (fin (73 / 2)))
        (Environment.Fermi L unitBetaEnv (neg (fin (73 / 2)))) = fin (1 - 1 / 2 ^ 53)) ∧
    unitBetaEnv.Beta = fin 1 ∧
    F64.add (Environment.Fermi bracketMath unitBetaEnv (fin (73 / 2)))
      (Environment.Fermi bracketMath unitBetaEnv (neg (fin (73 / 2)))) ≠ fin 1 := by
  refine ⟨fun L hL hA => ⟨guard_unit L hL _ (by norm_num [abs_of_pos]),
    fermi_sum_unit L hL hA⟩, rfl, ?_⟩
  rw [fermi_sum_unit bracketMath bracketMath_sound bracketMath_accurate]
  intro h
  simp only [fin.injEq] at h
  norm_num at h

/-! ## Bounds on the right-hand sides of the residual equations and on their roots -/

theorem roundHalfEven_abs_le {x : ℚ} {N : ℤ} (h : |x| ≤ N) : |roundHalfEven x| ≤ N := by
  have hx := abs_le.mp h
  rw [abs_le]
  constructor
  · exact le_roundHalfEven (n := -N) (by push_cast; exact hx.1)
  · exact roundHalfEven_le hx.2

theorem abs_div_quantum_lt (x : ℚ) : |x / 2 ^ quantumExp x| < 2 ^ 53 := by
  have hp : (0 : ℚ) < 2 ^ quantumExp x := by positivity
  rw [abs_div, abs_of_pos hp, div_lt_iff₀ hp]
  have h1 : |x| < (2 : ℚ) ^ (Int.log 2 |x| + 1) := by
    have := Int.lt_zpow_succ_log_self (b := 2) (by norm_num) |x|
    exact_mod_cast this
  have h2 : (2 : ℚ) ^ (Int.log 2 |x| + 1) ≤ 2 ^ 53 * 2 ^ quantumExp x := by
    have e : (2 : ℚ) ^ 53 * 2 ^ quantumExp x = 2 ^ (quantumExp x + 53) := by
      rw [zpow_add₀ (by norm_num)]; norm_num; ring
    rw [e]
    apply zpow_le_zpow_right₀ (by norm_num)
    have : Int.log 2 |x| - 52 ≤ quantumExp x := le_max_left _ _
    omega
  exact lt_of_lt_of_le h1 h2

/-- Rounding is idempotent: a rounded value is on the binary64 grid. -/
theorem roundQ_idem (x : ℚ) : roundQ (roundQ x) = roundQ x := by
  have hg : -1074 ≤ quantumExp x := le_max_right _ _
  have hn : |roundHalfEven (x / 2 ^ quantumExp x)| ≤ 2 ^ 53 :=
    roundHalfEven_abs_le (by have := abs_div_quantum_lt x; push_cast; exact this.le)
  unfold roundQ
  set g := quantumExp x with hgdef
  set n := roundHalfEven (x / 2 ^ g) with hndef
  show roundQ ((n : ℚ) * 2 ^ g) = n * 2 ^ g
  rcases hn.lt_or_eq with hlt | heq
  · exact roundQ_of_grid hlt hg
  · have hcase : n = 2 ^ 53 ∨ n = -2 ^ 53 := by
      rcases abs_cases n with ⟨h1, _⟩ | ⟨h1, _⟩ <;> [left; right] <;> omega
    have e2 : (2 : ℚ) ^ (g + 1) = 2 ^ g * 2 := by
      rw [zpow_add₀ (by norm_num)]; norm_num
    rcases hcase with h | h
    · have := roundQ_of_grid (m := 2 ^ 52) (e := g + 1) (by norm_num) (by omega)
      have e : ((n : ℤ) : ℚ) * 2 ^ g = ((2 ^ 52 : ℤ) : ℚ) * 2 ^ (g + 1) := by
        rw [h, e2]; push_cast; ring
      rw [e]; exact this
    · have := roundQ_of_grid (m := -2 ^ 52) (e := g + 1) (by norm_num) (by omega)
      have e : ((n : ℤ) : ℚ) * 2 ^ g = ((-2 ^ 52 : ℤ) : ℚ) * 2 ^ (g + 1) := by
        rw [h, e2]; push_cast; ring
      rw [e]; exact this

/-- A rounded value is an integer multiple of the subnormal quantum `2^-1074`. -/
theorem roundQ_grid (x : ℚ) : ∃ K : ℤ, roundQ x = K * 2 ^ (-1074 : ℤ) := by
  have hg : -1074 ≤ quantumExp x := le_max_right _ _
  obtain ⟨d, hd⟩ : ∃ d : ℕ, quantumExp x = (d : ℤ) + -1074 :=
    ⟨(quantumExp x + 1074).toNat, by omega⟩
  refine ⟨roundHalfEven (x / 2 ^ quantumExp x) * 2 ^ d, ?_⟩
  unfold roundQ
  rw [hd, zpow_add₀ (by norm_num), zpow_natCast]
  push_cast; ring

theorem roundQ_quantum : roundQ (2 ^ (-1074 : ℤ)) = 2 ^ (-1074 : ℤ) := by
  have := roundQ_of_grid (m := 1) (e := -1074) (by norm_num) (by norm_num)
  simpa using this

/-- A nonzero multiple of the subnormal quantum does not round to zero. -/
theorem roundQ_ne_zero_of_grid {K : ℤ} (hK : K ≠ 0) :
    roundQ (K * 2 ^ (-1074 : ℤ)) ≠ 0 := by
  have hp : (0 : ℚ) < 2 ^ (-1074 : ℤ) := by positivity
  rcases lt_or_gt_of_ne hK with h | h
  · have h1 : (K : ℚ) ≤ -1 := by exact_mod_cast (by omega : K ≤ -1)
    have hle : (K : ℚ) * 2 ^ (-1074 : ℤ) ≤ -(2 ^ (-1074 : ℤ)) := by nlinarith
    have := roundQ_mono hle
    rw [roundQ_neg, roundQ_quantum] at this
    linarith
  · have h1 : (1 : ℚ) ≤ K := by exact_mod_cast (by omega : 1 ≤ K)
    have hle : (2 : ℚ) ^ (-1074 : ℤ) ≤ (K : ℚ) * 2 ^ (-1074 : ℤ) := by nlinarith
    have := roundQ_mono hle
    rw [roundQ_quantum] at this
    linarith

/-- Two values on the binary64 grid whose difference rounds to zero are equal. -/
theorem eq_of_roundQ_sub_eq_zero {m r : ℚ} (hm : roundQ m = m) (hr : roundQ r = r)
    (h : roundQ (m - r) = 0) : m = r := by
  obtain ⟨K1, h1⟩ := roundQ_grid m
  obtain ⟨K2, h2⟩ := roundQ_grid r
  rw [hm] at h1
  rw [hr] at h2
  by_contra hne
  have hK : K1 - K2 ≠ 0 := by
    intro h0
    have : K1 = K2 := by omega
    exact hne (by rw [h1, h2, this])
  apply roundQ_ne_zero_of_grid hK
  rw [← h]
  congr 1
  rw [h1, h2]; push_cast; ring


theorem div_ne_nan_left {x y : F64} (h : F64.div x y ≠ nan) : x ≠ nan := by
  intro hx; subst hx; simp [F64.div] at h

theorem div_ne_nan_right {x y : F64} (h : F64.div x y ≠ nan) : y ≠ nan := by
  intro hy; subst hy; cases x <;> simp [F64.div] at h

theorem add_ne_nan_left {x y : F64} (h : F64.add x y ≠ nan) : x ≠ nan := by
  intro hx; subst hx; simp [F64.add] at h

theorem roundQ_abs_le {a b : ℚ} (h : |a| ≤ b) : |roundQ a| ≤ roundQ b := by
  have ha := abs_le.mp h
  rw [abs_le]
  constructor
  · have := roundQ_mono (a := -b) (b := a) ha.1
    rwa [roundQ_neg] at this
  · exact roundQ_mono ha.2

/-- The quotient `s/(1 + t)` of the residual equations, for finite `t` on the grid and
`|s| <= t`: it is finite, on the grid and at most 1 in absolute value. -/
theorem ratio_range {τ σ : ℚ} (hτ : roundQ τ = τ) (hσ : |σ| ≤ τ) :
    ∃ ρ : ℚ, F64.div (fin σ) (F64.add (fin 1) (fin τ)) = fin ρ ∧ |ρ| ≤ 1 ∧ roundQ ρ = ρ ∧
      (0 ≤ σ → 0 ≤ ρ) := by
  have h0 : 0 ≤ τ := le_trans (abs_nonneg σ) hσ
  have hz1 : (1 : ℚ) ≤ roundQ (1 + τ) := by
    have := roundQ_mono (a := 1) (b := 1 + τ) (by linarith)
    rwa [roundQ_one] at this
  have hzt : τ ≤ roundQ (1 + τ) := by
    have := roundQ_mono (a := τ) (b := 1 + τ) (by linarith)
    rwa [hτ] at this
  have hzero : ∃ ρ : ℚ, (fin 0 : F64) = fin ρ ∧ |ρ| ≤ 1 ∧ roundQ ρ = ρ ∧ (0 ≤ σ → 0 ≤ ρ) :=
    ⟨0, rfl, by norm_num, roundQ_zero, fun _ => le_refl 0⟩
  simp only [F64.add]
  unfold rnd
  split_ifs with h1 h2
  · simpa [F64.div] using hzero
  · simpa [F64.div] using hzero
  · have hzpos : (0 : ℚ) < roundQ (1 + τ) := by linarith
    have hne : roundQ (1 + τ) ≠ 0 := ne_of_gt hzpos
    have hq : |σ / roundQ (1 + τ)| ≤ 1 := by
      rw [abs_div, abs_of_pos hzpos, div_le_one hzpos]
      exact le_trans hσ hzt
    have hr := roundQ_abs_le hq
    rw [roundQ_one] at hr
    refine ⟨roundQ (σ / roundQ (1 + τ)), ?_, hr, roundQ_idem _, ?_⟩
    · simp only [F64.div, if_neg hne]
      apply rnd_of_roundQ rfl
      refine le_trans hr ?_
      unfold maxQ; norm_num
    · intro hs
      exact roundQ_nonneg (div_nonneg hs hzpos.le)

/-- The right-hand side `u*s/(1 + u*c)` of a residual equation, where `u >= 0`, `c >= 1` and
`|s| <= c`: when it is not NaN it is finite, on the grid and at most 1 in absolute value, and
nonnegative when `s` is. -/
theorem rhs_range {u s c : F64} (hu : u ≠ nan → le (fin 0) u = true)
    (hc : c ≠ nan → le (fin 1) c = true) (hs : s ≠ nan → le (F64.abs s) c = true)
    (h : F64.div (F64.mul u s) (F64.add (fin 1) (F64.mul u c)) ≠ nan) :
    ∃ ρ : ℚ, F64.div (F64.mul u s) (F64.add (fin 1) (F64.mul u c)) = fin ρ ∧ |ρ| ≤ 1 ∧
      roundQ ρ = ρ ∧ (le (fin 0) s = true → 0 ≤ ρ) := by
  have hts := div_ne_nan_left h
  have hz := div_ne_nan_right h
  have htc := add_ne_nan_right hz
  have hu0 := hu (mul_ne_nan_left htc)
  have hc1 := hc (mul_ne_nan_right htc)
  have hs1 := hs (mul_ne_nan_right hts)
  cases u with
  | nan => simp [F64.le] at hu0
  | ninf => simp [F64.le] at hu0
  | pinf =>
    -- the denominator is infinite
    cases c with
    | nan => simp [F64.le] at hc1
    | ninf => simp [F64.le] at hc1
    | pinf =>
      cases s with
      | nan => exact absurd rfl (mul_ne_nan_right hts)
      | pinf => simp [F64.mul, F64.add, F64.div] at h
      | ninf => simp [F64.mul, F64.add, F64.div] at h
      | fin σ =>
        exfalso; revert h
        simp only [F64.mul, F64.add, infTimes]
        split_ifs <;> simp [F64.div]
    | fin γ =>
      simp only [F64.le, decide_eq_true_eq] at hc1
      have hγ : γ ≠ 0 := by linarith
      have hγ2 : (0 : ℚ) < γ := by linarith
      cases s with
      | nan => exact absurd rfl (mul_ne_nan_right hts)
      | pinf => simp [F64.abs, F64.le] at hs1
      | ninf => simp [F64.abs, F64.le] at hs1
      | fin σ =>
        exfalso; revert h
        simp only [F64.mul, F64.add, infTimes, if_neg hγ, hγ2, decide_True, if_true]
        split_ifs <;> simp [F64.div]
  | fin p =>
    simp only [F64.le, decide_eq_true_eq] at hu0
    cases c with
    | nan => simp [F64.le] at hc1
    | ninf => simp [F64.le] at hc1
    | pinf =>
      cases s with
      | nan => exact absurd rfl (mul_ne_nan_right hts)
      | pinf => exfalso; revert h; simp only [F64.mul, F64.add, infTimes]; split_ifs <;> simp [F64.div, F64.add]
      | ninf => exfalso; revert h; simp only [F64.mul, F64.add, infTimes]; split_ifs <;> simp [F64.div, F64.add]
      | fin σ =>
        have hp : p ≠ 0 := by
          intro hp; subst hp; simp [F64.mul, infTimes] at htc
        have hp2 : (0 : ℚ) < p := lt_of_le_of_ne hu0 (Ne.symm hp)
        have hden : F64.add (fin 1) (F64.mul (fin p) pinf) = pinf := by
          simp [F64.mul, infTimes, hp, hp2, F64.add]
        rw [hden] at h ⊢
        cases hm : F64.mul (fin p) (fin σ) with
        | nan => rw [hm] at hts; exact absurd rfl hts
        | pinf => rw [hm] at h; simp [F64.div] at h
        | ninf => rw [hm] at h; simp [F64.div] at h
        | fin m =>
          exact ⟨0, by simp [F64.div], by norm_num, roundQ_zero, fun _ => le_refl 0⟩
    | fin γ =>
      simp only [F64.le, decide_eq_true_eq] at hc1
      cases s with
      | nan => exact absurd rfl (mul_ne_nan_right hts)
      | pinf => simp [F64.abs, F64.le] at hs1
      | ninf => simp [F64.abs, F64.le] at hs1
      | fin σ =>
        simp only [F64.abs, F64.le, decide_eq_true_eq] at hs1
        have hpσ : |p * σ| ≤ p * γ := by
          rw [abs_mul, abs_of_nonneg hu0]
          exact mul_le_mul_of_nonneg_left hs1 hu0
        have hrr := roundQ_abs_le hpσ
        simp only [F64.mul]
        -- the product `u*c`
        by_cases hov : maxQ < roundQ (p * γ)
        · -- it overflows: the denominator is infinite
          have hden : rnd (p * γ) = pinf := by unfold rnd; rw [if_pos hov]
          rw [hden]
          simp only [F64.mul, hden] at h
          cases hm : rnd (p * σ) with
          | nan => exact absurd hm (rnd_ne_nan _)
          | pinf => rw [hm] at h; simp [F64.div, F64.add] at h
          | ninf => rw [hm] at h; simp [F64.div, F64.add] at h
          | fin m =>
            exact ⟨0, by simp [F64.div, F64.add], by norm_num, roundQ_zero,
              fun _ => le_refl 0⟩
        · have hτ0 : 0 ≤ roundQ (p * γ) := roundQ_nonneg (mul_nonneg hu0 (by linarith))
          have hτmax : roundQ (p * γ) ≤ maxQ := not_lt.mp hov
          have hden : rnd (p * γ) = fin (roundQ (p * γ)) :=
            rnd_of_roundQ rfl (by rw [abs_of_nonneg hτ0]; exact hτmax)
          have hnum : rnd (p * σ) = fin (roundQ (p * σ)) :=
            rnd_of_roundQ rfl (le_trans hrr hτmax)
          rw [hden, hnum]
          obtain ⟨ρ, e1, e2, e3, e4⟩ := ratio_range (roundQ_idem (p * γ)) hrr
          refine ⟨ρ, e1, e2, e3, fun hs0 => e4 ?_⟩
          simp only [F64.le, decide_eq_true_eq] at hs0
          exact roundQ_nonneg (mul_nonneg hu0 hs0)


theorem abs_mul_le {u s c : F64} (hu : le (fin 0) u = true) (hs : le (F64.abs s) c = true)
    (h1 : F64.mul u s ≠ nan) (h2 : F64.mul u c ≠ nan) :
    le (F64.abs (F64.mul u s)) (F64.mul u c) = true := by
  cases u with
  | nan => simp [F64.le] at hu
  | ninf => simp [F64.le] at hu
  | pinf =>
    cases c with
    | nan => cases s <;> simp [F64.le, F64.abs] at hs
    | ninf => cases s <;> simp [F64.le, F64.abs] at hs
    | pinf =>
      cases hm : F64.mul pinf s with
      | nan => exact absurd hm h1
      | pinf => rfl
      | ninf => rfl
      | fin m => rfl
    | fin γ =>
      cases s with
      | nan => simp [F64.le, F64.abs] at hs
      | pinf => simp [F64.le, F64.abs] at hs
      | ninf => simp [F64.le, F64.abs] at hs
      | fin σ =>
        simp only [F64.abs, F64.le, decide_eq_true_eq] at hs
        have hγ0 : 0 ≤ γ := le_trans (abs_nonneg σ) hs
        have hγ : γ ≠ 0 := by
          intro h; subst h; simp [F64.mul, infTimes] at h2
        have hγ2 : 0 < γ := lt_of_le_of_ne hγ0 (Ne.symm hγ)
        have hσ : σ ≠ 0 := by
          intro h; subst h; simp [F64.mul, infTimes] at h1
        simp only [F64.mul, infTimes, if_neg hγ, if_neg hσ, hγ2, decide_True, if_true]
        split_ifs <;> rfl
  | fin p =>
    simp only [F64.le, decide_eq_true_eq] at hu
    cases c with
    | nan => cases s <;> simp [F64.le, F64.abs] at hs
    | ninf => cases s <;> simp [F64.le, F64.abs] at hs
    | pinf =>
      have hp : p ≠ 0 := by
        intro h; subst h; simp [F64.mul, infTimes] at h2
      have hp2 : 0 < p := lt_of_le_of_ne hu (Ne.symm hp)
      have hden : F64.mul (fin p) pinf = pinf := by simp [F64.mul, infTimes, hp, hp2]
      rw [hden]
      cases hm : F64.mul (fin p) s with
      | nan => exact absurd hm h1
      | pinf => rfl
      | ninf => rfl
      | fin m => rfl
    | fin γ =>
      cases s with
      | nan => simp [F64.le, F64.abs] at hs
      | pinf => simp [F64.le, F64.abs] at hs
      | ninf => simp [F64.le, F64.abs] at hs
      | fin σ =>
        simp only [F64.abs, F64.le, decide_eq_true_eq] at hs
        simp only [F64.mul, abs_rnd]
        apply rnd_mono
        rw [abs_mul, abs_of_nonneg hu]
        exact mul_le_mul_of_nonneg_left hs hu

theorem abs_div_le {x y z : F64} (hxy : le (F64.abs x) y = true) (hz : le (fin 1) z = true)
    (h1 : F64.div x z ≠ nan) (h2 : F64.div y z ≠ nan) :
    le (F64.abs (F64.div x z)) (F64.div y z) = true := by
  cases z with
  | nan => simp [F64.le] at hz
  | ninf => simp [F64.le] at hz
  | pinf =>
    cases x <;> cases y <;> simp_all [F64.div, F64.abs, F64.le]
  | fin ζ =>
    simp only [F64.le, decide_eq_true_eq] at hz
    have hζ : ζ ≠ 0 := by linarith
    have hζ0 : (0 : ℚ) ≤ ζ := by linarith
    have hζ1 : (0 : ℚ) < ζ := by linarith
    cases y with
    | nan => cases x <;> simp [F64.le, F64.abs] at hxy
    | ninf => cases x <;> simp [F64.le, F64.abs] at hxy
    | pinf =>
      have hden : F64.div pinf (fin ζ) = pinf := by simp [F64.div, hζ0]
      rw [hden]
      cases hm : F64.div x (fin ζ) with
      | nan => exact absurd hm h1
      | pinf => rfl
      | ninf => rfl
      | fin m => rfl
    | fin b =>
      cases x with
      | nan => simp [F64.le, F64.abs] at hxy
      | pinf => simp [F64.le, F64.abs] at hxy
      | ninf => simp [F64.le, F64.abs] at hxy
      | fin a =>
        simp only [F64.abs, F64.le, decide_eq_true_eq] at hxy
        simp only [F64.div, if_neg hζ, abs_rnd]
        apply rnd_mono
        rw [abs_div, abs_of_pos hζ1]
        exact div_le_div_of_nonneg_right hxy hζ0

theorem eq_zero_of_eq {x : F64} (h : F64.eq x (fin 0) = true) : x = fin 0 := by
  cases x <;> simp_all [F64.eq]

/-- A float64 `M` at which `M - r` is zero, for a finite `r` on the grid, is `r`. -/
theorem root_eq_rhs {M r : F64} {ρ : ℚ} (hr : r = fin ρ) (hρ : roundQ ρ = ρ)
    (hM : isFloat64 M = true) (h : F64.eq (F64.sub M r) (fin 0) = true) : M = fin ρ := by
  have h0 := eq_zero_of_eq h
  subst hr
  cases M with
  | nan => simp [F64.sub, F64.add] at h0
  | pinf => simp [F64.sub, F64.add, F64.neg] at h0
  | ninf => simp [F64.sub, F64.add, F64.neg] at h0
  | fin m =>
    rw [sub_fin] at h0
    have hm := (rnd_eq_fin (rnd_of_isFloat64 hM)).1
    have hz := (rnd_eq_fin h0).1
    rw [eq_of_roundQ_sub_eq_zero hm.symm hρ hz.symm]

theorem two_mul_exp_nonneg (L : MathLib) (hL : L.Sound) (x : F64)
    (h : F64.mul (fin 2) (L.exp x) ≠ nan) : le (fin 0) (F64.mul (fin 2) (L.exp x)) = true := by
  have ha := mul_ne_nan_right h
  have ha0 : le (fin 0) (L.exp x) = true := by
    apply hL.exp_nonneg
    intro hx; rw [hx, hL.exp_nan] at ha; exact ha rfl
  exact mul_nonneg_of_ne_nan (by decide) ha0 h

theorem cosh_ge_one_of_ne_nan (L : MathLib) (hL : L.Sound) (x : F64) (h : L.cosh x ≠ nan) :
    le (fin 1) (L.cosh x) = true := by
  apply hL.cosh_ge_one
  intro hx; rw [hx, hL.cosh_nan] at h; exact h rfl

theorem abs_le_self_of_one_le {c : F64} (h : le (fin 1) c = true) :
    le (F64.abs c) c = true := by
  cases c with
  | nan => simp [F64.le] at h
  | ninf => simp [F64.le] at h
  | pinf => rfl
  | fin γ =>
    simp only [F64.le, decide_eq_true_eq] at h
    simp only [F64.abs, F64.le, decide_eq_true_eq]
    rw [abs_of_nonneg (by linarith)]


/-- The value a call of the residual function of the W equation returns, in terms of the state
it leaves. -/
theorem AbsErrorW_value (L : MathLib) (Ds : HoppingEV) (vars : List String) (env : Environment)
    (v : List F64) (r : Residual) (h : (AbsErrorW L Ds vars).F env v = .ok r) :
    r.value = F64.sub r.env.M (F64.div (F64.mul (F64.mul (fin 2)
        (L.exp (F64.mul (F64.neg r.env.Beta) (F64.sub r.env.DeltaS (F64.mul r.env.W r.env.QK)))))
      (L.cosh (F64.mul (F64.mul r.env.Beta r.env.M) (r.env.QJ Ds)))) (r.env.Z1 L Ds)) := by
  simp only [AbsErrorW, absErrorWF] at h
  cases hset : env.Set v vars with
  | error p => rw [hset] at h; cases h
  | ok e =>
    rw [hset] at h
    have h2 := Except.ok.inj h
    rw [← h2]

/-- The value a call of the residual function of the M equation returns, in terms of the state
it leaves. -/
theorem AbsErrorM_value (L : MathLib) (Ds : HoppingEV) (vars : List String) (env : Environment)
    (v : List F64) (r : Residual) (h : (AbsErrorM L Ds vars).F env v = .ok r) :
    r.value = F64.sub r.env.M (F64.div (F64.mul (F64.mul (fin 2)
        (L.exp (F64.mul (F64.neg r.env.Beta) (F64.sub r.env.DeltaS (F64.mul r.env.W r.env.QK)))))
      (L.sinh (F64.mul (F64.mul r.env.Beta r.env.M) (r.env.QJ Ds)))) (r.env.Z1 L Ds)) := by
  simp only [AbsErrorM, absErrorMF] at h
  cases hset : env.Set v vars with
  | error p => rw [hset] at h; cases h
  | ok e =>
    rw [hset] at h
    have h2 := Except.ok.inj h
    rw [← h2]

/-- The right-hand side of the W equation, when it is not NaN, is finite, on the grid and in
`[0, 1]`. -/
theorem rhsW_range (L : MathLib) (hL : L.Sound) (Ds : HoppingEV) (e : Environment)
    (h : F64.div (F64.mul (F64.mul (fin 2)
        (L.exp (F64.mul (F64.neg e.Beta) (F64.sub e.DeltaS (F64.mul e.W e.QK)))))
      (L.cosh (F64.mul (F64.mul e.Beta e.M) (e.QJ Ds)))) (e.Z1 L Ds) ≠ nan) :
    ∃ ρ : ℚ, F64.div (F64.mul (F64.mul (fin 2)
        (L.exp (F64.mul (F64.neg e.Beta) (F64.sub e.DeltaS (F64.mul e.W e.QK)))))
      (L.cosh (F64.mul (F64.mul e.Beta e.M) (e.QJ Ds)))) (e.Z1 L Ds) = fin ρ ∧
      0 ≤ ρ ∧ ρ ≤ 1 ∧ roundQ ρ = ρ := by
  unfold Environment.Z1 at h ⊢
  simp only [] at h ⊢
  have hc1 := cosh_ge_one_of_ne_nan L hL (F64.mul (F64.mul e.Beta e.M) (e.QJ Ds))
    (mul_ne_nan_right (div_ne_nan_left h))
  obtain ⟨ρ, e1, e2, e3, e4⟩ := rhs_range (two_mul_exp_nonneg L hL _)
    (cosh_ge_one_of_ne_nan L hL _) (fun _ => abs_le_self_of_one_le hc1) h
  exact ⟨ρ, e1, e4 (le_chain (by decide) hc1), (abs_le.mp e2).2, e3⟩

/-- The right-hand side of the M equation, when it is not NaN, is finite, on the grid and in
`[-1, 1]`. -/
theorem rhsM_range (L : MathLib) (hL : L.Sound)
    (hsc : ∀ x : F64, L.sinh x ≠ nan → le (F64.abs (L.sinh x)) (L.cosh x) = true)
    (Ds : HoppingEV) (e : Environment)
    (h : F64.div (F64.mul (F64.mul (fin 2)
        (L.exp (F64.mul (F64.neg e.Beta) (F64.sub e.DeltaS (F64.mul e.W e.QK)))))
      (L.sinh (F64.mul (F64.mul e.Beta e.M) (e.QJ Ds)))) (e.Z1 L Ds) ≠ nan) :
    ∃ ρ : ℚ, F64.div (F64.mul (F64.mul (fin 2)
        (L.exp (F64.mul (F64.neg e.Beta) (F64.sub e.DeltaS (F64.mul e.W e.QK)))))
      (L.sinh (F64.mul (F64.mul e.Beta e.M) (e.QJ Ds)))) (e.Z1 L Ds) = fin ρ ∧
      |ρ| ≤ 1 ∧ roundQ ρ = ρ := by
  unfold Environment.Z1 at h ⊢
  simp only [] at h ⊢
  obtain ⟨ρ, e1, e2, e3, _⟩ := rhs_range (two_mul_exp_nonneg L hL _)
    (cosh_ge_one_of_ne_nan L hL _) (hsc _) h
  exact ⟨ρ, e1, e2, e3⟩

/-- The right-hand side of the M equation is at most that of the W equation in absolute value,
when neither is NaN. -/
theorem rhsM_le_rhsW (L : MathLib) (hL : L.Sound)
    (hsc : ∀ x : F64, L.sinh x ≠ nan → le (F64.abs (L.sinh x)) (L.cosh x) = true)
    (Ds : HoppingEV) (e : Environment)
    (hM : F64.div (F64.mul (F64.mul (fin 2)
        (L.exp (F64.mul (F64.neg e.Beta) (F64.sub e.DeltaS (F64.mul e.W e.QK)))))
      (L.sinh (F64.mul (F64.mul e.Beta e.M) (e.QJ Ds)))) (e.Z1 L Ds) ≠ nan)
    (hW : F64.div (F64.mul (F64.mul (fin 2)
        (L.exp (F64.mul (F64.neg e.Beta) (F64.sub e.DeltaS (F64.mul e.W e.QK)))))
      (L.cosh (F64.mul (F64.mul e.Beta e.M) (e.QJ Ds)))) (e.Z1 L Ds) ≠ nan) :
    le (F64.abs (F64.div (F64.mul (F64.mul (fin 2)
        (L.exp (F64.mul (F64.neg e.Beta) (F64.sub e.DeltaS (F64.mul e.W e.QK)))))
      (L.sinh (F64.mul (F64.mul e.Beta e.M) (e.QJ Ds)))) (e.Z1 L Ds)))
      (F64.div (F64.mul (F64.mul (fin 2)
        (L.exp (F64.mul (F64.neg e.Beta) (F64.sub e.DeltaS (F64.mul e.W e.QK)))))
      (L.cosh (F64.mul (F64.mul e.Beta e.M) (e.QJ Ds)))) (e.Z1 L Ds)) = true := by
  have hts := div_ne_nan_left hM
  have htc := div_ne_nan_left hW
  have hu := two_mul_exp_nonneg L hL _ (mul_ne_nan_left htc)
  have hs := hsc _ (mul_ne_nan_right hts)
  have hc1 := cosh_ge_one_of_ne_nan L hL _ (mul_ne_nan_right htc)
  have hz : le (fin 1) (e.Z1 L Ds) = true :=
    one_add_ge (mul_nonneg_of_ne_nan hu (le_chain (by decide) hc1) htc)
  exact abs_div_le (abs_mul_le hu hs hts htc) hz hM hW


/-- The coarse `Sinh` is at most the coarse `Cosh` in absolute value. -/
theorem coarse_sinh_le_cosh (x : F64) (h : coarseMath.sinh x ≠ nan) :
    le (F64.abs (coarseMath.sinh x)) (coarseMath.cosh x) = true := by
  cases x with
  | nan => exact absurd rfl h
  | pinf => rfl
  | ninf => rfl
  | fin q =>
    show le (F64.abs (coarseSinh (fin q))) (coarseCosh (fin q)) = true
    simp only [coarseSinh, coarseCosh]
    by_cases h1 : 711 < q
    · rw [if_pos h1, if_pos (lt_of_lt_of_le h1 (le_abs_self q))]; rfl
    · by_cases h2 : q < -711
      · rw [if_neg h1, if_pos h2, if_pos (by rw [abs_of_neg (by linarith)]; linarith)]; rfl
      · have habs : |q| ≤ 711 := abs_le.mpr ⟨by linarith, by linarith⟩
        rw [if_neg h1, if_neg h2, if_neg (by linarith), abs_rnd]
        obtain ⟨k, hk⟩ : ∃ k : ℕ, ⌊|q|⌋ = (k : ℤ) :=
          ⟨⌊|q|⌋.toNat, (Int.toNat_of_nonneg (Int.floor_nonneg.mpr (abs_nonneg q))).symm⟩
        have hk711 : (k : ℤ) ≤ 711 := by
          rw [← hk]; exact Int.floor_le_floor (by exact_mod_cast habs) |>.trans (by simp)
        have hlt : |q| < (k : ℚ) + 1 := by
          have := Int.lt_floor_add_one |q|
          rw [hk] at this; exact_mod_cast this
        have hpow : (k : ℚ) + 1 ≤ 2 ^ k := by
          have : k + 1 ≤ 2 ^ k := Nat.lt_two_pow k
          exact_mod_cast this
        have hgrid := rnd_of_grid (m := 1) (e := (k : ℤ)) (by norm_num) (by omega) (by
          rw [abs_of_pos (by positivity)]
          have : (2 : ℚ) ^ (k : ℤ) ≤ 2 ^ (711 : ℤ) :=
            zpow_le_zpow_right₀ (by norm_num) hk711
          refine le_trans (by simpa using this) ?_
          unfold maxQ; norm_num)
        rw [hk]
        have hm := rnd_mono (a := |q|) (b := 2 ^ (k : ℤ)) (by
          rw [zpow_natCast]; linarith)
        have e : ((1 : ℤ) : ℚ) * 2 ^ (k : ℤ) = 2 ^ (k : ℤ) := by simp
        rw [e] at hgrid
        rwa [hgrid] at hm


/-- Adding 1 to a value on the grid that is at least `2^54` rounds back to the value. -/
theorem roundQ_one_add_big {u : ℚ} (hu : roundQ u = u) (h : 2 ^ 54 ≤ u) :
    roundQ (1 + u) = u := by
  have hpos : (0 : ℚ) < u := lt_of_lt_of_le (by norm_num) h
  have habs : |u| = u := abs_of_pos hpos
  have hk1 : (2 : ℚ) ^ Int.log 2 u ≤ u := by
    have := Int.zpow_log_le_self (b := 2) (r := u) (by norm_num) hpos
    exact_mod_cast this
  have hk2 : u < (2 : ℚ) ^ (Int.log 2 u + 1) := by
    have := Int.lt_zpow_succ_log_self (b := 2) (by norm_num) u
    exact_mod_cast this
  have hk : 54 ≤ Int.log 2 u := by
    have : (54 : ℤ) ≤ Int.log 2 u := by
      rw [← Int.zpow_le_iff_le_log (by norm_num) hpos]; exact_mod_cast h
    exact this
  set k := Int.log 2 u with hkdef
  have hq := quantumExp_eq (q := u) (k := k) (by omega) (by rw [habs]; exact hk1)
    (by rw [habs]; exact hk2)
  have hp : (0 : ℚ) < 2 ^ (k - 52) := by positivity
  have hun : (roundHalfEven (u / 2 ^ (k - 52)) : ℚ) * 2 ^ (k - 52) = u := by
    have := hu; unfold roundQ at this; rwa [hq] at this
  set n := roundHalfEven (u / 2 ^ (k - 52)) with hndef
  have hdiv : u / 2 ^ (k - 52) = n := by
    rw [div_eq_iff (ne_of_gt hp)]; exact hun.symm
  have h4 : (4 : ℚ) ≤ 2 ^ (k - 52) := by
    have : (2 : ℚ) ^ (2 : ℤ) ≤ 2 ^ (k - 52) := zpow_le_zpow_right₀ (by norm_num) (by omega)
    norm_num at this; exact this
  have e53 : (2 : ℚ) ^ (k + 1) = 2 ^ 53 * 2 ^ (k - 52) := by
    rw [show k + 1 = 53 + (k - 52) by ring, zpow_add₀ (by norm_num)]; norm_num
  have hn53 : n < 2 ^ 53 := by
    have : (n : ℚ) * 2 ^ (k - 52) < 2 ^ 53 * 2 ^ (k - 52) := by rw [hun, ← e53]; exact hk2
    have := lt_of_mul_lt_mul_right this hp.le
    exact_mod_cast this
  have hn53q : (n : ℚ) ≤ 2 ^ 53 - 1 := by
    have : n ≤ 2 ^ 53 - 1 := by omega
    exact_mod_cast this
  have hule : u ≤ 2 ^ (k + 1) - 2 ^ (k - 52) := by
    rw [e53, ← hun]; nlinarith
  have h1u : |1 + u| = 1 + u := abs_of_pos (by linarith)
  have hinv : 1 / (2 : ℚ) ^ (k - 52) ≤ 1 / 4 := by
    rw [div_le_div_iff₀ hp (by norm_num)]; linarith
  have hinv0 : 0 < 1 / (2 : ℚ) ^ (k - 52) := by positivity
  have hq2 : (1 + u) / 2 ^ (k - 52) = n + 1 / 2 ^ (k - 52) := by
    rw [add_div, hdiv]; ring
  have := roundQ_eq_of_near (q := 1 + u) (k := k) (n := n) (by omega)
    (by rw [h1u]; linarith) (by rw [h1u]; linarith)
    (by rw [hq2]; linarith) (by rw [hq2]; linarith)
  rw [this, hun]

theorem roundQ_two_pow (k : ℕ) : roundQ ((2 : ℚ) ^ k) = 2 ^ k := by
  have := roundQ_of_grid (m := 1) (e := (k : ℤ)) (by norm_num) (by omega)
  rw [Int.cast_one, one_mul, zpow_natCast] at this
  exact this

/-- The quotient `t/(1 + t)` with `t = 2*y*1` is exactly 1 once `y >= 2^53`. -/
theorem ratio_one_of_big {y : ℚ} (hlo : 2 ^ 53 ≤ y) (hhi : y ≤ 2 ^ 80) :
    F64.div (F64.mul (F64.mul (fin 2) (fin y)) (fin 1))
      (F64.add (fin 1) (F64.mul (F64.mul (fin 2) (fin y)) (fin 1))) = fin 1 := by
  have hU1 : (2 : ℚ) ^ 54 ≤ roundQ (2 * y) := by
    have := roundQ_mono (a := 2 ^ 54) (b := 2 * y) (by linarith)
    rwa [roundQ_two_pow] at this
  have hU2 : roundQ (2 * y) ≤ 2 ^ 81 := by
    have := roundQ_mono (a := 2 * y) (b := 2 ^ 81) (by linarith)
    rwa [roundQ_two_pow] at this
  have hUpos : (0 : ℚ) < roundQ (2 * y) := lt_of_lt_of_le (by norm_num) hU1
  have hUmax : |roundQ (2 * y)| ≤ maxQ := by
    rw [abs_of_pos hUpos]
    refine le_trans hU2 ?_
    unfold maxQ; norm_num
  have hu : F64.mul (fin 2) (fin y) = fin (roundQ (2 * y)) := by
    simp only [F64.mul]; exact rnd_of_roundQ rfl hUmax
  have ht : F64.mul (fin (roundQ (2 * y))) (fin 1) = fin (roundQ (2 * y)) := by
    simp only [F64.mul, mul_one]; exact rnd_of_roundQ (roundQ_idem _) hUmax
  have hz : F64.add (fin 1) (fin (roundQ (2 * y))) = fin (roundQ (2 * y)) := by
    simp only [F64.add]
    exact rnd_of_roundQ (roundQ_one_add_big (roundQ_idem _) hU1) hUmax
  rw [hu, ht, hz]
  simp only [F64.div, if_neg (ne_of_gt hUpos), div_self (ne_of_gt hUpos), rnd_one]


theorem cold_exp (L : MathLib) (hL : L.Sound) :
    L.exp (F64.mul (F64.neg coldEnv.Beta)
      (F64.sub coldEnv.DeltaS (F64.mul coldEnv.W coldEnv.QK))) = fin 0 := by
  have h1 : F64.mul (F64.neg coldEnv.Beta)
      (F64.sub coldEnv.DeltaS (F64.mul coldEnv.W coldEnv.QK)) = fin (-1000) := by
    norm_num [Environment.DeltaS, Environment.QK, coldEnv, zeroEnv, add_fin, mul_fin,
      sub_fin, neg_fin, rnd_of_den_one]
  rw [h1, hL.exp_underflow (-1000) (by norm_num)]

theorem cold_arg :
    F64.mul (F64.mul coldEnv.Beta coldEnv.M) (coldEnv.QJ zeroHopping) = fin 0 := by
  norm_num [Environment.QJ, coldEnv, zeroEnv, zeroHopping, add_fin, mul_fin,
    rnd_of_den_one]

/-- On the state `Beta = 1000`, `B = 1` the exponential factor underflows to 0: the right-hand
side of the W equation is exactly 0 and `M = 0` is a root of the residual of `AbsErrorW`. -/
theorem AbsErrorW_cold (L : MathLib) (hL : L.Sound) :
    F64.div (F64.mul (F64.mul (fin 2) (L.exp (F64.mul (F64.neg coldEnv.Beta)
        (F64.sub coldEnv.DeltaS (F64.mul coldEnv.W coldEnv.QK)))))
      (L.cosh (F64.mul (F64.mul coldEnv.Beta coldEnv.M) (coldEnv.QJ zeroHopping))))
      (coldEnv.Z1 L zeroHopping) = fin 0 ∧
    (AbsErrorW L zeroHopping ["M"]).F coldEnv [fin 0] =
      .ok { value := fin 0, err := none, env := coldEnv } := by
  have hr : F64.div (F64.mul (F64.mul (fin 2) (L.exp (F64.mul (F64.neg coldEnv.Beta)
        (F64.sub coldEnv.DeltaS (F64.mul coldEnv.W coldEnv.QK)))))
      (L.cosh (F64.mul (F64.mul coldEnv.Beta coldEnv.M) (coldEnv.QJ zeroHopping))))
      (coldEnv.Z1 L zeroHopping) = fin 0 := by
    unfold Environment.Z1
    simp only []
    rw [cold_exp L hL, cold_arg, hL.cosh_zero]
    norm_num [add_fin, mul_fin, div_fin, rnd_of_den_one]
  refine ⟨hr, ?_⟩
  have hset : coldEnv.Set [fin 0] ["M"] = .ok coldEnv := rfl
  simp only [AbsErrorW, absErrorWF, hset]
  show Except.ok _ = _
  rw [hr]
  norm_num [sub_fin, rnd_of_den_one, coldEnv, zeroEnv]

theorem warm_exp (L : MathLib) (hA : L.Accurate) :
    ∃ y : ℚ, L.exp (F64.mul (F64.neg { warmWellEnv with M := fin 1 }.Beta)
      (F64.sub (Environment.DeltaS { warmWellEnv with M := fin 1 })
        (F64.mul { warmWellEnv with M := fin 1 }.W
          (Environment.QK { warmWellEnv with M := fin 1 })))) = fin y ∧
      2 ^ 53 ≤ y ∧ y ≤ 2 ^ 80 := by
  have h1 : F64.mul (F64.neg { warmWellEnv with M := fin 1 }.Beta)
      (F64.sub (Environment.DeltaS { warmWellEnv with M := fin 1 })
        (F64.mul { warmWellEnv with M := fin 1 }.W
          (Environment.QK { warmWellEnv with M := fin 1 }))) = fin 50 := by
    norm_num [Environment.DeltaS, Environment.QK, warmWellEnv, zeroEnv, add_fin, mul_fin,
      sub_fin, neg_fin, rnd_of_den_one]
  rw [h1]
  exact exp_bounds L hA 50 _ _ (by norm_num [abs_of_pos]) (by norm_num) (by norm_num)

theorem warm_arg :
    F64.mul (F64.mul { warmWellEnv with M := fin 1 }.Beta { warmWellEnv with M := fin 1 }.M)
      (Environment.QJ { warmWellEnv with M := fin 1 } zeroHopping) = fin 0 := by
  norm_num [Environment.QJ, warmWellEnv, zeroEnv, zeroHopping, add_fin, mul_fin,
    rnd_of_den_one]

/-- On the state `Beta = 1`, `B = -50` with the trial value `M = 1` the factor `2*exp(50)` is so large that `1 + t`
rounds to `t`: the right-hand side of the W equation is exactly 1 and `M = 1` is a root of the
residual of `AbsErrorW`. -/
theorem AbsErrorW_warm (L : MathLib) (hL : L.Sound) (hA : L.Accurate) :
    (AbsErrorW L zeroHopping ["M"]).F warmWellEnv [fin 1] =
      .ok { value := fin 0, err := none, env := { warmWellEnv with M := fin 1 } } := by
  obtain ⟨y, hy, hlo, hhi⟩ := warm_exp L hA
  have hset : warmWellEnv.Set [fin 1] ["M"] = .ok { warmWellEnv with M := fin 1 } := rfl
  simp only [AbsErrorW, absErrorWF, hset]
  show Except.ok _ = _
  unfold Environment.Z1
  simp only []
  rw [hy, warm_arg, hL.cosh_zero, ratio_one_of_big hlo hhi]
  norm_num [sub_fin, rnd_of_den_one, warmWellEnv, zeroEnv]


/-- C20, amended: for every state, every provider and every math library that meets the
contract and has `|Sinh| <= Cosh`, the right-hand side `2*exp(..)*cosh(..)/Z1` of the W
equation, when it is not NaN, lies in the closed interval `[0, 1]`; that of the M equation,
when it is not NaN, is at most 1 in absolute value, and at most the right-hand side of the W
equation when neither is NaN. Hence every float64 root `M` of the residual of `AbsErrorW` has
`0 <= M <= 1` and every float64 root of the residual of `AbsErrorM` has `|M| <= 1`. -/
theorem residual_roots_bounded (L : MathLib) (hL : L.Sound)
    (hsc : ∀ x : F64, L.sinh x ≠ nan → le (F64.abs (L.sinh x)) (L.cosh x) = true)
    (Ds : HoppingEV) (vars : List String) (env : Environment) (v : List F64) (r : Residual) :
    (∀ e : Environment,
      (F64.div (F64.mul (F64.mul (fin 2)
          (L.exp (F64.mul (F64.neg e.Beta) (F64.sub e.DeltaS (F64.mul e.W e.QK)))))
        (L.cosh (F64.mul (F64.mul e.Beta e.M) (e.QJ Ds)))) (e.Z1 L Ds) ≠ nan →
        le (fin 0) (F64.div (F64.mul (F64.mul (fin 2)
          (L.exp (F64.mul (F64.neg e.Beta) (F64.sub e.DeltaS (F64.mul e.W e.QK)))))
        (L.cosh (F64.mul (F64.mul e.Beta e.M) (e.QJ Ds)))) (e.Z1 L Ds)) = true ∧
        le (F64.div (F64.mul (F64.mul (fin 2)
          (L.exp (F64.mul (F64.neg e.Beta) (F64.sub e.DeltaS (F64.mul e.W e.QK)))))
        (L.cosh (F64.mul (F64.mul e.Beta e.M) (e.QJ Ds)))) (e.Z1 L Ds)) (fin 1) = true) ∧
      (F64.div (F64.mul (F64.mul (fin 2)
          (L.exp (F64.mul (F64.neg e.Beta) (F64.sub e.DeltaS (F64.mul e.W e.QK)))))
        (L.sinh (F64.mul (F64.mul e.Beta e.M) (e.QJ Ds)))) (e.Z1 L Ds) ≠ nan →
        le (F64.abs (F64.div (F64.mul (F64.mul (fin 2)
          (L.exp (F64.mul (F64.neg e.Beta) (F64.sub e.DeltaS (F64.mul e.W e.QK)))))
        (L.sinh (F64.mul (F64.mul e.Beta e.M) (e.QJ Ds)))) (e.Z1 L Ds))) (fin 1) = true) ∧
      (F64.div (F64.mul (F64.mul (fin 2)
          (L.exp (F64.mul (F64.neg e.Beta) (F64.sub e.DeltaS (F64.mul e.W e.QK)))))
        (L.sinh (F64.mul (F64.mul e.Beta e.M) (e.QJ Ds)))) (e.Z1 L Ds) ≠ nan →
        F64.div (F64.mul (F64.mul (fin 2)
          (L.exp (F64.mul (F64.neg e.Beta) (F64.sub e.DeltaS (F64.mul e.W e.QK)))))
        (L.cosh (F64.mul (F64.mul e.Beta e.M) (e.QJ Ds)))) (e.Z1 L Ds) ≠ nan →
        le (F64.abs (F64.div (F64.mul (F64.mul (fin 2)
          (L.exp (F64.mul (F64.neg e.Beta) (F64.sub e.DeltaS (F64.mul e.W e.QK)))))
        (L.sinh (F64.mul (F64.mul e.Beta e.M) (e.QJ Ds)))) (e.Z1 L Ds)))
          (F64.div (F64.mul (F64.mul (fin 2)
          (L.exp (F64.mul (F64.neg e.Beta) (F64.sub e.DeltaS (F64.mul e.W e.QK)))))
        (L.cosh (F64.mul (F64.mul e.Beta e.M) (e.QJ Ds)))) (e.Z1 L Ds)) = true)) ∧
    ((AbsErrorW L Ds vars).F env v = .ok r → isFloat64 r.env.M = true →
      F64.eq r.value (fin 0) = true →
      le (fin 0) r.env.M = true ∧ le r.env.M (fin 1) = true) ∧
    ((AbsErrorM L Ds vars).F env v = .ok r → isFloat64 r.env.M = true →
      F64.eq r.value (fin 0) = true → le (F64.abs r.env.M) (fin 1) = true) := by
  refine ⟨fun e => ⟨fun h => ?_, fun h => ?_, fun h1 h2 => rhsM_le_rhsW L hL hsc Ds e h1 h2⟩,
    fun hF hM hroot => ?_, fun hF hM hroot => ?_⟩
  · obtain ⟨ρ, e1, e2, e3, _⟩ := rhsW_range L hL Ds e h
    rw [e1]
    simp only [F64.le, decide_eq_true_eq]
    exact ⟨e2, e3⟩
  · obtain ⟨ρ, e1, e2, _⟩ := rhsM_range L hL hsc Ds e h
    rw [e1]
    simp only [F64.abs, F64.le, decide_eq_true_eq]
    exact e2
  · have hv := AbsErrorW_value L Ds vars env v r hF
    rw [hv] at hroot
    have hne : F64.div (F64.mul (F64.mul (fin 2) (L.exp (F64.mul (F64.neg r.env.Beta)
          (F64.sub r.env.DeltaS (F64.mul r.env.W r.env.QK)))))
        (L.cosh (F64.mul (F64.mul r.env.Beta r.env.M) (r.env.QJ Ds))))
        (r.env.Z1 L Ds) ≠ nan := by
      intro hn
      rw [hn] at hroot
      cases hm : r.env.M <;> rw [hm] at hroot <;> simp [F64.sub, F64.add, F64.neg, F64.eq] at hroot
    obtain ⟨ρ, e1, e2, e3, e4⟩ := rhsW_range L hL Ds r.env hne
    rw [root_eq_rhs e1 e4 hM hroot]
    simp only [F64.le, decide_eq_true_eq]
    exact ⟨e2, e3⟩
  · have hv := AbsErrorM_value L Ds vars env v r hF
    rw [hv] at hroot
    have hne : F64.div (F64.mul (F64.mul (fin 2) (L.exp (F64.mul (F64.neg r.env.Beta)
          (F64.sub r.env.DeltaS (F64.mul r.env.W r.env.QK)))))
        (L.sinh (F64.mul (F64.mul r.env.Beta r.env.M) (r.env.QJ Ds))))
        (r.env.Z1 L Ds) ≠ nan := by
      intro hn
      rw [hn] at hroot
      cases hm : r.env.M <;> rw [hm] at hroot <;> simp [F64.sub, F64.add, F64.neg, F64.eq] at hroot
    obtain ⟨ρ, e1, e2, e3⟩ := rhsM_range L hL hsc Ds r.env hne
    rw [root_eq_rhs e1 e3 hM hroot]
    simp only [F64.abs, F64.le, decide_eq_true_eq]
    exact e2

/-- The root `M = 0` of the residual of `AbsErrorW` on the state `Beta = 1000`, `B = 1` lies
in `[0, 1]`. -/
theorem residual_roots_bounded_witness :
    (AbsErrorW coarseMath zeroHopping ["M"]).F coldEnv [fin 0] =
      .ok { value := fin 0, err := none, env := coldEnv } ∧
    isFloat64 coldEnv.M = true ∧
    le (fin 0) coldEnv.M = true ∧ le coldEnv.M (fin 1) = true :=
  ⟨(AbsErrorW_cold coarseMath coarseMath_sound).2, by simp [isFloat64, coldEnv, zeroEnv, rnd_zero],
    (residual_roots_bounded coarseMath coarseMath_sound coarse_sinh_le_cosh zeroHopping ["M"]
      coldEnv [fin 0] { value := fin 0, err := none, env := coldEnv }).2.1
      (AbsErrorW_cold coarseMath coarseMath_sound).2
      (by simp [isFloat64, coldEnv, zeroEnv, rnd_zero]) (by decide)⟩

/-- C20 as stated fails at both ends of the interval. On the state `Beta = 1000`, `B = 1`
(every other field zero) the factor `exp(-1000)` underflows to 0, so the right-hand side
`2*exp(..)*cosh(..)/Z1` of the W equation is exactly 0, not `> 0`, and `M = 0` is a root of
the residual of `AbsErrorW`. On the state `Beta = 1`, `B = -50` with the trial value `M = 1`
the sum `1 + 2*exp(50)` rounds to `2*exp(50)`, so the right-hand side is exactly 1 and `M = 1`
is a root. So it is with every math library that meets the contracts, the one with the `Exp`
within the bracket among them. -/
theorem residual_root_not_interior :
    (∀ L : MathLib, L.Sound →
      F64.div (F64.mul (F64.mul (fin 2) (L.exp (F64.mul (F64.neg coldEnv.Beta)
          (F64.sub coldEnv.DeltaS (F64.mul coldEnv.W coldEnv.QK)))))
        (L.cosh (F64.mul (F64.mul coldEnv.Beta coldEnv.M) (coldEnv.QJ zeroHopping))))
        (coldEnv.Z1 L zeroHopping) = fin 0 ∧
      (AbsErrorW L zeroHopping ["M"]).F coldEnv [fin 0] =
        .ok { value := fin 0, err := none, env := coldEnv }) ∧
    (∀ L : MathLib, L.Sound → L.Accurate →
      (AbsErrorW L zeroHopping ["M"]).F warmWellEnv [fin 1] =
        .ok { value := fin 0, err := none, env := { warmWellEnv with M := fin 1 } }) ∧
    (AbsErrorW bracketMath zeroHopping ["M"]).F coldEnv [fin 0] =
      .ok { value := fin 0, err := none, env := coldEnv } ∧
    (AbsErrorW bracketMath zeroHopping ["M"]).F warmWellEnv [fin 1] =
      .ok { value := fin 0, err := none, env := { warmWellEnv with M := fin 1 } } :=
  ⟨AbsErrorW_cold, AbsErrorW_warm, (AbsErrorW_cold bracketMath bracketMath_sound).2,
    AbsErrorW_warm bracketMath bracketMath_sound bracketMath_accurate⟩

end Vo2
